import Mathlib

/-!
# Galois/Counter Mode (nettle `gcm.c`)

A shallow embedding of `gcm.c` and the properties of its specification.

* bytes are natural numbers below 256, a 16-byte array is a `Block`;
* caller buffers are lists of bytes, a pointer into one is the list together
  with an offset;
* `unsigned long` words are natural numbers reduced modulo `2 ^ 32` or
  `2 ^ 64`, the two `uint64_t` counters are reduced modulo `2 ^ 64`;
* a failed `assert` is `Except.error`, carrying the session as it stood when
  the assertion failed.
-/

namespace Gcm

/-! ## Constants -/

/-- Modelled from the spec: `GCM_BLOCK_SIZE` of `gcm.h`, "block size = 16 bytes". -/
def GCM_BLOCK_SIZE : Nat := 16

/-- Modelled from the spec: `GCM_IV_SIZE` of `gcm.h`, "nonce length = 12 bytes". -/
def GCM_IV_SIZE : Nat := 12

/-- The constant `GHASH_POLYNOMIAL`. -/
def GHASH_POLYNOMIAL : Nat := 0xE1

/-! ## Blocks -/

/-- A `uint8_t[GCM_BLOCK_SIZE]` array. -/
structure Block where
  bytes : List Nat
  size_eq : bytes.length = 16
  byte_lt : ∀ b ∈ bytes, b < 256
deriving DecidableEq

/-- The block whose byte `i` is `g i`, each store truncated to `uint8_t`. -/
def Block.ofFn (g : Nat → Nat) : Block where
  bytes := (List.range 16).map fun i => g i % 256
  size_eq := by simp
  byte_lt := by
    intro b hb
    obtain ⟨i, _, rfl⟩ := List.mem_map.mp hb
    exact Nat.mod_lt _ (by decide)

/-- Byte `i` of a block. -/
def Block.get (b : Block) (i : Nat) : Nat := b.bytes.getD i 0

/-- The block copied from the first 16 bytes of a list. -/
def Block.ofList (l : List Nat) : Block := Block.ofFn fun i => l.getD i 0

/-- The all-zero block, `memset (p, 0, GCM_BLOCK_SIZE)`. -/
def Block.zero : Block := Block.ofFn fun _ => 0

/-! ## Library helpers that `gcm.c` calls -/

/-- Modelled from the spec: `memxor (dst + dpos, src + spos, n)` of `memxor.h`,
which XORs `n` bytes of the source into the destination and leaves the rest
of the destination as it is. -/
def memxor (dst : List Nat) (dpos : Nat) (src : List Nat) (spos n : Nat) : List Nat :=
  (List.range dst.length).map fun i =>
    if dpos ≤ i ∧ i < dpos + n then dst.getD i 0 ^^^ src.getD (spos + (i - dpos)) 0
    else dst.getD i 0

/-- Modelled from the spec: `memxor3 (dst + dpos, a + apos, b, n)` of
`memxor.h`, which stores the XOR of `n` bytes of `a` and `b` into the
destination and leaves the rest of the destination as it is. -/
def memxor3 (dst : List Nat) (dpos : Nat) (a : List Nat) (apos : Nat) (b : List Nat)
    (n : Nat) : List Nat :=
  (List.range dst.length).map fun i =>
    if dpos ≤ i ∧ i < dpos + n then a.getD (apos + (i - dpos)) 0 ^^^ b.getD (i - dpos) 0
    else dst.getD i 0

/-- The store of a cipher output block, `f (cipher, GCM_BLOCK_SIZE, dst + dpos, src)`:
16 bytes are written at `dst + dpos`. -/
def put_block (dst : List Nat) (dpos : Nat) (blk : Block) : List Nat :=
  (List.range dst.length).map fun i =>
    if dpos ≤ i ∧ i < dpos + GCM_BLOCK_SIZE then blk.get (i - dpos) else dst.getD i 0

/-- Big-endian value of a byte string. -/
def load_be (bs : List Nat) : Nat := bs.foldl (fun acc b => 256 * acc + b) 0

/-- Little-endian value of a byte string. -/
def load_le (bs : List Nat) : Nat := bs.foldr (fun b acc => b + 256 * acc) 0

/-- Byte `i` (in memory order) of a `size`-byte word stored big-endian. -/
def byte_be (size w i : Nat) : Nat := (w >>> (8 * (size - 1 - i))) % 256

/-- Byte `i` (in memory order) of a word stored little-endian. -/
def byte_le (w i : Nat) : Nat := (w >>> (8 * i)) % 256

/-- Modelled from the spec: `WRITE_UINT64 (p, v)` of `macros.h`, the "64-bit
big-endian" encoding of `v`. -/
def WRITE_UINT64 (v : Nat) : List Nat := (List.range 8).map fun i => byte_be 8 v i

/-- Modelled from the spec: the macro `INCREMENT (size, ctr)` of `macros.h`,
which adds one to the `size` bytes at `ctr` read as a big-endian integer,
modulo `2 ^ (8 * size)`: "the counter increment [is] addition modulo 2^32
restricted to the last 4 bytes of the block; the upper 12 bytes [...] never
change". The result is the buffer at `ctr` after the increment. -/
def INCREMENT (size : Nat) (ctr : List Nat) : List Nat :=
  (List.range ctr.length).map fun i =>
    if i < size then byte_be size ((load_be (ctr.take size) + 1) % 2 ^ (8 * size)) i
    else ctr.getD i 0

/-- The macro `INC32 (block)`, `INCREMENT (4, (block) + GCM_BLOCK_SIZE - 4)`:
increment the rightmost 32 bits. -/
def INC32 (block : Block) : Block :=
  Block.ofList (block.bytes.take (GCM_BLOCK_SIZE - 4) ++
    INCREMENT 4 (block.bytes.drop (GCM_BLOCK_SIZE - 4)))

/-- The last 4 bytes of a block, read as a big-endian 32-bit integer. -/
def low32 (block : Block) : Nat := load_be (block.bytes.drop (GCM_BLOCK_SIZE - 4))

/-- The counter block `C_k` of the specification: `C` with its last 4 bytes,
read as a big-endian 32-bit integer, replaced by that integer plus `k`
modulo `2 ^ 32`. -/
def ctr_add (C : Block) (k : Nat) : Block :=
  Block.ofFn fun i =>
    if i < 12 then C.get i else byte_be 4 ((low32 C + k) % 2 ^ 32) (i - 12)

/-- The bytewise XOR of two blocks. -/
def Block.xor (a b : Block) : Block := Block.ofFn fun i => a.get i ^^^ b.get i

/-- The length block of the specification: the 64-bit big-endian encoding
of `8 * a` modulo `2 ^ 64` followed by the 64-bit big-endian encoding of
`8 * d` modulo `2 ^ 64`. -/
def length_block (a d : Nat) : Block :=
  Block.ofFn fun i =>
    if i < 8 then 8 * a % 2 ^ 64 / 256 ^ (7 - i) % 256 else 8 * d % 2 ^ 64 / 256 ^ (15 - i) % 256

/-! ## Field arithmetic -/

/-- The four bodies of `gcm_rightshift`, chosen at compile time by
`WORDS_BIGENDIAN` and `SIZEOF_LONG`. In the big-endian body for 4-byte
words the constant `GHASH_POLYNOMIAL << 24` is taken as the 32-bit pattern
`0xE1000000`. In the big-endian body for 8-byte words the constant
`GHASH_POLYNOMIAL << 56` shifts an `int` by more than its width, which C
leaves undefined: the value the compiler gives it, as an `unsigned long`, is
the parameter `poly`. -/
inductive Build where
  | be4
  | be8 (poly : Nat)
  | le4
  | le8
deriving DecidableEq

/-- The builds in which the constant XORed into the first word is
`GHASH_POLYNOMIAL` in the top byte of that word: every build but a
big-endian one with 8-byte words whose compiler gives the undefined shift
another value. -/
def Build.reduces : Build → Prop
  | .be8 poly => poly % 2 ^ 64 = GHASH_POLYNOMIAL <<< 56
  | _ => True

/-- The word `w[k]` of `(unsigned long *) x` on a big-endian host. -/
def word_be (size : Nat) (x : Block) (k : Nat) : Nat :=
  load_be ((x.bytes.drop (size * k)).take size)

/-- The word `w[k]` of `(unsigned long *) x` on a little-endian host. -/
def word_le (size : Nat) (x : Block) (k : Nat) : Nat :=
  load_le ((x.bytes.drop (size * k)).take size)

/-- The `long` value `- v` for `v` either 0 or 1, as its bit pattern on
`8 * size` bits. -/
def neg_mask (size v : Nat) : Nat := (2 ^ (8 * size) - v) % 2 ^ (8 * size)

/-- The macro `RSHIFT_WORD` for `SIZEOF_LONG == 4`. -/
def RSHIFT_WORD_4 (x : Nat) : Nat :=
  ((x &&& 0xfefefefe) >>> 1) ||| (((x &&& 0x01010101) <<< 15) % 2 ^ 32)

/-- The macro `RSHIFT_WORD` for `SIZEOF_LONG == 8`. -/
def RSHIFT_WORD_8 (x : Nat) : Nat :=
  ((x &&& 0xfefefefefefefefe) >>> 1) ||| (((x &&& 0x0101010101010101) <<< 15) % 2 ^ 64)

/-- The function `gcm_rightshift`: multiplication by 010...0, a big-endian
shift right, with the defining polynomial added when the bit shifted out
is one. -/
def gcm_rightshift : Build → Block → Block
  | .be4, x =>
    let w0 := word_be 4 x 0
    let w1 := word_be 4 x 1
    let w2 := word_be 4 x 2
    let w3 := word_be 4 x 3
    let mask := neg_mask 4 (w3 &&& 1)
    let w3 := (w3 >>> 1) ||| (((w2 &&& 1) <<< 31) % 2 ^ 32)
    let w2 := (w2 >>> 1) ||| (((w1 &&& 1) <<< 31) % 2 ^ 32)
    let w1 := (w1 >>> 1) ||| (((w0 &&& 1) <<< 31) % 2 ^ 32)
    let w0 := (w0 >>> 1) ^^^ (mask &&& ((GHASH_POLYNOMIAL <<< 24) % 2 ^ 32))
    Block.ofFn fun i =>
      if i < 4 then byte_be 4 w0 i else if i < 8 then byte_be 4 w1 (i - 4)
      else if i < 12 then byte_be 4 w2 (i - 8) else byte_be 4 w3 (i - 12)
  | .be8 poly, x =>
    let w0 := word_be 8 x 0
    let w1 := word_be 8 x 1
    let mask := neg_mask 8 (w1 &&& 1)
    let w1 := (w1 >>> 1) ||| (((w0 &&& 1) <<< 63) % 2 ^ 64)
    let w0 := (w0 >>> 1) ^^^ (mask &&& (poly % 2 ^ 64))
    Block.ofFn fun i => if i < 8 then byte_be 8 w0 i else byte_be 8 w1 (i - 8)
  | .le4, x =>
    let w0 := word_le 4 x 0
    let w1 := word_le 4 x 1
    let w2 := word_le 4 x 2
    let w3 := word_le 4 x 3
    let mask := neg_mask 4 ((w3 >>> 24) &&& 1)
    let w3 := RSHIFT_WORD_4 w3 ||| ((w2 >>> 17) &&& 0x80)
    let w2 := RSHIFT_WORD_4 w2 ||| ((w1 >>> 17) &&& 0x80)
    let w1 := RSHIFT_WORD_4 w1 ||| ((w0 >>> 17) &&& 0x80)
    let w0 := RSHIFT_WORD_4 w0 ^^^ (mask &&& GHASH_POLYNOMIAL)
    Block.ofFn fun i =>
      if i < 4 then byte_le w0 i else if i < 8 then byte_le w1 (i - 4)
      else if i < 12 then byte_le w2 (i - 8) else byte_le w3 (i - 12)
  | .le8, x =>
    let w0 := word_le 8 x 0
    let w1 := word_le 8 x 1
    let mask := neg_mask 8 ((w1 >>> 56) &&& 1)
    let w1 := RSHIFT_WORD_8 w1 ||| ((w0 >>> 49) &&& 0x80)
    let w0 := RSHIFT_WORD_8 w0 ^^^ (mask &&& GHASH_POLYNOMIAL)
    Block.ofFn fun i => if i < 8 then byte_le w0 i else byte_le w1 (i - 8)

/-- The call `memxor (x, src + spos, n)` on a block `x`: the block it leaves in `x`. -/
def Block.memxor (x : Block) (src : List Nat) (spos n : Nat) : Block :=
  Block.ofList (Gcm.memxor x.bytes 0 src spos n)

/-- The inner loop of `gcm_gf_mul`, `for (j = 0; j < 8; j++, b <<= 1)`, with
`n` iterations left: the state is `(Z, V)`. -/
def gcm_gf_mul_bits (bld : Build) : Nat → Nat → Block × Block → Block × Block
  | 0, _, s => s
  | n + 1, b, (Z, V) =>
    gcm_gf_mul_bits bld n ((b <<< 1) % 256)
      (if b &&& 0x80 ≠ 0 then Z.memxor V.bytes 0 GCM_BLOCK_SIZE else Z, gcm_rightshift bld V)

/-- The function `gcm_gf_mul (x, y)`: the block it leaves in `x`. -/
def gcm_gf_mul (bld : Build) (x y : Block) : Block :=
  (y.bytes.foldl (fun s b => gcm_gf_mul_bits bld 8 b s) (Block.zero, x)).1

/-! ## The session -/

/-- Modelled from the spec: the structure `struct gcm_ctx` of `gcm.h`, with
the hash subkey `h`, the pre-counter block `iv`, the counter `ctr`, the
accumulator `x` and the two "unsigned 64-bit counters" `auth_size` and
`data_size`. -/
structure gcm_ctx where
  h : Block
  iv : Block
  ctr : Block
  x : Block
  auth_size : Nat
  data_size : Nat
deriving DecidableEq

/-- The `src` argument of `gcm_crypt`, `gcm_encrypt` and `gcm_decrypt`: the
pointer `dst` itself (`src == dst`) or a buffer that does not overlap the
destination. -/
inductive Source where
  | same
  | other (bytes : List Nat)
deriving DecidableEq

/-- The bytes `src` points to, given the present content of `dst`. -/
def Source.read : Source → List Nat → List Nat
  | .same, dst => dst
  | .other bytes, _ => bytes

/-- The block `b` with byte `k` set to `v`. -/
def Block.set (b : Block) (k v : Nat) : Block := Block.ofFn fun i => if i = k then v else b.get i

/-- The call `memcpy (b, src, n)` on a block `b`: the block it leaves in `b`. -/
def Block.memcpy (b : Block) (src : List Nat) (n : Nat) : Block :=
  Block.ofFn fun i => if i < n then src.getD i 0 else b.get i

/-- The function `gcm_set_key`, for `GCM_TABLE_BITS` equal to 0; the cipher
context and the callback `f` together are the function `f` on blocks. -/
def gcm_set_key (f : Block → Block) (ctx : gcm_ctx) : gcm_ctx :=
  { ctx with h := f Block.zero }

/-- The function `gcm_set_iv`. -/
def gcm_set_iv (ctx : gcm_ctx) (length : Nat) (iv : List Nat) : Except gcm_ctx gcm_ctx :=
  if length = GCM_IV_SIZE then
    let ctx := { ctx with iv := ctx.iv.memcpy iv (GCM_BLOCK_SIZE - 4) }
    let ctx := { ctx with iv := ctx.iv.set (GCM_BLOCK_SIZE - 4) 0 }
    let ctx := { ctx with iv := ctx.iv.set (GCM_BLOCK_SIZE - 3) 0 }
    let ctx := { ctx with iv := ctx.iv.set (GCM_BLOCK_SIZE - 2) 0 }
    let ctx := { ctx with iv := ctx.iv.set (GCM_BLOCK_SIZE - 1) 1 }
    let ctx := { ctx with ctr := ctx.ctr.memcpy ctx.iv.bytes GCM_BLOCK_SIZE }
    let ctx := { ctx with ctr := INC32 ctx.ctr }
    let ctx := { ctx with x := Block.zero }
    .ok { ctx with auth_size := 0, data_size := 0 }
  else .error ctx

/-- The first loop of `gcm_hash`, over the full blocks of `data + pos`: the
session, the length and the position when the loop is left. -/
def gcm_hash_blocks (bld : Build) (ctx : gcm_ctx) (length : Nat) (data : List Nat)
    (pos : Nat) : gcm_ctx × Nat × Nat :=
  if GCM_BLOCK_SIZE ≤ length then
    let ctx := { ctx with x := ctx.x.memxor data pos GCM_BLOCK_SIZE }
    let ctx := { ctx with x := gcm_gf_mul bld ctx.x ctx.h }
    gcm_hash_blocks bld ctx (length - GCM_BLOCK_SIZE) data (pos + GCM_BLOCK_SIZE)
  else (ctx, length, pos)
termination_by length
decreasing_by simp only [GCM_BLOCK_SIZE] at *; omega

/-- The function `gcm_hash`. -/
def gcm_hash (bld : Build) (ctx : gcm_ctx) (length : Nat) (data : List Nat) : gcm_ctx :=
  let (ctx, length, pos) := gcm_hash_blocks bld ctx length data 0
  if 0 < length then
    let ctx := { ctx with x := ctx.x.memxor data pos length }
    { ctx with x := gcm_gf_mul bld ctx.x ctx.h }
  else ctx

/-- The function `gcm_auth`. -/
def gcm_auth (bld : Build) (ctx : gcm_ctx) (length : Nat) (data : List Nat) :
    Except gcm_ctx gcm_ctx :=
  if ctx.auth_size % GCM_BLOCK_SIZE = 0 then
    if ctx.data_size % GCM_BLOCK_SIZE = 0 then
      let ctx := gcm_hash bld ctx length data
      .ok { ctx with auth_size := (ctx.auth_size + length) % 2 ^ 64 }
    else .error ctx
  else .error ctx

/-- The loop of `gcm_crypt` on the branch `src != dst`: counter, length,
destination and position when the loop is left. Both pointers advance in
step, so one position serves for the two. -/
def gcm_crypt_blocks (f : Block → Block) (ctr : Block) (length : Nat) (dst src : List Nat)
    (pos : Nat) : Block × Nat × List Nat × Nat :=
  if GCM_BLOCK_SIZE ≤ length then
    let dst := put_block dst pos (f ctr)
    let dst := memxor dst pos src pos GCM_BLOCK_SIZE
    gcm_crypt_blocks f (INC32 ctr) (length - GCM_BLOCK_SIZE) dst src (pos + GCM_BLOCK_SIZE)
  else (ctr, length, dst, pos)
termination_by length
decreasing_by simp only [GCM_BLOCK_SIZE] at *; omega

/-- The loop of `gcm_crypt` on the branch `src == dst`. -/
def gcm_crypt_blocks_same (f : Block → Block) (ctr : Block) (length : Nat) (dst : List Nat)
    (pos : Nat) : Block × Nat × List Nat × Nat :=
  if GCM_BLOCK_SIZE ≤ length then
    let buffer := f ctr
    let dst := memxor3 dst pos dst pos buffer.bytes GCM_BLOCK_SIZE
    gcm_crypt_blocks_same f (INC32 ctr) (length - GCM_BLOCK_SIZE) dst (pos + GCM_BLOCK_SIZE)
  else (ctr, length, dst, pos)
termination_by length
decreasing_by simp only [GCM_BLOCK_SIZE] at *; omega

/-- The function `gcm_crypt`: the session and the destination buffer it leaves. -/
def gcm_crypt (f : Block → Block) (ctx : gcm_ctx) (length : Nat) (dst : List Nat)
    (src : Source) : gcm_ctx × List Nat :=
  let (ctr, length, dst, pos) :=
    match src with
    | .other bytes => gcm_crypt_blocks f ctx.ctr length dst bytes 0
    | .same => gcm_crypt_blocks_same f ctx.ctr length dst 0
  if 0 < length then
    let buffer := f ctr
    let dst := memxor3 dst pos (src.read dst) pos buffer.bytes length
    ({ ctx with ctr := INC32 ctr }, dst)
  else ({ ctx with ctr := ctr }, dst)

/-- The function `gcm_encrypt`. -/
def gcm_encrypt (bld : Build) (f : Block → Block) (ctx : gcm_ctx) (length : Nat)
    (dst : List Nat) (src : Source) : Except gcm_ctx (gcm_ctx × List Nat) :=
  if ctx.data_size % GCM_BLOCK_SIZE = 0 then
    let (ctx, dst) := gcm_crypt f ctx length dst src
    let ctx := gcm_hash bld ctx length dst
    .ok ({ ctx with data_size := (ctx.data_size + length) % 2 ^ 64 }, dst)
  else .error ctx

/-- The function `gcm_decrypt`. -/
def gcm_decrypt (bld : Build) (f : Block → Block) (ctx : gcm_ctx) (length : Nat)
    (dst : List Nat) (src : Source) : Except gcm_ctx (gcm_ctx × List Nat) :=
  if ctx.data_size % GCM_BLOCK_SIZE = 0 then
    let ctx := gcm_hash bld ctx length (src.read dst)
    let (ctx, dst) := gcm_crypt f ctx length dst src
    .ok ({ ctx with data_size := (ctx.data_size + length) % 2 ^ 64 }, dst)
  else .error ctx

/-- The function `gcm_digest`: the session and the `digest` buffer it leaves. -/
def gcm_digest (bld : Build) (f : Block → Block) (ctx : gcm_ctx) (length : Nat)
    (digest : List Nat) : Except gcm_ctx (gcm_ctx × List Nat) :=
  if length ≤ GCM_BLOCK_SIZE then
    let ctx := { ctx with data_size := (ctx.data_size * 8) % 2 ^ 64 }
    let ctx := { ctx with auth_size := (ctx.auth_size * 8) % 2 ^ 64 }
    let buffer := WRITE_UINT64 ctx.auth_size ++ WRITE_UINT64 ctx.data_size
    let ctx := gcm_hash bld ctx GCM_BLOCK_SIZE buffer
    let buffer := f ctx.iv
    let digest := memxor3 digest 0 ctx.x.bytes 0 buffer.bytes length
    .ok (ctx, digest)
  else .error ctx

/-! ## Sequences of calls -/

/-- A call on an armed session: `gcm_auth`, `gcm_encrypt` or `gcm_decrypt`
with its arguments. -/
inductive Call where
  | auth (length : Nat) (data : List Nat)
  | encrypt (length : Nat) (dst : List Nat) (src : Source)
  | decrypt (length : Nat) (dst : List Nat) (src : Source)

/-- The outcome of a call for the session: the session it leaves, or the
failed assertion. -/
def Call.run (bld : Build) (f : Block → Block) (ctx : gcm_ctx) : Call → Except gcm_ctx gcm_ctx
  | .auth length data => gcm_auth bld ctx length data
  | .encrypt length dst src => (gcm_encrypt bld f ctx length dst src).map Prod.fst
  | .decrypt length dst src => (gcm_decrypt bld f ctx length dst src).map Prod.fst

/-- The session after a call, accepted or rejected. -/
def Call.after (bld : Build) (f : Block → Block) (ctx : gcm_ctx) (c : Call) : gcm_ctx :=
  match c.run bld f ctx with
  | .ok ctx' => ctx'
  | .error ctx' => ctx'

/-- The session after a sequence of calls. -/
def after_calls (bld : Build) (f : Block → Block) (ctx : gcm_ctx) (calls : List Call) : gcm_ctx :=
  calls.foldl (Call.after bld f) ctx

/-- The number of bytes a call passes to `gcm_encrypt` or `gcm_decrypt`. -/
def Call.data_length : Call → Nat
  | .auth _ _ => 0
  | .encrypt length _ _ => length
  | .decrypt length _ _ => length

/-- The number of bytes that the accepted `gcm_encrypt` and `gcm_decrypt`
calls of a sequence have processed. -/
def processed_data (bld : Build) (f : Block → Block) : gcm_ctx → List Call → Nat
  | _, [] => 0
  | ctx, c :: calls =>
    match c.run bld f ctx with
    | .ok ctx' => c.data_length + processed_data bld f ctx' calls
    | .error ctx' => processed_data bld f ctx' calls

/-- The calls that protect one message: `gcm_set_key`, `gcm_set_iv` with the
nonce `N`, one `gcm_auth` call on the associated data `A`, one `gcm_encrypt`
call of `n` bytes and `gcm_digest` with tag length `t`. The result is the
`n` bytes of ciphertext and the `t` bytes of the tag. -/
def encrypt_message (bld : Build) (f : Block → Block) (ctx : gcm_ctx) (N A : List Nat) (n : Nat)
    (dst : List Nat) (src : Source) (t : Nat) (digest : List Nat) :
    Except gcm_ctx (List Nat × List Nat) := do
  let ctx := gcm_set_key f ctx
  let ctx ← gcm_set_iv ctx N.length N
  let ctx ← gcm_auth bld ctx A.length A
  let (ctx, dst) ← gcm_encrypt bld f ctx n dst src
  let (_, digest) ← gcm_digest bld f ctx t digest
  pure (dst.take n, digest.take t)

/-- The same calls with `gcm_decrypt` in the place of `gcm_encrypt`: the
result is the `n` bytes of plaintext and the `t` bytes of the tag. -/
def decrypt_message (bld : Build) (f : Block → Block) (ctx : gcm_ctx) (N A : List Nat) (n : Nat)
    (dst : List Nat) (src : Source) (t : Nat) (digest : List Nat) :
    Except gcm_ctx (List Nat × List Nat) := do
  let ctx := gcm_set_key f ctx
  let ctx ← gcm_set_iv ctx N.length N
  let ctx ← gcm_auth bld ctx A.length A
  let (ctx, dst) ← gcm_decrypt bld f ctx n dst src
  let (_, digest) ← gcm_digest bld f ctx t digest
  pure (dst.take n, digest.take t)

/-! ## The NIST test vector (AES-128, Test Case 2) -/

/-- The hash subkey `f (0^128)`. -/
def nist_H : Block :=
  Block.ofList [0x66, 0xe9, 0x4b, 0xd4, 0xef, 0x8a, 0x2c, 0x3b, 0x88, 0x4c, 0xfa, 0x59, 0xca, 0x34,
    0x2b, 0x2e]

/-- The pre-counter block `0^96 || 00000001`. -/
def nist_Y0 : Block := Block.ofList [0, 0, 0, 0, 0, 0, 0, 0, 0, 0, 0, 0, 0, 0, 0, 1]

/-- The first counter block `0^96 || 00000002`. -/
def nist_Y1 : Block := Block.ofList [0, 0, 0, 0, 0, 0, 0, 0, 0, 0, 0, 0, 0, 0, 0, 2]

/-- The cipher output `f (Y0)`. -/
def nist_E0 : Block :=
  Block.ofList [0x58, 0xe2, 0xfc, 0xce, 0xfa, 0x7e, 0x30, 0x61, 0x36, 0x7f, 0x1d, 0x57, 0xa4, 0xe7,
    0x45, 0x5a]

/-- The cipher output `f (Y1)`. -/
def nist_E1 : Block :=
  Block.ofList [0x03, 0x88, 0xda, 0xce, 0x60, 0xb6, 0xa3, 0x92, 0xf3, 0x28, 0xc2, 0xb9, 0x71, 0xb2,
    0xfe, 0x78]

/-! ## Closed forms used by the specification -/

/-- The session after `gcm_set_key` and `gcm_set_iv` with a 12-byte nonce `N`. -/
def armed (f : Block → Block) (N : List Nat) : gcm_ctx :=
  { h := f Block.zero
    iv := ((((Block.zero.memcpy N 12).set 12 0).set 13 0).set 14 0).set 15 1
    ctr := INC32 (((((Block.zero.memcpy N 12).set 12 0).set 13 0).set 14 0).set 15 1)
    x := Block.zero
    auth_size := 0
    data_size := 0 }

/-- Byte `j` of the keystream that starts at the counter block `C`: byte
`j mod 16` of `f (C_k)` with `k = floor (j / 16)`. -/
def keystream (f : Block → Block) (C : Block) (j : Nat) : Nat :=
  (f (ctr_add C (j / 16))).get (j % 16)

/-- The buffer `dst` with the bytes at `pos ≤ i < pos + m` replaced by the
bytes of `src` at the same indices XORed with the keystream from `C`. -/
def xor_keystream (f : Block → Block) (C : Block) (dst src : List Nat) (pos m : Nat) :
    List Nat :=
  (List.range dst.length).map fun i =>
    if pos ≤ i ∧ i < pos + m then src.getD i 0 ^^^ keystream f C (i - pos) else dst.getD i 0

/-- The accumulator `gcm_hash` leaves, as a function of the hash subkey, the
accumulator before, and the data. -/
def ghash (bld : Build) (h x : Block) (length : Nat) (data : List Nat) : Block :=
  (gcm_hash bld ⟨h, Block.zero, Block.zero, x, 0, 0⟩ length data).x

/-! ## Reachable states -/

/-- An operation on an armed session: a call of `gcm_auth`, `gcm_encrypt`
or `gcm_decrypt`, or a call of `gcm_digest`. -/
inductive Op where
  | call (c : Call)
  | digest (length : Nat) (digest : List Nat)

/-- The outcome of an operation for the session. -/
def Op.run (bld : Build) (f : Block → Block) (ctx : gcm_ctx) : Op → Except gcm_ctx gcm_ctx
  | .call c => c.run bld f ctx
  | .digest n buf => (gcm_digest bld f ctx n buf).map Prod.fst

/-- The session reached from `ctx` through a sequence of operations that are
all accepted; `none` when one of them is rejected. -/
def run_accepted (bld : Build) (f : Block → Block) : gcm_ctx → List Op → Option gcm_ctx
  | ctx, [] => some ctx
  | ctx, op :: ops =>
    match op.run bld f ctx with
    | .ok ctx' => run_accepted bld f ctx' ops
    | .error _ => none

/-- The number of bytes an operation passes to `gcm_auth`. -/
def Op.auth_length : Op → Nat
  | .call (.auth length _) => length
  | _ => 0

/-- The number of bytes an operation passes to `gcm_encrypt` or `gcm_decrypt`. -/
def Op.data_length : Op → Nat
  | .call c => c.data_length
  | .digest _ _ => 0

/-- The total number of bytes passed to `gcm_auth`. -/
def auth_bytes (ops : List Op) : Nat := (ops.map Op.auth_length).sum

/-- The total number of bytes passed to `gcm_encrypt` and `gcm_decrypt`. -/
def data_bytes (ops : List Op) : Nat := (ops.map Op.data_length).sum

/-- The byte-level shift of the specification: `y[0]` is `x[0] >> 1` XOR
`0xE1` when `x[15]` is odd, and `y[i]` is `(x[i] >> 1) OR ((x[i-1] AND 1) << 7)`
for `i = 1..15`. -/
def rightshift_bytes (x : Block) : Block :=
  Block.ofFn fun i =>
    if i = 0 then (x.get 0 >>> 1) ^^^ (if x.get 15 % 2 = 1 then 0xE1 else 0)
    else (x.get i >>> 1) ||| ((x.get (i - 1) &&& 1) <<< 7)

/-- Bit `j` of byte `i` of the block shifted right by one bit with
reduction: the bit above it in the byte, or the low bit of the byte before,
and in byte 0 the bits of `0xE1` XORed in when the low bit of byte 15 is
set. -/
def shift_bit (x : Block) (i j : Nat) : Bool :=
  if i = 0 then xor ((x.get 0).testBit (j + 1)) ((x.get 15).testBit 0 && (0xE1 : Nat).testBit j)
  else if j = 7 then (x.get (i - 1)).testBit 0
  else (x.get i).testBit (j + 1)

/-- The reading of the shift as arithmetic on one number: the block is read
as a big-endian 128-bit number, shifted right by one bit, and `0xE1` is
XORed into byte 0 (the top byte) when the bit shifted out is 1. -/
def rightshift_be128 (x : Block) : Block :=
  let n := load_be x.bytes
  Block.ofFn fun i => byte_be 16 ((n >>> 1) ^^^ (if n % 2 = 1 then 0xE1 <<< 120 else 0)) i

/-- The block `00 00 ... 00 01`: only the low bit of byte 15 is set. -/
def block_last_one : Block := Block.ofFn fun i => if i = 15 then 1 else 0

/-! ## Blocks as polynomials over GF(2) -/

/-- Coefficient of `X^k` of a block in the bit order of the GCM
specification: bit 7 of byte 0 is the coefficient of `X^0`, the next bit
that of `X^1`, and bit 0 of byte 15 that of `X^127`. -/
def Block.coeff (x : Block) (k : Nat) : Bool := (x.get (k / 8)).testBit (7 - k % 8)

/-- The polynomial over GF(2) of degree below 128 with the given
coefficients. -/
noncomputable def bits_poly (f : Nat → Bool) : Polynomial (ZMod 2) :=
  ∑ k ∈ Finset.range 128, if f k then Polynomial.X ^ k else 0

/-- The polynomial a block stands for in the bit order of the GCM
specification. -/
noncomputable def Block.poly (x : Block) : Polynomial (ZMod 2) := bits_poly x.coeff

/-- The polynomial a block stands for when the most significant bit of
byte 0 is read as the coefficient of `X^127` and the least significant bit
of byte 15 as the constant coefficient. -/
noncomputable def Block.poly_be (x : Block) : Polynomial (ZMod 2) :=
  bits_poly fun k => x.coeff (127 - k)

/-- The coefficients below `X^128` of the polynomial that a build of
`gcm_rightshift` adds when the bit shifted out is one: the bits of the
constant XORed into the first word, in the bit order of the specification. -/
def Build.red : Build → Nat → Bool
  | .be8 poly, k => decide (k < 64) && poly.testBit (63 - k)
  | _, k => decide (k = 0 ∨ k = 1 ∨ k = 2 ∨ k = 7)

/-- The polynomial that a build of `gcm_rightshift` reduces by. -/
noncomputable def Build.modulus (bld : Build) : Polynomial (ZMod 2) :=
  Polynomial.X ^ 128 + bits_poly bld.red

/-- The GCM field polynomial `X^128 + X^7 + X^2 + X + 1`. -/
noncomputable def field_polynomial : Polynomial (ZMod 2) :=
  Polynomial.X ^ 128 + Polynomial.X ^ 7 + Polynomial.X ^ 2 + Polynomial.X + 1

/-- The loop of `gcm_gf_mul` over the bits it tests, in the order it tests
them: for each bit, `Z` takes `V` when the bit is set, and `V` is shifted. -/
def mul_steps (bld : Build) : List Bool → Block × Block → Block × Block
  | [], s => s
  | bit :: bs, (Z, V) => mul_steps bld bs (if bit then Z.xor V else Z, gcm_rightshift bld V)

/-- The bits the inner loop of `gcm_gf_mul` tests in `n` iterations on the
byte `b`. -/
def byte_bits : Nat → Nat → List Bool
  | 0, _ => []
  | n + 1, b => b.testBit 7 :: byte_bits n ((b <<< 1) % 256)

/-- The bits `gcm_gf_mul` tests on a byte string. -/
def bits_of_bytes : List Nat → List Bool
  | [] => []
  | b :: bs => byte_bits 8 b ++ bits_of_bytes bs

/-- The polynomial over GF(2) whose coefficients are the bits of a list,
lowest degree first. -/
noncomputable def list_poly : List Bool → Polynomial (ZMod 2)
  | [] => 0
  | bit :: bs => (if bit then 1 else 0) + Polynomial.X * list_poly bs

/-- The block `40 00 ... 00`, written `010...0` bit by bit. -/
def block_X : Block := Block.ofFn fun i => if i = 0 then 0x40 else 0

/-! ## Lists and blocks -/

theorem getD_map_range (g : Nat → Nat) (n i : Nat) :
    ((List.range n).map g).getD i 0 = if i < n then g i else 0 := by
  by_cases h : i < n
  · simp [List.getD_eq_getElem?_getD, List.getElem?_map, List.getElem?_range, h]
  · have h2 : (List.range n)[i]? = none := List.getElem?_eq_none (by simp; omega)
    simp [List.getD_eq_getElem?_getD, List.getElem?_map, h, h2]

theorem list_ext_getD {a b : List Nat} (hlen : a.length = b.length)
    (h : ∀ i, i < a.length → a.getD i 0 = b.getD i 0) : a = b := by
  apply List.ext_getElem hlen
  intro i h1 h2
  have := h i h1
  simpa [List.getD_eq_getElem?_getD, List.getElem?_eq_getElem h1, List.getElem?_eq_getElem h2] using this

theorem Block.ext_bytes {a b : Block} (h : a.bytes = b.bytes) : a = b := by
  cases a; cases b; cases h; rfl

@[simp] theorem Block.get_ofFn (g : Nat → Nat) (i : Nat) :
    (Block.ofFn g).get i = if i < 16 then g i % 256 else 0 := by
  simp only [Block.get, Block.ofFn, getD_map_range]

theorem Block.get_lt (b : Block) (i : Nat) : b.get i < 256 := by
  unfold Block.get
  by_cases h : i < b.bytes.length
  · rw [List.getD_eq_getElem _ _ h]
    exact b.byte_lt _ (List.getElem_mem _)
  · rw [List.getD_eq_default _ _ (by omega)]
    decide

theorem Block.ext_get {a b : Block} (h : ∀ i, i < 16 → a.get i = b.get i) : a = b := by
  apply Block.ext_bytes
  apply list_ext_getD (by rw [a.size_eq, b.size_eq])
  intro i hi
  rw [a.size_eq] at hi
  exact h i hi

theorem range16 : List.range 16 = [0, 1, 2, 3, 4, 5, 6, 7, 8, 9, 10, 11, 12, 13, 14, 15] := by
  decide

theorem Block.bytes_ofFn (g : Nat → Nat) :
    (Block.ofFn g).bytes = [g 0 % 256, g 1 % 256, g 2 % 256, g 3 % 256, g 4 % 256, g 5 % 256,
      g 6 % 256, g 7 % 256, g 8 % 256, g 9 % 256, g 10 % 256, g 11 % 256, g 12 % 256,
      g 13 % 256, g 14 % 256, g 15 % 256] := by
  simp [Block.ofFn, range16]

theorem Block.bytes_eq (b : Block) :
    b.bytes = [b.get 0, b.get 1, b.get 2, b.get 3, b.get 4, b.get 5, b.get 6, b.get 7, b.get 8,
      b.get 9, b.get 10, b.get 11, b.get 12, b.get 13, b.get 14, b.get 15] := by
  apply list_ext_getD (by simp [b.size_eq])
  intro i hi
  rw [b.size_eq] at hi
  interval_cases i <;> simp [Block.get]

theorem Block.get_set (b : Block) (k v i : Nat) :
    (b.set k v).get i = if i < 16 then (if i = k then v else b.get i) % 256 else 0 := by
  simp [Block.set]

theorem Block.get_memcpy (b : Block) (src : List Nat) (n i : Nat) :
    (b.memcpy src n).get i = if i < 16 then (if i < n then src.getD i 0 else b.get i) % 256 else 0 := by
  simp [Block.memcpy]

theorem Block.memcpy_block (b c : Block) : b.memcpy c.bytes 16 = c := by
  apply Block.ext_get
  intro i hi
  rw [Block.get_memcpy]
  simp only [hi, if_true]
  exact Nat.mod_eq_of_lt (c.get_lt i)

/-! ## The counter increment -/

theorem byte_be_4 (w j : Nat) : byte_be 4 w j = w / 2 ^ (8 * (3 - j)) % 256 := by
  simp [byte_be, Nat.shiftRight_eq_div_pow]

theorem load_be_4 (a b c d : Nat) :
    load_be [a, b, c, d] = 16777216 * a + 65536 * b + 256 * c + d := by
  simp only [load_be, List.foldl]
  ring

theorem low32_eq (b : Block) :
    low32 b = 16777216 * b.get 12 + 65536 * b.get 13 + 256 * b.get 14 + b.get 15 := by
  unfold low32
  rw [Block.bytes_eq b]
  simp [GCM_BLOCK_SIZE, load_be_4]

theorem low32_lt (b : Block) : low32 b < 2 ^ 32 := by
  rw [low32_eq]
  have h12 := b.get_lt 12
  have h13 := b.get_lt 13
  have h14 := b.get_lt 14
  have h15 := b.get_lt 15
  omega

theorem ctr_add_get (C : Block) (k i : Nat) (hi : i < 16) :
    (ctr_add C k).get i =
      if i < 12 then C.get i else (low32 C + k) % 2 ^ 32 / 2 ^ (8 * (15 - i)) % 256 := by
  unfold ctr_add
  rw [Block.get_ofFn]
  simp only [hi, if_true]
  split
  · exact Nat.mod_eq_of_lt (C.get_lt i)
  · rw [byte_be_4, Nat.mod_mod]
    congr 3
    omega

theorem low32_ctr_add (C : Block) (k : Nat) : low32 (ctr_add C k) = (low32 C + k) % 2 ^ 32 := by
  rw [low32_eq, ctr_add_get C k 12 (by decide), ctr_add_get C k 13 (by decide),
    ctr_add_get C k 14 (by decide), ctr_add_get C k 15 (by decide)]
  have h : (low32 C + k) % 2 ^ 32 < 2 ^ 32 := Nat.mod_lt _ (by decide)
  generalize (low32 C + k) % 2 ^ 32 = w at h
  simp only [show ¬ (12 < 12) by decide, show ¬ (13 < 12) by decide, show ¬ (14 < 12) by decide,
    show ¬ (15 < 12) by decide, if_false]
  norm_num
  omega

theorem INC32_eq_ctr_add (C : Block) : INC32 C = ctr_add C 1 := by
  apply Block.ext_get
  intro i hi
  rw [ctr_add_get C 1 i hi, low32_eq]
  unfold INC32 INCREMENT Block.ofList
  rw [Block.get_ofFn, Block.bytes_eq C]
  have hb := C.get_lt i
  simp only [GCM_BLOCK_SIZE, byte_be_4, load_be_4, List.take, List.drop, List.length,
    show List.range (0 + 1 + 1 + 1 + 1) = [0, 1, 2, 3] by decide, hi, if_true]
  interval_cases i <;> simp <;> omega

theorem ctr_add_zero (C : Block) : ctr_add C 0 = C := by
  apply Block.ext_get
  intro i hi
  rw [ctr_add_get C 0 i hi]
  split
  · rfl
  · rw [Nat.add_zero, Nat.mod_eq_of_lt (low32_lt C), low32_eq]
    have h12 := C.get_lt 12
    have h13 := C.get_lt 13
    have h14 := C.get_lt 14
    have h15 := C.get_lt 15
    have : i = 12 ∨ i = 13 ∨ i = 14 ∨ i = 15 := by omega
    rcases this with rfl | rfl | rfl | rfl <;> norm_num <;> omega

theorem ctr_add_add (C : Block) (j k : Nat) : ctr_add (ctr_add C j) k = ctr_add C (j + k) := by
  apply Block.ext_get
  intro i hi
  rw [ctr_add_get _ k i hi, ctr_add_get _ (j + k) i hi, low32_ctr_add]
  split
  · rename_i h
    rw [ctr_add_get _ j i hi, if_pos h]
  · rw [Nat.mod_add_mod, Nat.add_assoc]

theorem INC32_ctr_add (C : Block) (k : Nat) : INC32 (ctr_add C k) = ctr_add C (k + 1) := by
  rw [INC32_eq_ctr_add, ctr_add_add]

theorem ctr_add_take (C : Block) (k : Nat) : (ctr_add C k).bytes.take 12 = C.bytes.take 12 := by
  rw [Block.bytes_eq (ctr_add C k), Block.bytes_eq C]
  simp [ctr_add_get]

/-! ## IV setup -/

theorem getD_lt_256 (l : List Nat) (h : ∀ b ∈ l, b < 256) (i : Nat) : l.getD i 0 < 256 := by
  by_cases hi : i < l.length
  · rw [List.getD_eq_getElem _ _ hi]
    exact h _ (List.getElem_mem _)
  · rw [List.getD_eq_default _ _ (by omega)]
    decide

theorem getD_append_nonce (N t : List Nat) (i : Nat) :
    (N ++ t).getD i 0 = if i < N.length then N.getD i 0 else t.getD (i - N.length) 0 := by
  split
  · rename_i h
    exact List.getD_append _ _ _ _ h
  · rename_i h
    exact List.getD_append_right _ _ _ _ (by omega)

/-- The pre-counter block `gcm_set_iv` stores. -/
theorem set_iv_block (b : Block) (N : List Nat) (hlen : N.length = 12)
    (hN : ∀ b ∈ N, b < 256) :
    ((((b.memcpy N 12).set 12 0).set 13 0).set 14 0).set 15 1 = Block.ofList (N ++ [0, 0, 0, 1]) := by
  apply Block.ext_get
  intro i hi
  have hb := getD_lt_256 N hN i
  simp only [Block.get_set, Block.get_memcpy, Block.ofList, Block.get_ofFn, getD_append_nonce, hlen,
    hi, if_true]
  interval_cases i <;> simp

theorem bytes_ofList_nonce (N t : List Nat) (hlen : N.length = 12) (hN : ∀ b ∈ N, b < 256)
    (ht : t.length = 4) (ht2 : ∀ b ∈ t, b < 256) : (Block.ofList (N ++ t)).bytes = N ++ t := by
  apply list_ext_getD (by simp [Block.size_eq, hlen, ht])
  intro i hi
  have := getD_lt_256 (N ++ t) (by
    intro b hb
    rcases List.mem_append.mp hb with h | h
    · exact hN b h
    · exact ht2 b h) i
  rw [Block.size_eq] at hi
  have h2 := Block.get_ofFn (fun i => (N ++ t).getD i 0) i
  simp only [Block.get, hi, if_true] at h2
  rw [Block.ofList, h2]
  exact Nat.mod_eq_of_lt this

/-- The session `gcm_set_iv` leaves when the length is 12. -/
theorem gcm_set_iv_eq (ctx : gcm_ctx) (N : List Nat) :
    gcm_set_iv ctx 12 N = Except.ok
      { h := ctx.h
        iv := ((((ctx.iv.memcpy N 12).set 12 0).set 13 0).set 14 0).set 15 1
        ctr := INC32 (ctx.ctr.memcpy
          (((((ctx.iv.memcpy N 12).set 12 0).set 13 0).set 14 0).set 15 1).bytes 16)
        x := Block.zero
        auth_size := 0
        data_size := 0 } := by
  simp only [gcm_set_iv, GCM_IV_SIZE, GCM_BLOCK_SIZE, if_true]

/-- C5. After `gcm_set_iv (ctx, 12, N)` with a 12-byte nonce `N` the stored
`iv` block is `N` followed by 00 00 00 01, the counter block is `N` followed
by 00 00 00 02, the accumulator `x` is the all-zero block, `auth_size` and
`data_size` are 0, and the hash subkey `h` is unchanged. -/
theorem gcm_set_iv_post (ctx : gcm_ctx) (N : List Nat) (hlen : N.length = 12)
    (hN : ∀ b ∈ N, b < 256) :
    ∃ ctx', gcm_set_iv ctx 12 N = Except.ok ctx' ∧
      ctx'.iv.bytes = N ++ [0, 0, 0, 1] ∧
      ctx'.ctr.bytes = N ++ [0, 0, 0, 2] ∧
      ctx'.x.bytes = [0, 0, 0, 0, 0, 0, 0, 0, 0, 0, 0, 0, 0, 0, 0, 0] ∧
      ctx'.auth_size = 0 ∧ ctx'.data_size = 0 ∧ ctx'.h = ctx.h := by
  have hiv := set_iv_block ctx.iv N hlen hN
  have hb1 := bytes_ofList_nonce N [0, 0, 0, 1] hlen hN rfl (by decide)
  have hb2 := bytes_ofList_nonce N [0, 0, 0, 2] hlen hN rfl (by decide)
  refine ⟨_, gcm_set_iv_eq ctx N, ?_, ?_, ?_, rfl, rfl, rfl⟩
  · simp only [hiv, hb1]
  · simp only []
    rw [Block.memcpy_block, hiv, INC32_eq_ctr_add, ← hb2]
    congr 1
    apply Block.ext_get
    intro i hi
    have hb := getD_lt_256 N hN i
    rw [ctr_add_get _ _ _ hi, low32_eq]
    simp only [Block.ofList, Block.get_ofFn, getD_append_nonce, hlen, hi, if_true]
    interval_cases i <;> simp
  · rfl

theorem gcm_set_iv_post_witness :
    ∃ ctx', gcm_set_iv ⟨Block.zero, Block.zero, Block.zero, Block.zero, 3, 5⟩ 12
        [1, 2, 3, 4, 5, 6, 7, 8, 9, 10, 11, 255] = Except.ok ctx' ∧
      ctx'.iv.bytes = [1, 2, 3, 4, 5, 6, 7, 8, 9, 10, 11, 255] ++ [0, 0, 0, 1] ∧
      ctx'.ctr.bytes = [1, 2, 3, 4, 5, 6, 7, 8, 9, 10, 11, 255] ++ [0, 0, 0, 2] ∧
      ctx'.x.bytes = [0, 0, 0, 0, 0, 0, 0, 0, 0, 0, 0, 0, 0, 0, 0, 0] ∧
      ctx'.auth_size = 0 ∧ ctx'.data_size = 0 ∧ ctx'.h = Block.zero :=
  gcm_set_iv_post ⟨Block.zero, Block.zero, Block.zero, Block.zero, 3, 5⟩
    [1, 2, 3, 4, 5, 6, 7, 8, 9, 10, 11, 255] (by decide) (by decide)

/-- C6. `gcm_set_iv` fails, on its assertion, exactly when the length given
is not 12, and the session it leaves at the failure is the session it was
given: no field has been changed. -/
theorem gcm_set_iv_length_check (ctx : gcm_ctx) (length : Nat) (iv : List Nat) :
    ((∃ e, gcm_set_iv ctx length iv = Except.error e) ↔ length ≠ 12) ∧
      ∀ e, gcm_set_iv ctx length iv = Except.error e → e = ctx := by
  by_cases h : length = 12
  · subst h
    simp [gcm_set_iv, GCM_IV_SIZE]
  · simp [gcm_set_iv, GCM_IV_SIZE, h]

/-! ## The hash update -/

theorem gcm_hash_blocks_lt (bld : Build) (ctx : gcm_ctx) (length : Nat) (data : List Nat)
    (pos : Nat) (h : length < 16) : gcm_hash_blocks bld ctx length data pos = (ctx, length, pos) := by
  rw [gcm_hash_blocks, if_neg (by simp only [GCM_BLOCK_SIZE]; omega)]

theorem gcm_hash_blocks_ge (bld : Build) (ctx : gcm_ctx) (length : Nat) (data : List Nat)
    (pos : Nat) (h : 16 ≤ length) :
    gcm_hash_blocks bld ctx length data pos =
      gcm_hash_blocks bld { ctx with x := gcm_gf_mul bld (ctx.x.memxor data pos 16) ctx.h }
        (length - 16) data (pos + 16) := by
  rw [gcm_hash_blocks, if_pos (by simp only [GCM_BLOCK_SIZE]; omega)]
  simp only [GCM_BLOCK_SIZE]

/-- The first loop of `gcm_hash` changes the accumulator only, leaves less
than a block to hash, and advances the position by what it has hashed. -/
theorem gcm_hash_blocks_frame (bld : Build) (length : Nat) :
    ∀ (ctx : gcm_ctx) (data : List Nat) (pos : Nat),
      gcm_hash_blocks bld ctx length data pos =
        ({ ctx with x := (gcm_hash_blocks bld ctx length data pos).1.x }, length % 16,
          pos + 16 * (length / 16)) := by
  induction length using Nat.strong_induction_on with
  | _ n ih =>
    intro ctx data pos
    by_cases h : 16 ≤ n
    · rw [gcm_hash_blocks_ge bld ctx n data pos h, ih (n - 16) (by omega)]
      refine Prod.ext rfl (Prod.ext ?_ ?_)
      · show (n - 16) % 16 = n % 16
        omega
      · show pos + 16 + 16 * ((n - 16) / 16) = pos + 16 * (n / 16)
        omega
    · rw [gcm_hash_blocks_lt bld ctx n data pos (by omega)]
      refine Prod.ext rfl (Prod.ext ?_ ?_)
      · show n = n % 16
        omega
      · show pos = pos + 16 * (n / 16)
        omega

theorem gcm_hash_frame (bld : Build) (ctx : gcm_ctx) (length : Nat) (data : List Nat) :
    gcm_hash bld ctx length data = { ctx with x := (gcm_hash bld ctx length data).x } := by
  unfold gcm_hash
  rw [gcm_hash_blocks_frame]
  simp only []
  split <;> rfl

theorem gcm_hash_one_block (bld : Build) (ctx : gcm_ctx) (data : List Nat) :
    gcm_hash bld ctx 16 data = { ctx with x := gcm_gf_mul bld (ctx.x.memxor data 0 16) ctx.h } := by
  unfold gcm_hash
  rw [gcm_hash_blocks_ge bld ctx 16 data 0 (by decide), gcm_hash_blocks_lt _ _ _ _ _ (by decide)]
  simp

/-! ## Byte-string XOR -/

theorem length_memxor (dst : List Nat) (dpos : Nat) (src : List Nat) (spos n : Nat) :
    (memxor dst dpos src spos n).length = dst.length := by
  simp [memxor]

theorem length_memxor3 (dst : List Nat) (dpos : Nat) (a : List Nat) (apos : Nat) (b : List Nat)
    (n : Nat) : (memxor3 dst dpos a apos b n).length = dst.length := by
  simp [memxor3]

theorem length_put_block (dst : List Nat) (dpos : Nat) (blk : Block) :
    (put_block dst dpos blk).length = dst.length := by
  simp [put_block]

theorem getD_memxor (dst : List Nat) (dpos : Nat) (src : List Nat) (spos n i : Nat) :
    (memxor dst dpos src spos n).getD i 0 =
      if dpos ≤ i ∧ i < dpos + n ∧ i < dst.length then
        dst.getD i 0 ^^^ src.getD (spos + (i - dpos)) 0
      else dst.getD i 0 := by
  rw [memxor, getD_map_range]
  by_cases h : i < dst.length
  · simp [h]
  · simp only [h, and_false, if_false]
    exact (List.getD_eq_default _ _ (Nat.le_of_not_lt h)).symm

theorem getD_memxor3 (dst : List Nat) (dpos : Nat) (a : List Nat) (apos : Nat) (b : List Nat)
    (n i : Nat) :
    (memxor3 dst dpos a apos b n).getD i 0 =
      if dpos ≤ i ∧ i < dpos + n ∧ i < dst.length then
        a.getD (apos + (i - dpos)) 0 ^^^ b.getD (i - dpos) 0
      else dst.getD i 0 := by
  rw [memxor3, getD_map_range]
  by_cases h : i < dst.length
  · simp [h]
  · simp only [h, and_false, if_false]
    exact (List.getD_eq_default _ _ (Nat.le_of_not_lt h)).symm

theorem getD_put_block (dst : List Nat) (dpos : Nat) (blk : Block) (i : Nat) :
    (put_block dst dpos blk).getD i 0 =
      if dpos ≤ i ∧ i < dpos + 16 ∧ i < dst.length then blk.get (i - dpos) else dst.getD i 0 := by
  rw [put_block, getD_map_range]
  by_cases h : i < dst.length
  · simp [h, GCM_BLOCK_SIZE]
  · simp only [h, and_false, if_false]
    exact (List.getD_eq_default _ _ (Nat.le_of_not_lt h)).symm

theorem xor_lt_256 {a b : Nat} (ha : a < 256) (hb : b < 256) : a ^^^ b < 256 :=
  Nat.xor_lt_two_pow (n := 8) ha hb

theorem Block.get_xor (a b : Block) (i : Nat) : (a.xor b).get i = a.get i ^^^ b.get i := by
  unfold Block.xor
  rw [Block.get_ofFn]
  split
  · exact Nat.mod_eq_of_lt (xor_lt_256 (a.get_lt i) (b.get_lt i))
  · rename_i h
    unfold Block.get
    rw [List.getD_eq_default _ _ (by rw [a.size_eq]; omega),
      List.getD_eq_default _ _ (by rw [b.size_eq]; omega)]
    rfl

theorem Block.get_memxor (x : Block) (src : List Nat) (spos n i : Nat) :
    (x.memxor src spos n).get i =
      if i < n ∧ i < 16 then (x.get i ^^^ src.getD (spos + i) 0) % 256 else x.get i := by
  unfold Block.memxor Block.ofList
  rw [Block.get_ofFn, getD_memxor]
  by_cases h : i < 16
  · simp only [h, Nat.zero_le, Nat.zero_add, Nat.sub_zero, x.size_eq, true_and, and_true, if_true]
    split
    · rfl
    · exact Nat.mod_eq_of_lt (x.get_lt i)
  · simp only [h, and_false, if_false]
    unfold Block.get
    rw [List.getD_eq_default _ _ (by rw [x.size_eq]; omega)]

theorem Block.memxor_block (x b : Block) : x.memxor b.bytes 0 16 = x.xor b := by
  apply Block.ext_get
  intro i hi
  rw [Block.get_memxor, Block.get_xor]
  simp only [hi, and_self, if_true, Nat.zero_add]
  exact Nat.mod_eq_of_lt (xor_lt_256 (x.get_lt i) (b.get_lt i))

theorem take_eq_take_of_getD {a b : List Nat} {t : Nat} (ha : t ≤ a.length) (hb : t ≤ b.length)
    (h : ∀ i, i < t → a.getD i 0 = b.getD i 0) : a.take t = b.take t := by
  apply List.ext_getElem (by simp [ha, hb])
  intro i h1 h2
  have hi : i < t := by
    rw [List.length_take] at h1
    omega
  have := h i hi
  rw [List.getD_eq_getElem a 0 (by omega), List.getD_eq_getElem b 0 (by omega)] at this
  rw [List.getElem_take, List.getElem_take]
  exact this

/-! ## The tag -/

theorem range8 : List.range 8 = [0, 1, 2, 3, 4, 5, 6, 7] := by
  decide

/-- The buffer `gcm_digest` hashes is the length block of the specification. -/
theorem digest_buffer_getD (a d i : Nat) (hi : i < 16) :
    (WRITE_UINT64 (a * 8 % 2 ^ 64) ++ WRITE_UINT64 (d * 8 % 2 ^ 64)).getD i 0 =
      (length_block a d).get i := by
  unfold length_block
  rw [Block.get_ofFn]
  simp only [WRITE_UINT64, range8, byte_be, Nat.shiftRight_eq_div_pow, Nat.mul_comm a 8,
    Nat.mul_comm d 8]
  interval_cases i <;> simp

theorem digest_buffer_xor (x : Block) (a d : Nat) :
    x.memxor (WRITE_UINT64 (a * 8 % 2 ^ 64) ++ WRITE_UINT64 (d * 8 % 2 ^ 64)) 0 16 =
      x.xor (length_block a d) := by
  apply Block.ext_get
  intro i hi
  rw [Block.get_memxor, Block.get_xor]
  simp only [hi, and_self, if_true, Nat.zero_add]
  rw [digest_buffer_getD a d i hi]
  exact Nat.mod_eq_of_lt (xor_lt_256 (x.get_lt i) (Block.get_lt _ i))

/-- The session and the tag buffer `gcm_digest` leaves when the length is accepted. -/
theorem gcm_digest_eq (bld : Build) (f : Block → Block) (ctx : gcm_ctx) (t : Nat)
    (digest : List Nat) (ht : t ≤ 16) :
    gcm_digest bld f ctx t digest = Except.ok
      ({ ctx with
          x := gcm_gf_mul bld (ctx.x.xor (length_block ctx.auth_size ctx.data_size)) ctx.h
          auth_size := ctx.auth_size * 8 % 2 ^ 64
          data_size := ctx.data_size * 8 % 2 ^ 64 },
        memxor3 digest 0
          (gcm_gf_mul bld (ctx.x.xor (length_block ctx.auth_size ctx.data_size)) ctx.h).bytes 0
          (f ctx.iv).bytes t) := by
  unfold gcm_digest
  rw [if_pos (by simp only [GCM_BLOCK_SIZE]; exact ht)]
  simp only [GCM_BLOCK_SIZE, gcm_hash_one_block, digest_buffer_xor]

theorem take_memxor3 (digest : List Nat) (x b : Block) (t : Nat) (ht : t ≤ 16)
    (hd : t ≤ digest.length) :
    (memxor3 digest 0 x.bytes 0 b.bytes t).take t = (x.xor b).bytes.take t := by
  apply take_eq_take_of_getD (by rw [length_memxor3]; exact hd) (by rw [Block.size_eq]; exact ht)
  intro i hi
  rw [getD_memxor3, if_pos ⟨Nat.zero_le _, by omega, by omega⟩]
  have := Block.get_xor x b i
  simp only [Block.get] at this
  simp only [Nat.zero_add, Nat.sub_zero, this]

/-- C4. For every session state and tag length `t ≤ 16`, `gcm_digest`
writes as the tag the first `t` bytes of
`gcm_gf_mul (X XOR L, H) XOR f (IV)`, where `L` is the length block made
from `auth_size` and `data_size`; and that tag is the `t`-byte prefix of
the tag for length 16 from the same state. -/
theorem gcm_digest_tag (bld : Build) (f : Block → Block) (ctx : gcm_ctx) (t : Nat)
    (digest : List Nat) (ht : t ≤ 16) (hd : t ≤ digest.length) :
    ∃ ctx' out, gcm_digest bld f ctx t digest = Except.ok (ctx', out) ∧
      out.take t =
        ((gcm_gf_mul bld (ctx.x.xor (length_block ctx.auth_size ctx.data_size)) ctx.h).xor
          (f ctx.iv)).bytes.take t ∧
      ∀ digest16 : List Nat, digest16.length = 16 →
        ∃ ctx16 out16, gcm_digest bld f ctx 16 digest16 = Except.ok (ctx16, out16) ∧
          out.take t = out16.take t := by
  refine ⟨_, _, gcm_digest_eq bld f ctx t digest ht, take_memxor3 _ _ _ _ ht hd, ?_⟩
  intro digest16 h16
  refine ⟨_, _, gcm_digest_eq bld f ctx 16 digest16 (Nat.le_refl _), ?_⟩
  rw [take_memxor3 _ _ _ _ ht hd]
  have h := take_memxor3 digest16 (gcm_gf_mul bld
    (ctx.x.xor (length_block ctx.auth_size ctx.data_size)) ctx.h) (f ctx.iv) 16 (Nat.le_refl _)
    (by omega)
  have h2 := congrArg (List.take t) h
  rw [List.take_take, List.take_take, Nat.min_eq_left ht] at h2
  exact h2.symm

theorem gcm_digest_tag_witness :
    ∃ ctx' out, gcm_digest Build.le8 (fun b => INC32 b)
        ⟨Block.zero, Block.zero, Block.zero, Block.zero, 3, 5⟩ 4 [9, 9, 9, 9, 9] =
          Except.ok (ctx', out) ∧
      out.take 4 =
        ((gcm_gf_mul Build.le8 (Block.zero.xor (length_block 3 5)) Block.zero).xor
          (INC32 Block.zero)).bytes.take 4 ∧
      ∀ digest16 : List Nat, digest16.length = 16 →
        ∃ ctx16 out16, gcm_digest Build.le8 (fun b => INC32 b)
            ⟨Block.zero, Block.zero, Block.zero, Block.zero, 3, 5⟩ 16 digest16 =
              Except.ok (ctx16, out16) ∧
          out.take 4 = out16.take 4 :=
  gcm_digest_tag Build.le8 (fun b => INC32 b)
    ⟨Block.zero, Block.zero, Block.zero, Block.zero, 3, 5⟩ 4 [9, 9, 9, 9, 9] (by decide) (by decide)

/-! ## Counter mode -/

theorem length_xor_keystream (f : Block → Block) (C : Block) (dst src : List Nat) (pos m : Nat) :
    (xor_keystream f C dst src pos m).length = dst.length := by
  simp [xor_keystream]

theorem getD_xor_keystream (f : Block → Block) (C : Block) (dst src : List Nat) (pos m i : Nat) :
    (xor_keystream f C dst src pos m).getD i 0 =
      if pos ≤ i ∧ i < pos + m ∧ i < dst.length then src.getD i 0 ^^^ keystream f C (i - pos)
      else dst.getD i 0 := by
  rw [xor_keystream, getD_map_range]
  by_cases h : i < dst.length
  · simp [h]
  · simp only [h, and_false, if_false]
    exact (List.getD_eq_default _ _ (Nat.le_of_not_lt h)).symm

theorem gcm_crypt_blocks_lt (f : Block → Block) (ctr : Block) (length : Nat) (dst src : List Nat)
    (pos : Nat) (h : length < 16) :
    gcm_crypt_blocks f ctr length dst src pos = (ctr, length, dst, pos) := by
  rw [gcm_crypt_blocks, if_neg (by simp only [GCM_BLOCK_SIZE]; omega)]

theorem gcm_crypt_blocks_ge (f : Block → Block) (ctr : Block) (length : Nat) (dst src : List Nat)
    (pos : Nat) (h : 16 ≤ length) :
    gcm_crypt_blocks f ctr length dst src pos =
      gcm_crypt_blocks f (INC32 ctr) (length - 16)
        (memxor (put_block dst pos (f ctr)) pos src pos 16) src (pos + 16) := by
  rw [gcm_crypt_blocks, if_pos (by simp only [GCM_BLOCK_SIZE]; omega)]
  simp only [GCM_BLOCK_SIZE]

theorem gcm_crypt_blocks_same_lt (f : Block → Block) (ctr : Block) (length : Nat)
    (dst : List Nat) (pos : Nat) (h : length < 16) :
    gcm_crypt_blocks_same f ctr length dst pos = (ctr, length, dst, pos) := by
  rw [gcm_crypt_blocks_same, if_neg (by simp only [GCM_BLOCK_SIZE]; omega)]

theorem gcm_crypt_blocks_same_ge (f : Block → Block) (ctr : Block) (length : Nat)
    (dst : List Nat) (pos : Nat) (h : 16 ≤ length) :
    gcm_crypt_blocks_same f ctr length dst pos =
      gcm_crypt_blocks_same f (INC32 ctr) (length - 16)
        (memxor3 dst pos dst pos (f ctr).bytes 16) (pos + 16) := by
  rw [gcm_crypt_blocks_same, if_pos (by simp only [GCM_BLOCK_SIZE]; omega)]
  simp only [GCM_BLOCK_SIZE]

theorem keystream_first (f : Block → Block) (C : Block) (j : Nat) (h : j < 16) :
    keystream f C j = (f C).get j := by
  unfold keystream
  rw [Nat.div_eq_of_lt h, Nat.mod_eq_of_lt h, ctr_add_zero]

theorem keystream_next (f : Block → Block) (C : Block) (j : Nat) :
    keystream f (INC32 C) j = keystream f C (j + 16) := by
  unfold keystream
  rw [INC32_eq_ctr_add, ctr_add_add]
  have h1 : (j + 16) / 16 = 1 + j / 16 := by omega
  have h2 : (j + 16) % 16 = j % 16 := by omega
  rw [h1, h2]

theorem keystream_from (f : Block → Block) (C : Block) (k j : Nat) :
    keystream f (ctr_add C k) j = keystream f C (16 * k + j) := by
  unfold keystream
  rw [ctr_add_add]
  have h1 : (16 * k + j) / 16 = k + j / 16 := by omega
  have h2 : (16 * k + j) % 16 = j % 16 := by omega
  rw [h1, h2]

/-- One pass of the loop body on the branch `src != dst`, followed by the
closed form for the rest, is the closed form for the whole. -/
theorem xor_keystream_step (f : Block → Block) (C : Block) (dst src : List Nat) (pos m : Nat) :
    xor_keystream f (INC32 C) (memxor (put_block dst pos (f C)) pos src pos 16) src (pos + 16) m =
      xor_keystream f C dst src pos (16 + m) := by
  apply list_ext_getD
  · simp only [length_xor_keystream, length_memxor, length_put_block]
  · intro i _
    simp only [getD_xor_keystream, getD_memxor, getD_put_block, length_memxor, length_put_block,
      keystream_next]
    by_cases h1 : pos + 16 ≤ i
    · have e : i - (pos + 16) + 16 = i - pos := by omega
      rw [e]
      by_cases h2 : i < pos + 16 + m ∧ i < dst.length
      · rw [if_pos ⟨h1, h2⟩, if_pos ⟨by omega, by omega, h2.2⟩]
      · rw [if_neg (by tauto), if_neg (by omega), if_neg (by omega), if_neg (by omega)]
    · rw [if_neg (by tauto)]
      by_cases h2 : pos ≤ i ∧ i < dst.length
      · rw [if_pos ⟨h2.1, by omega, h2.2⟩, if_pos ⟨h2.1, by omega, h2.2⟩,
          if_pos ⟨h2.1, by omega, h2.2⟩, keystream_first f C _ (by omega), Nat.xor_comm]
        congr 2
        omega
      · rw [if_neg (by tauto), if_neg (by tauto), if_neg (by tauto)]

/-- The same for the branch `src == dst`. -/
theorem xor_keystream_step_same (f : Block → Block) (C : Block) (dst : List Nat) (pos m : Nat) :
    xor_keystream f (INC32 C) (memxor3 dst pos dst pos (f C).bytes 16)
        (memxor3 dst pos dst pos (f C).bytes 16) (pos + 16) m =
      xor_keystream f C dst dst pos (16 + m) := by
  have far : ∀ i, pos + 16 ≤ i →
      (memxor3 dst pos dst pos (f C).bytes 16).getD i 0 = dst.getD i 0 := by
    intro i hi
    rw [getD_memxor3, if_neg (by omega)]
  have near : ∀ i, ¬ pos + 16 ≤ i → pos ≤ i ∧ i < dst.length →
      (memxor3 dst pos dst pos (f C).bytes 16).getD i 0 =
        dst.getD i 0 ^^^ keystream f C (i - pos) := by
    intro i hi h2
    rw [getD_memxor3, if_pos ⟨h2.1, by omega, h2.2⟩, keystream_first f C _ (by omega)]
    have e : pos + (i - pos) = i := by omega
    rw [e]
    rfl
  have off : ∀ i, ¬ (pos ≤ i ∧ i < dst.length) →
      (memxor3 dst pos dst pos (f C).bytes 16).getD i 0 = dst.getD i 0 := by
    intro i hi
    rw [getD_memxor3, if_neg (by tauto)]
  apply list_ext_getD
  · simp only [length_xor_keystream, length_memxor3]
  · intro i _
    rw [getD_xor_keystream, getD_xor_keystream, length_memxor3, keystream_next]
    by_cases h1 : pos + 16 ≤ i
    · have e : i - (pos + 16) + 16 = i - pos := by omega
      rw [e, far i h1]
      by_cases h2 : i < pos + 16 + m ∧ i < dst.length
      · rw [if_pos ⟨h1, h2⟩, if_pos ⟨by omega, by omega, h2.2⟩]
      · rw [if_neg (by tauto), if_neg (by omega)]
    · rw [if_neg (by tauto)]
      by_cases h2 : pos ≤ i ∧ i < dst.length
      · rw [if_pos ⟨h2.1, by omega, h2.2⟩, near i h1 h2]
      · rw [if_neg (by tauto), off i h2]

theorem xor_keystream_zero (f : Block → Block) (C : Block) (dst src : List Nat) (pos : Nat) :
    xor_keystream f C dst src pos 0 = dst := by
  apply list_ext_getD (length_xor_keystream _ _ _ _ _ _)
  intro i _
  rw [getD_xor_keystream, if_neg (by omega)]

/-- The loop of `gcm_crypt` on the branch `src != dst`, in closed form. -/
theorem gcm_crypt_blocks_eq (f : Block → Block) (src : List Nat) (length : Nat) :
    ∀ (ctr : Block) (dst : List Nat) (pos : Nat),
      gcm_crypt_blocks f ctr length dst src pos =
        (ctr_add ctr (length / 16), length % 16,
          xor_keystream f ctr dst src pos (16 * (length / 16)), pos + 16 * (length / 16)) := by
  induction length using Nat.strong_induction_on with
  | _ n ih =>
    intro ctr dst pos
    by_cases h : 16 ≤ n
    · rw [gcm_crypt_blocks_ge f ctr n dst src pos h, ih (n - 16) (by omega), xor_keystream_step,
        INC32_eq_ctr_add, ctr_add_add]
      have e1 : 1 + (n - 16) / 16 = n / 16 := by omega
      have e2 : (n - 16) % 16 = n % 16 := by omega
      have e3 : 16 + 16 * ((n - 16) / 16) = 16 * (n / 16) := by omega
      have e4 : pos + 16 + 16 * ((n - 16) / 16) = pos + 16 * (n / 16) := by omega
      rw [e1, e2, e3, e4]
    · rw [gcm_crypt_blocks_lt f ctr n dst src pos (by omega)]
      have e1 : n / 16 = 0 := by omega
      have e2 : n % 16 = n := by omega
      rw [e1, e2, ctr_add_zero, Nat.mul_zero, xor_keystream_zero, Nat.add_zero]

/-- The loop of `gcm_crypt` on the branch `src == dst`, in closed form. -/
theorem gcm_crypt_blocks_same_eq (f : Block → Block) (length : Nat) :
    ∀ (ctr : Block) (dst : List Nat) (pos : Nat),
      gcm_crypt_blocks_same f ctr length dst pos =
        (ctr_add ctr (length / 16), length % 16,
          xor_keystream f ctr dst dst pos (16 * (length / 16)), pos + 16 * (length / 16)) := by
  induction length using Nat.strong_induction_on with
  | _ n ih =>
    intro ctr dst pos
    by_cases h : 16 ≤ n
    · rw [gcm_crypt_blocks_same_ge f ctr n dst pos h, ih (n - 16) (by omega),
        xor_keystream_step_same, INC32_eq_ctr_add, ctr_add_add]
      have e1 : 1 + (n - 16) / 16 = n / 16 := by omega
      have e2 : (n - 16) % 16 = n % 16 := by omega
      have e3 : 16 + 16 * ((n - 16) / 16) = 16 * (n / 16) := by omega
      have e4 : pos + 16 + 16 * ((n - 16) / 16) = pos + 16 * (n / 16) := by omega
      rw [e1, e2, e3, e4]
    · rw [gcm_crypt_blocks_same_lt f ctr n dst pos (by omega)]
      have e1 : n / 16 = 0 := by omega
      have e2 : n % 16 = n := by omega
      rw [e1, e2, ctr_add_zero, Nat.mul_zero, xor_keystream_zero, Nat.add_zero]

/-- The final partial block of `gcm_crypt`, after `q` full blocks. -/
theorem xor_keystream_tail (f : Block → Block) (C : Block) (dst src src' : List Nat) (q r : Nat)
    (hr : r < 16)
    (hsrc : ∀ i, 16 * q ≤ i → src'.getD i 0 = src.getD i 0) :
    memxor3 (xor_keystream f C dst src 0 (16 * q)) (16 * q) src' (16 * q)
        (f (ctr_add C q)).bytes r =
      xor_keystream f C dst src 0 (16 * q + r) := by
  apply list_ext_getD
  · simp only [length_xor_keystream, length_memxor3]
  · intro i _
    by_cases h1 : 16 * q ≤ i ∧ i < 16 * q + r ∧ i < dst.length
    · rw [getD_memxor3, length_xor_keystream, if_pos h1, getD_xor_keystream,
        if_pos ⟨Nat.zero_le _, by omega, h1.2.2⟩]
      have e : 16 * q + (i - 16 * q) = i := by omega
      rw [e, hsrc i h1.1, Nat.sub_zero]
      have hk : keystream f C i = (f (ctr_add C q)).get (i - 16 * q) := by
        unfold keystream
        have e1 : i / 16 = q := by omega
        have e2 : i % 16 = i - 16 * q := by omega
        rw [e1, e2]
      rw [hk]
      rfl
    · rw [getD_memxor3, length_xor_keystream, if_neg h1, getD_xor_keystream, getD_xor_keystream]
      by_cases h2 : i < 16 * q ∧ i < dst.length
      · rw [if_pos ⟨Nat.zero_le _, by omega, h2.2⟩, if_pos ⟨Nat.zero_le _, by omega, h2.2⟩]
      · rw [if_neg (by omega), if_neg (by omega)]

/-- The function `gcm_crypt` in closed form: the counter advances by one
for every block begun, and the first `length` bytes of the destination
become the source XORed with the keystream. -/
theorem gcm_crypt_eq (f : Block → Block) (ctx : gcm_ctx) (length : Nat) (dst : List Nat)
    (src : Source) :
    gcm_crypt f ctx length dst src =
      ({ ctx with ctr := ctr_add ctx.ctr ((length + 15) / 16) },
        xor_keystream f ctx.ctr dst (src.read dst) 0 length) := by
  have key : ∀ srcbuf : List Nat,
      (∀ i, 16 * (length / 16) ≤ i →
        (src.read (xor_keystream f ctx.ctr dst srcbuf 0 (16 * (length / 16)))).getD i 0 =
          srcbuf.getD i 0) →
      (if 0 < length % 16 then
        (({ ctx with ctr := INC32 (ctr_add ctx.ctr (length / 16)) } : gcm_ctx),
          memxor3 (xor_keystream f ctx.ctr dst srcbuf 0 (16 * (length / 16)))
            (0 + 16 * (length / 16))
            (src.read (xor_keystream f ctx.ctr dst srcbuf 0 (16 * (length / 16))))
            (0 + 16 * (length / 16)) (f (ctr_add ctx.ctr (length / 16))).bytes (length % 16))
      else (({ ctx with ctr := ctr_add ctx.ctr (length / 16) } : gcm_ctx),
        xor_keystream f ctx.ctr dst srcbuf 0 (16 * (length / 16)))) =
      ({ ctx with ctr := ctr_add ctx.ctr ((length + 15) / 16) },
        xor_keystream f ctx.ctr dst srcbuf 0 length) := by
    intro srcbuf hsrc
    split
    · rename_i h
      rw [Nat.zero_add, xor_keystream_tail f ctx.ctr dst srcbuf _ _ _ (Nat.mod_lt _ (by decide)) hsrc,
        INC32_eq_ctr_add, ctr_add_add]
      have e1 : length / 16 + 1 = (length + 15) / 16 := by omega
      have e2 : 16 * (length / 16) + length % 16 = length := by omega
      rw [e1, e2]
    · rename_i h
      have e1 : length / 16 = (length + 15) / 16 := by omega
      have e2 : 16 * (length / 16) = length := by omega
      rw [e2, ← e1]
  cases src with
  | same =>
    unfold gcm_crypt
    simp only [gcm_crypt_blocks_same_eq, Source.read]
    apply key dst
    intro i hi
    simp only [Source.read]
    rw [getD_xor_keystream, if_neg (by omega)]
  | other bytes =>
    unfold gcm_crypt
    simp only [gcm_crypt_blocks_eq, Source.read]
    apply key bytes
    intro i hi
    simp only [Source.read]

/-! ## The accumulator as a function of the data -/

theorem Block.memxor_congr (x : Block) (d1 d2 : List Nat) (pos n : Nat)
    (h : ∀ i, i < n → d1.getD (pos + i) 0 = d2.getD (pos + i) 0) :
    x.memxor d1 pos n = x.memxor d2 pos n := by
  apply Block.ext_get
  intro i _
  rw [Block.get_memxor, Block.get_memxor]
  split
  · rename_i hi
    rw [h i hi.1]
  · rfl

/-- The accumulator the first loop of `gcm_hash` leaves depends only on
`h`, `x` and the bytes of the data that are hashed. -/
theorem gcm_hash_blocks_congr (bld : Build) (length : Nat) :
    ∀ (c1 c2 : gcm_ctx) (d1 d2 : List Nat) (pos : Nat), c1.h = c2.h → c1.x = c2.x →
      (∀ i, i < 16 * (length / 16) → d1.getD (pos + i) 0 = d2.getD (pos + i) 0) →
      (gcm_hash_blocks bld c1 length d1 pos).1.x = (gcm_hash_blocks bld c2 length d2 pos).1.x ∧
      (gcm_hash_blocks bld c1 length d1 pos).1.h = c1.h := by
  induction length using Nat.strong_induction_on with
  | _ n ih =>
    intro c1 c2 d1 d2 pos hh hx hd
    by_cases h : 16 ≤ n
    · rw [gcm_hash_blocks_ge bld c1 n d1 pos h, gcm_hash_blocks_ge bld c2 n d2 pos h]
      have hm : c1.x.memxor d1 pos 16 = c2.x.memxor d2 pos 16 := by
        rw [hx]
        exact Block.memxor_congr _ _ _ _ _ (fun i hi => hd i (by omega))
      refine ih (n - 16) (by omega) _ _ d1 d2 (pos + 16) hh ?_ ?_
      · show gcm_gf_mul bld (c1.x.memxor d1 pos 16) c1.h = gcm_gf_mul bld (c2.x.memxor d2 pos 16) c2.h
        rw [hm, hh]
      · intro i hi
        have := hd (16 + i) (by omega)
        rw [Nat.add_assoc]
        exact this
    · rw [gcm_hash_blocks_lt bld c1 n d1 pos (by omega), gcm_hash_blocks_lt bld c2 n d2 pos (by omega)]
      exact ⟨hx, rfl⟩

theorem gcm_hash_congr (bld : Build) (c1 c2 : gcm_ctx) (length : Nat) (d1 d2 : List Nat)
    (hh : c1.h = c2.h) (hx : c1.x = c2.x) (hd : ∀ i, i < length → d1.getD i 0 = d2.getD i 0) :
    (gcm_hash bld c1 length d1).x = (gcm_hash bld c2 length d2).x := by
  have hb := gcm_hash_blocks_congr bld length c1 c2 d1 d2 0 hh hx (by
    intro i hi
    rw [Nat.zero_add]
    exact hd i (by omega))
  have hb2 := gcm_hash_blocks_congr bld length c2 c2 d2 d2 0 rfl rfl (fun _ _ => rfl)
  unfold gcm_hash
  rw [gcm_hash_blocks_frame bld length c1, gcm_hash_blocks_frame bld length c2]
  simp only []
  split
  · show gcm_gf_mul bld ((gcm_hash_blocks bld c1 length d1 0).1.x.memxor d1 _ _) c1.h =
      gcm_gf_mul bld ((gcm_hash_blocks bld c2 length d2 0).1.x.memxor d2 _ _) c2.h
    rw [hb.1, hh]
    congr 1
    apply Block.memxor_congr
    intro i hi
    exact hd _ (by omega)
  · exact hb.1

theorem gcm_hash_eq (bld : Build) (ctx : gcm_ctx) (length : Nat) (data : List Nat) :
    gcm_hash bld ctx length data = { ctx with x := ghash bld ctx.h ctx.x length data } := by
  rw [gcm_hash_frame]
  congr 1
  exact gcm_hash_congr bld _ _ length data data rfl rfl (fun _ _ => rfl)

theorem ghash_congr (bld : Build) (h x : Block) (length : Nat) (d1 d2 : List Nat)
    (hd : ∀ i, i < length → d1.getD i 0 = d2.getD i 0) :
    ghash bld h x length d1 = ghash bld h x length d2 :=
  gcm_hash_congr bld _ _ length d1 d2 rfl rfl hd

/-! ## The calls in closed form -/

theorem gcm_auth_eq (bld : Build) (ctx : gcm_ctx) (length : Nat) (data : List Nat)
    (ha : ctx.auth_size % 16 = 0) (hd : ctx.data_size % 16 = 0) :
    gcm_auth bld ctx length data = Except.ok
      { ctx with
        x := ghash bld ctx.h ctx.x length data
        auth_size := (ctx.auth_size + length) % 2 ^ 64 } := by
  unfold gcm_auth
  rw [if_pos (by simpa [GCM_BLOCK_SIZE] using ha), if_pos (by simpa [GCM_BLOCK_SIZE] using hd),
    gcm_hash_eq]

theorem gcm_auth_rejected (bld : Build) (ctx : gcm_ctx) (length : Nat) (data : List Nat)
    (h : ctx.auth_size % 16 ≠ 0 ∨ ctx.data_size % 16 ≠ 0) :
    gcm_auth bld ctx length data = Except.error ctx := by
  unfold gcm_auth
  simp only [GCM_BLOCK_SIZE]
  split
  · split
    · omega
    · rfl
  · rfl

theorem gcm_encrypt_eq (bld : Build) (f : Block → Block) (ctx : gcm_ctx) (length : Nat)
    (dst : List Nat) (src : Source) (hd : ctx.data_size % 16 = 0) :
    gcm_encrypt bld f ctx length dst src = Except.ok
      ({ ctx with
          ctr := ctr_add ctx.ctr ((length + 15) / 16)
          x := ghash bld ctx.h ctx.x length
            (xor_keystream f ctx.ctr dst (src.read dst) 0 length)
          data_size := (ctx.data_size + length) % 2 ^ 64 },
        xor_keystream f ctx.ctr dst (src.read dst) 0 length) := by
  unfold gcm_encrypt
  rw [if_pos (by simpa [GCM_BLOCK_SIZE] using hd), gcm_crypt_eq]
  simp only [gcm_hash_eq]

theorem gcm_encrypt_rejected (bld : Build) (f : Block → Block) (ctx : gcm_ctx) (length : Nat)
    (dst : List Nat) (src : Source) (hd : ctx.data_size % 16 ≠ 0) :
    gcm_encrypt bld f ctx length dst src = Except.error ctx := by
  unfold gcm_encrypt
  rw [if_neg (by simpa [GCM_BLOCK_SIZE] using hd)]

theorem gcm_decrypt_eq (bld : Build) (f : Block → Block) (ctx : gcm_ctx) (length : Nat)
    (dst : List Nat) (src : Source) (hd : ctx.data_size % 16 = 0) :
    gcm_decrypt bld f ctx length dst src = Except.ok
      ({ ctx with
          ctr := ctr_add ctx.ctr ((length + 15) / 16)
          x := ghash bld ctx.h ctx.x length (src.read dst)
          data_size := (ctx.data_size + length) % 2 ^ 64 },
        xor_keystream f ctx.ctr dst (src.read dst) 0 length) := by
  unfold gcm_decrypt
  rw [if_pos (by simpa [GCM_BLOCK_SIZE] using hd)]
  simp only [gcm_hash_eq, gcm_crypt_eq]

theorem gcm_decrypt_rejected (bld : Build) (f : Block → Block) (ctx : gcm_ctx) (length : Nat)
    (dst : List Nat) (src : Source) (hd : ctx.data_size % 16 ≠ 0) :
    gcm_decrypt bld f ctx length dst src = Except.error ctx := by
  unfold gcm_decrypt
  rw [if_neg (by simpa [GCM_BLOCK_SIZE] using hd)]

/-! ## Counter-mode output, counter advance and write footprint -/

/-- C3. For every cipher function `f`, starting counter block `C` (the
counter of the session) and source buffer of `n` bytes, `gcm_crypt`
produces, at every index `j < n`, `dst[j] = src[j] XOR f (C_k)[j mod 16]`
with `k = floor (j / 16)`, where `C_k` is `C` with its last 4 bytes, read as
a big-endian 32-bit integer, replaced by that integer plus `k` modulo
`2 ^ 32`; on the branch `src == dst` as on the branch `src != dst`. -/
theorem gcm_crypt_output (f : Block → Block) (ctx : gcm_ctx) (n : Nat) (dst : List Nat)
    (src : Source) (hdst : n ≤ dst.length) (j : Nat) (hj : j < n) :
    (gcm_crypt f ctx n dst src).2.getD j 0 =
        (src.read dst).getD j 0 ^^^ (f (ctr_add ctx.ctr (j / 16))).get (j % 16) ∧
      low32 (ctr_add ctx.ctr (j / 16)) = (low32 ctx.ctr + j / 16) % 2 ^ 32 ∧
      (ctr_add ctx.ctr (j / 16)).bytes.take 12 = ctx.ctr.bytes.take 12 := by
  refine ⟨?_, low32_ctr_add _ _, ctr_add_take _ _⟩
  rw [gcm_crypt_eq]
  show (xor_keystream f ctx.ctr dst (src.read dst) 0 n).getD j 0 = _
  rw [getD_xor_keystream, if_pos ⟨Nat.zero_le _, by omega, by omega⟩, Nat.sub_zero]
  rfl

theorem gcm_crypt_output_witness :
    (gcm_crypt (fun b => INC32 b) ⟨Block.zero, Block.zero, Block.zero, Block.zero, 0, 0⟩ 20
        (List.replicate 24 7) (Source.other (List.replicate 20 255))).2.getD 19 0 =
        ((Source.other (List.replicate 20 255)).read (List.replicate 24 7)).getD 19 0 ^^^
          ((fun b => INC32 b) (ctr_add Block.zero (19 / 16))).get (19 % 16) ∧
      low32 (ctr_add Block.zero (19 / 16)) = (low32 Block.zero + 19 / 16) % 2 ^ 32 ∧
      (ctr_add Block.zero (19 / 16)).bytes.take 12 = Block.zero.bytes.take 12 :=
  gcm_crypt_output (fun b => INC32 b) ⟨Block.zero, Block.zero, Block.zero, Block.zero, 0, 0⟩ 20
    (List.replicate 24 7) (Source.other (List.replicate 20 255)) (by decide) 19 (by decide)

/-- C9. After an accepted `gcm_encrypt` or `gcm_decrypt` of `n` bytes the
last 4 bytes of the counter, read as a big-endian 32-bit integer, equal the
value before plus `ceil (n / 16)`, modulo `2 ^ 32`, and bytes 0..11 of the
counter are those it had before. -/
theorem counter_advance (bld : Build) (f : Block → Block) (ctx : gcm_ctx) (n : Nat)
    (dst : List Nat) (src : Source) (hacc : ctx.data_size % 16 = 0) :
    (∃ ctx' out, gcm_encrypt bld f ctx n dst src = Except.ok (ctx', out) ∧
      low32 ctx'.ctr = (low32 ctx.ctr + (n + 15) / 16) % 2 ^ 32 ∧
      ctx'.ctr.bytes.take 12 = ctx.ctr.bytes.take 12) ∧
    (∃ ctx' out, gcm_decrypt bld f ctx n dst src = Except.ok (ctx', out) ∧
      low32 ctx'.ctr = (low32 ctx.ctr + (n + 15) / 16) % 2 ^ 32 ∧
      ctx'.ctr.bytes.take 12 = ctx.ctr.bytes.take 12) :=
  ⟨⟨_, _, gcm_encrypt_eq bld f ctx n dst src hacc, low32_ctr_add _ _, ctr_add_take _ _⟩,
    ⟨_, _, gcm_decrypt_eq bld f ctx n dst src hacc, low32_ctr_add _ _, ctr_add_take _ _⟩⟩

/-- C10. An accepted `gcm_encrypt` with length `n` changes only the bytes
`dst[0..n)` of the destination buffer, whatever `n` and however long the
buffer: the buffer keeps its size and every byte at an index `≥ n` has the
value it had before the call. -/
theorem encrypt_write_footprint (bld : Build) (f : Block → Block) (ctx : gcm_ctx) (n : Nat)
    (dst : List Nat) (src : Source) (hacc : ctx.data_size % 16 = 0) :
    ∃ ctx' out, gcm_encrypt bld f ctx n dst src = Except.ok (ctx', out) ∧
      out.length = dst.length ∧ out.drop n = dst.drop n ∧
      ∀ j, n ≤ j → out.getD j 0 = dst.getD j 0 := by
  have hfar : ∀ j, n ≤ j →
      (xor_keystream f ctx.ctr dst (src.read dst) 0 n).getD j 0 = dst.getD j 0 := by
    intro j hj
    rw [getD_xor_keystream, if_neg (by omega)]
  refine ⟨_, _, gcm_encrypt_eq bld f ctx n dst src hacc, length_xor_keystream _ _ _ _ _ _, ?_,
    hfar⟩
  apply list_ext_getD (by simp [length_xor_keystream])
  intro i _
  rw [List.getD_eq_getElem?_getD, List.getD_eq_getElem?_getD, List.getElem?_drop,
    List.getElem?_drop, ← List.getD_eq_getElem?_getD, ← List.getD_eq_getElem?_getD]
  exact hfar _ (by omega)

theorem counter_advance_witness :
    (∃ ctx' out, gcm_encrypt Build.le8 (fun b => INC32 b)
        ⟨Block.zero, Block.zero, Block.ofList [0, 0, 0, 0, 0, 0, 0, 0, 0, 0, 0, 0, 255, 255, 255, 255],
          Block.zero, 0, 32⟩ 17 (List.replicate 17 0) Source.same = Except.ok (ctx', out) ∧
      low32 ctx'.ctr =
        (low32 (Block.ofList [0, 0, 0, 0, 0, 0, 0, 0, 0, 0, 0, 0, 255, 255, 255, 255]) +
          (17 + 15) / 16) % 2 ^ 32 ∧
      ctx'.ctr.bytes.take 12 =
        (Block.ofList [0, 0, 0, 0, 0, 0, 0, 0, 0, 0, 0, 0, 255, 255, 255, 255]).bytes.take 12) ∧
    (∃ ctx' out, gcm_decrypt Build.le8 (fun b => INC32 b)
        ⟨Block.zero, Block.zero, Block.ofList [0, 0, 0, 0, 0, 0, 0, 0, 0, 0, 0, 0, 255, 255, 255, 255],
          Block.zero, 0, 32⟩ 17 (List.replicate 17 0) Source.same = Except.ok (ctx', out) ∧
      low32 ctx'.ctr =
        (low32 (Block.ofList [0, 0, 0, 0, 0, 0, 0, 0, 0, 0, 0, 0, 255, 255, 255, 255]) +
          (17 + 15) / 16) % 2 ^ 32 ∧
      ctx'.ctr.bytes.take 12 =
        (Block.ofList [0, 0, 0, 0, 0, 0, 0, 0, 0, 0, 0, 0, 255, 255, 255, 255]).bytes.take 12) :=
  counter_advance Build.le8 (fun b => INC32 b)
    ⟨Block.zero, Block.zero, Block.ofList [0, 0, 0, 0, 0, 0, 0, 0, 0, 0, 0, 0, 255, 255, 255, 255],
      Block.zero, 0, 32⟩ 17 (List.replicate 17 0) Source.same (by decide)

theorem encrypt_write_footprint_witness :
    ∃ ctx' out, gcm_encrypt Build.le8 (fun b => INC32 b)
        ⟨Block.zero, Block.zero, Block.zero, Block.zero, 0, 16⟩ 5 [1, 2, 3, 4, 5, 6, 7, 8]
        (Source.other [9, 9, 9, 9, 9]) = Except.ok (ctx', out) ∧
      out.length = [1, 2, 3, 4, 5, 6, 7, 8].length ∧
      out.drop 5 = [1, 2, 3, 4, 5, 6, 7, 8].drop 5 ∧
      ∀ j, 5 ≤ j → out.getD j 0 = [1, 2, 3, 4, 5, 6, 7, 8].getD j 0 :=
  encrypt_write_footprint Build.le8 (fun b => INC32 b)
    ⟨Block.zero, Block.zero, Block.zero, Block.zero, 0, 16⟩ 5 [1, 2, 3, 4, 5, 6, 7, 8]
    (Source.other [9, 9, 9, 9, 9]) (by decide)

/-! ## The armed session -/

/-- The pre-counter block `gcm_set_iv` stores does not depend on what the
`iv` field held before. -/
theorem set_iv_block_indep (b b' : Block) (N : List Nat) :
    ((((b.memcpy N 12).set 12 0).set 13 0).set 14 0).set 15 1 =
      ((((b'.memcpy N 12).set 12 0).set 13 0).set 14 0).set 15 1 := by
  apply Block.ext_get
  intro i hi
  simp only [Block.get_set, Block.get_memcpy, hi, if_true]
  interval_cases i <;> simp

theorem gcm_set_iv_armed (f : Block → Block) (ctx : gcm_ctx) (N : List Nat) (hN : N.length = 12) :
    gcm_set_iv (gcm_set_key f ctx) N.length N = Except.ok (armed f N) := by
  rw [hN, gcm_set_iv_eq, Block.memcpy_block, set_iv_block_indep _ Block.zero]
  rfl

/-! ## Alignment and phase checks -/

theorem mod_2_64_mod_16 (a : Nat) : a % 2 ^ 64 % 16 = a % 16 := by
  omega

theorem Call.run_encrypt_ok (bld : Build) (f : Block → Block) (ctx : gcm_ctx) (n : Nat)
    (dst : List Nat) (src : Source) (hd : ctx.data_size % 16 = 0) :
    (Call.encrypt n dst src).run bld f ctx = Except.ok
      { ctx with
        ctr := ctr_add ctx.ctr ((n + 15) / 16)
        x := ghash bld ctx.h ctx.x n (xor_keystream f ctx.ctr dst (src.read dst) 0 n)
        data_size := (ctx.data_size + n) % 2 ^ 64 } := by
  simp only [Call.run, gcm_encrypt_eq bld f ctx n dst src hd, Except.map]

theorem Call.run_decrypt_ok (bld : Build) (f : Block → Block) (ctx : gcm_ctx) (n : Nat)
    (dst : List Nat) (src : Source) (hd : ctx.data_size % 16 = 0) :
    (Call.decrypt n dst src).run bld f ctx = Except.ok
      { ctx with
        ctr := ctr_add ctx.ctr ((n + 15) / 16)
        x := ghash bld ctx.h ctx.x n (src.read dst)
        data_size := (ctx.data_size + n) % 2 ^ 64 } := by
  simp only [Call.run, gcm_decrypt_eq bld f ctx n dst src hd, Except.map]

/-- What a call does to the two byte counts. -/
theorem Call.run_cases (bld : Build) (f : Block → Block) (ctx : gcm_ctx) (c : Call) :
    (c.run bld f ctx = Except.error ctx ∧
      (ctx.data_size % 16 ≠ 0 ∨ (ctx.auth_size % 16 ≠ 0 ∧ c.data_length = 0))) ∨
    (∃ ctx', c.run bld f ctx = Except.ok ctx' ∧ ctx.data_size % 16 = 0 ∧
      ctx'.data_size % 16 = (ctx.data_size + c.data_length) % 16 ∧
      (ctx'.auth_size = ctx.auth_size ∨
        (ctx.auth_size % 16 = 0 ∧ ∃ n data, c = Call.auth n data ∧
          ctx'.auth_size = (ctx.auth_size + n) % 2 ^ 64))) := by
  cases c with
  | auth n data =>
    by_cases ha : ctx.auth_size % 16 = 0
    · by_cases hd : ctx.data_size % 16 = 0
      · right
        exact ⟨_, gcm_auth_eq bld ctx n data ha hd, hd, by simp [Call.data_length],
          Or.inr ⟨ha, n, data, rfl, rfl⟩⟩
      · left
        exact ⟨gcm_auth_rejected bld ctx n data (Or.inr hd), Or.inl hd⟩
    · left
      exact ⟨gcm_auth_rejected bld ctx n data (Or.inl ha), Or.inr ⟨ha, rfl⟩⟩
  | encrypt n dst src =>
    by_cases hd : ctx.data_size % 16 = 0
    · right
      refine ⟨_, Call.run_encrypt_ok bld f ctx n dst src hd, hd, ?_, Or.inl rfl⟩
      simp only [Call.data_length, mod_2_64_mod_16]
    · left
      exact ⟨by simp only [Call.run, gcm_encrypt_rejected bld f ctx n dst src hd, Except.map],
        Or.inl hd⟩
  | decrypt n dst src =>
    by_cases hd : ctx.data_size % 16 = 0
    · right
      refine ⟨_, Call.run_decrypt_ok bld f ctx n dst src hd, hd, ?_, Or.inl rfl⟩
      simp only [Call.data_length, mod_2_64_mod_16]
    · left
      exact ⟨by simp only [Call.run, gcm_decrypt_rejected bld f ctx n dst src hd, Except.map],
        Or.inl hd⟩

theorem Call.after_error (bld : Build) (f : Block → Block) (ctx : gcm_ctx) (c : Call)
    (h : c.run bld f ctx = Except.error ctx) : c.after bld f ctx = ctx := by
  simp only [Call.after, h]

theorem Call.after_ok (bld : Build) (f : Block → Block) (ctx ctx' : gcm_ctx) (c : Call)
    (h : c.run bld f ctx = Except.ok ctx') : c.after bld f ctx = ctx' := by
  simp only [Call.after, h]

/-- Once one of the byte counts is off a block boundary, it stays so
through further calls. -/
theorem misaligned_after_calls (bld : Build) (f : Block → Block) (calls : List Call) :
    ∀ ctx : gcm_ctx,
      (ctx.data_size % 16 ≠ 0 → after_calls bld f ctx calls = ctx) ∧
      (ctx.auth_size % 16 ≠ 0 → (after_calls bld f ctx calls).auth_size % 16 ≠ 0) := by
  induction calls with
  | nil =>
    intro ctx
    exact ⟨fun _ => rfl, fun h => h⟩
  | cons c calls ih =>
    intro ctx
    show (_ → after_calls bld f (c.after bld f ctx) calls = ctx) ∧
      (_ → (after_calls bld f (c.after bld f ctx) calls).auth_size % 16 ≠ 0)
    rcases Call.run_cases bld f ctx c with ⟨he, _⟩ | ⟨ctx', hok, hd, _, ha⟩
    · rw [Call.after_error bld f ctx c he]
      exact ih ctx
    · rw [Call.after_ok bld f ctx ctx' c hok]
      refine ⟨fun h => absurd hd h, fun h => (ih ctx').2 ?_⟩
      rcases ha with ha | ⟨ha, _⟩
      · rw [ha]
        exact h
      · exact absurd ha h

/-- The byte count `data_size` follows the bytes processed, modulo 16. -/
theorem data_size_after_calls (bld : Build) (f : Block → Block) (calls : List Call) :
    ∀ ctx : gcm_ctx,
      (after_calls bld f ctx calls).data_size % 16 =
        (ctx.data_size + processed_data bld f ctx calls) % 16 := by
  induction calls with
  | nil =>
    intro ctx
    rfl
  | cons c calls ih =>
    intro ctx
    show (after_calls bld f (c.after bld f ctx) calls).data_size % 16 = _
    rcases Call.run_cases bld f ctx c with ⟨he, _⟩ | ⟨ctx', hok, _, hd', _⟩
    · rw [Call.after_error bld f ctx c he, ih ctx]
      simp only [processed_data, he]
    · rw [Call.after_ok bld f ctx ctx' c hok, ih ctx']
      simp only [processed_data, hok]
      omega

theorem Call.after_auth_misaligned (bld : Build) (f : Block → Block) (ctx : gcm_ctx) (n : Nat)
    (data : List Nat) (hn : n % 16 ≠ 0) :
    ((Call.auth n data).after bld f ctx).auth_size % 16 ≠ 0 ∨
      ((Call.auth n data).after bld f ctx).data_size % 16 ≠ 0 := by
  by_cases ha : ctx.auth_size % 16 = 0
  · by_cases hd : ctx.data_size % 16 = 0
    · left
      rw [Call.after_ok bld f ctx _ (Call.auth n data) (gcm_auth_eq bld ctx n data ha hd)]
      show (ctx.auth_size + n) % 2 ^ 64 % 16 ≠ 0
      omega
    · right
      rw [Call.after_error bld f ctx (Call.auth n data) (gcm_auth_rejected bld ctx n data (Or.inr hd))]
      exact hd
  · left
    rw [Call.after_error bld f ctx (Call.auth n data) (gcm_auth_rejected bld ctx n data (Or.inl ha))]
    exact ha

theorem Call.after_data_misaligned (bld : Build) (f : Block → Block) (ctx : gcm_ctx) (n : Nat)
    (dst : List Nat) (src : Source) (hn : n % 16 ≠ 0) :
    ((Call.encrypt n dst src).after bld f ctx).data_size % 16 ≠ 0 ∧
      ((Call.decrypt n dst src).after bld f ctx).data_size % 16 ≠ 0 := by
  by_cases hd : ctx.data_size % 16 = 0
  · rw [Call.after_ok bld f ctx _ _ (Call.run_encrypt_ok bld f ctx n dst src hd),
      Call.after_ok bld f ctx _ _ (Call.run_decrypt_ok bld f ctx n dst src hd)]
    show (ctx.data_size + n) % 2 ^ 64 % 16 ≠ 0 ∧ (ctx.data_size + n) % 2 ^ 64 % 16 ≠ 0
    omega
  · have h1 : (Call.encrypt n dst src).run bld f ctx = Except.error ctx := by
      simp only [Call.run, gcm_encrypt_rejected bld f ctx n dst src hd, Except.map]
    have h2 : (Call.decrypt n dst src).run bld f ctx = Except.error ctx := by
      simp only [Call.run, gcm_decrypt_rejected bld f ctx n dst src hd, Except.map]
    rw [Call.after_error bld f ctx _ h1, Call.after_error bld f ctx _ h2]
    exact ⟨hd, hd⟩

/-- C7. In any session, after a `gcm_auth` call whose length is not a
multiple of 16 every further `gcm_auth` call of the message (whatever
`gcm_auth`, `gcm_encrypt` and `gcm_decrypt` calls come in between) is
rejected, and after a `gcm_encrypt` or `gcm_decrypt` call whose length is
not a multiple of 16 every further `gcm_encrypt` or `gcm_decrypt` call is
rejected; a rejected call leaves the session as it was. -/
theorem alignment_enforced (bld : Build) (f : Block → Block) (ctx : gcm_ctx) (n : Nat)
    (hn : n % 16 ≠ 0) (calls : List Call) :
    (∀ (data : List Nat) (m : Nat) (data' : List Nat),
      gcm_auth bld (after_calls bld f ((Call.auth n data).after bld f ctx) calls) m data' =
        Except.error (after_calls bld f ((Call.auth n data).after bld f ctx) calls)) ∧
    (∀ (dst : List Nat) (src : Source) (m : Nat) (dst' : List Nat) (src' : Source),
      gcm_encrypt bld f (after_calls bld f ((Call.encrypt n dst src).after bld f ctx) calls)
          m dst' src' =
        Except.error (after_calls bld f ((Call.encrypt n dst src).after bld f ctx) calls) ∧
      gcm_decrypt bld f (after_calls bld f ((Call.encrypt n dst src).after bld f ctx) calls)
          m dst' src' =
        Except.error (after_calls bld f ((Call.encrypt n dst src).after bld f ctx) calls) ∧
      gcm_encrypt bld f (after_calls bld f ((Call.decrypt n dst src).after bld f ctx) calls)
          m dst' src' =
        Except.error (after_calls bld f ((Call.decrypt n dst src).after bld f ctx) calls) ∧
      gcm_decrypt bld f (after_calls bld f ((Call.decrypt n dst src).after bld f ctx) calls)
          m dst' src' =
        Except.error (after_calls bld f ((Call.decrypt n dst src).after bld f ctx) calls)) ∧
    (∀ (c : Call) (e : gcm_ctx), c.run bld f ctx = Except.error e → e = ctx) := by
  refine ⟨?_, ?_, ?_⟩
  · intro data m data'
    apply gcm_auth_rejected
    have hinv := misaligned_after_calls bld f calls ((Call.auth n data).after bld f ctx)
    by_cases hd : ((Call.auth n data).after bld f ctx).data_size % 16 = 0
    · rcases Call.after_auth_misaligned bld f ctx n data hn with ha | hd'
      · exact Or.inl (hinv.2 ha)
      · exact absurd hd hd'
    · right
      rw [hinv.1 hd]
      exact hd
  · intro dst src m dst' src'
    have hmis := Call.after_data_misaligned bld f ctx n dst src hn
    have h1 := (misaligned_after_calls bld f calls ((Call.encrypt n dst src).after bld f ctx)).1
      hmis.1
    have h2 := (misaligned_after_calls bld f calls ((Call.decrypt n dst src).after bld f ctx)).1
      hmis.2
    rw [h1, h2]
    exact ⟨gcm_encrypt_rejected bld f _ m dst' src' hmis.1,
      gcm_decrypt_rejected bld f _ m dst' src' hmis.1,
      gcm_encrypt_rejected bld f _ m dst' src' hmis.2,
      gcm_decrypt_rejected bld f _ m dst' src' hmis.2⟩
  · intro c e he
    rcases Call.run_cases bld f ctx c with ⟨h, _⟩ | ⟨ctx', h, _⟩
    · rw [h] at he
      exact (Except.error.inj he).symm
    · rw [h] at he
      cases he

theorem alignment_enforced_witness :
    (∀ (data : List Nat) (m : Nat) (data' : List Nat),
      gcm_auth Build.le8
          (after_calls Build.le8 (fun b => INC32 b)
            ((Call.auth 5 data).after Build.le8 (fun b => INC32 b)
              ⟨Block.zero, Block.zero, Block.zero, Block.zero, 0, 0⟩)
            [Call.encrypt 16 (List.replicate 16 0) Source.same]) m data' =
        Except.error
          (after_calls Build.le8 (fun b => INC32 b)
            ((Call.auth 5 data).after Build.le8 (fun b => INC32 b)
              ⟨Block.zero, Block.zero, Block.zero, Block.zero, 0, 0⟩)
            [Call.encrypt 16 (List.replicate 16 0) Source.same])) ∧
    (∀ (dst : List Nat) (src : Source) (m : Nat) (dst' : List Nat) (src' : Source),
      gcm_encrypt Build.le8 (fun b => INC32 b)
          (after_calls Build.le8 (fun b => INC32 b)
            ((Call.encrypt 5 dst src).after Build.le8 (fun b => INC32 b)
              ⟨Block.zero, Block.zero, Block.zero, Block.zero, 0, 0⟩)
            [Call.encrypt 16 (List.replicate 16 0) Source.same]) m dst' src' =
        Except.error
          (after_calls Build.le8 (fun b => INC32 b)
            ((Call.encrypt 5 dst src).after Build.le8 (fun b => INC32 b)
              ⟨Block.zero, Block.zero, Block.zero, Block.zero, 0, 0⟩)
            [Call.encrypt 16 (List.replicate 16 0) Source.same]) ∧
      gcm_decrypt Build.le8 (fun b => INC32 b)
          (after_calls Build.le8 (fun b => INC32 b)
            ((Call.encrypt 5 dst src).after Build.le8 (fun b => INC32 b)
              ⟨Block.zero, Block.zero, Block.zero, Block.zero, 0, 0⟩)
            [Call.encrypt 16 (List.replicate 16 0) Source.same]) m dst' src' =
        Except.error
          (after_calls Build.le8 (fun b => INC32 b)
            ((Call.encrypt 5 dst src).after Build.le8 (fun b => INC32 b)
              ⟨Block.zero, Block.zero, Block.zero, Block.zero, 0, 0⟩)
            [Call.encrypt 16 (List.replicate 16 0) Source.same]) ∧
      gcm_encrypt Build.le8 (fun b => INC32 b)
          (after_calls Build.le8 (fun b => INC32 b)
            ((Call.decrypt 5 dst src).after Build.le8 (fun b => INC32 b)
              ⟨Block.zero, Block.zero, Block.zero, Block.zero, 0, 0⟩)
            [Call.encrypt 16 (List.replicate 16 0) Source.same]) m dst' src' =
        Except.error
          (after_calls Build.le8 (fun b => INC32 b)
            ((Call.decrypt 5 dst src).after Build.le8 (fun b => INC32 b)
              ⟨Block.zero, Block.zero, Block.zero, Block.zero, 0, 0⟩)
            [Call.encrypt 16 (List.replicate 16 0) Source.same]) ∧
      gcm_decrypt Build.le8 (fun b => INC32 b)
          (after_calls Build.le8 (fun b => INC32 b)
            ((Call.decrypt 5 dst src).after Build.le8 (fun b => INC32 b)
              ⟨Block.zero, Block.zero, Block.zero, Block.zero, 0, 0⟩)
            [Call.encrypt 16 (List.replicate 16 0) Source.same]) m dst' src' =
        Except.error
          (after_calls Build.le8 (fun b => INC32 b)
            ((Call.decrypt 5 dst src).after Build.le8 (fun b => INC32 b)
              ⟨Block.zero, Block.zero, Block.zero, Block.zero, 0, 0⟩)
            [Call.encrypt 16 (List.replicate 16 0) Source.same])) ∧
    (∀ (c : Call) (e : gcm_ctx),
      c.run Build.le8 (fun b => INC32 b) ⟨Block.zero, Block.zero, Block.zero, Block.zero, 0, 0⟩ =
        Except.error e → e = ⟨Block.zero, Block.zero, Block.zero, Block.zero, 0, 0⟩) :=
  alignment_enforced Build.le8 (fun b => INC32 b)
    ⟨Block.zero, Block.zero, Block.zero, Block.zero, 0, 0⟩ 5 (by decide)
    [Call.encrypt 16 (List.replicate 16 0) Source.same]

theorem ghash_one_block (bld : Build) (h x : Block) (data : List Nat) :
    ghash bld h x 16 data = gcm_gf_mul bld (x.memxor data 0 16) h := by
  unfold ghash
  rw [gcm_hash_one_block]

theorem counterexample_ciphertext :
    xor_keystream (fun b => INC32 b) (armed (fun b => INC32 b) (List.replicate 12 0)).ctr
        (List.replicate 16 0) (List.replicate 16 0) 0 16 =
      [0, 0, 0, 0, 0, 0, 0, 0, 0, 0, 0, 0, 0, 0, 0, 3] := by
  decide

set_option maxRecDepth 100000 in
theorem counterexample_x_encrypt :
    gcm_gf_mul Build.le8
        (Block.zero.memxor [0, 0, 0, 0, 0, 0, 0, 0, 0, 0, 0, 0, 0, 0, 0, 3] 0 16)
        (INC32 Block.zero) =
      Block.ofList [232, 24, 0, 0, 0, 0, 0, 0, 0, 0, 0, 0, 0, 0, 0, 4] := by
  decide

set_option maxRecDepth 100000 in
theorem counterexample_x_auth :
    gcm_gf_mul Build.le8
        ((Block.ofList [232, 24, 0, 0, 0, 0, 0, 0, 0, 0, 0, 0, 0, 0, 0, 4]).memxor
          (List.replicate 16 1) 0 16)
        (INC32 Block.zero) =
      Block.ofList [116, 43, 231, 135, 135, 135, 135, 135, 135, 135, 135, 135, 135, 135, 135,
        136] := by
  decide

/-- C8, counterexample. On a session keyed by `gcm_set_key` and armed by
`gcm_set_iv`, after `gcm_encrypt` has processed 16 bytes, a `gcm_auth` call
of 16 bytes is accepted: it counts its 16 bytes in `auth_size` and folds
them into the accumulator, which goes from e8 18 00 .. 00 04 to
74 2b e7 87 .. 87 88. -/
theorem auth_after_encrypt_accepted :
    ∃ s1 s2 out s3,
      gcm_set_iv
        (gcm_set_key (fun b => INC32 b) ⟨Block.zero, Block.zero, Block.zero, Block.zero, 0, 0⟩) 12
        (List.replicate 12 0) = Except.ok s1 ∧
      gcm_encrypt Build.le8 (fun b => INC32 b) s1 16 (List.replicate 16 0)
        (Source.other (List.replicate 16 0)) = Except.ok (s2, out) ∧
      gcm_auth Build.le8 s2 16 (List.replicate 16 1) = Except.ok s3 ∧
      s3.auth_size = 16 ∧
      s2.x = Block.ofList [232, 24, 0, 0, 0, 0, 0, 0, 0, 0, 0, 0, 0, 0, 0, 4] ∧
      s3.x = Block.ofList [116, 43, 231, 135, 135, 135, 135, 135, 135, 135, 135, 135, 135, 135,
        135, 136] := by
  have hx2 : ghash Build.le8 (armed (fun b => INC32 b) (List.replicate 12 0)).h
      (armed (fun b => INC32 b) (List.replicate 12 0)).x 16
      (xor_keystream (fun b => INC32 b) (armed (fun b => INC32 b) (List.replicate 12 0)).ctr
        (List.replicate 16 0) ((Source.other (List.replicate 16 0)).read (List.replicate 16 0))
        0 16) = Block.ofList [232, 24, 0, 0, 0, 0, 0, 0, 0, 0, 0, 0, 0, 0, 0, 4] := by
    rw [ghash_one_block]
    simp only [Source.read]
    rw [counterexample_ciphertext]
    exact counterexample_x_encrypt
  refine ⟨armed (fun b => INC32 b) (List.replicate 12 0), _, _, _,
    gcm_set_iv_armed _ _ (List.replicate 12 0) rfl, gcm_encrypt_eq _ _ _ _ _ _ rfl,
    gcm_auth_eq _ _ _ _ rfl rfl, rfl, hx2, ?_⟩
  simp only []
  rw [hx2, ghash_one_block]
  exact counterexample_x_auth

/-- C8, amended. On a session armed by `gcm_set_iv`, a `gcm_auth` call
issued after the accepted `gcm_encrypt` and `gcm_decrypt` calls of the
message have processed a number of bytes that is not a multiple of 16 is
rejected, and the session, with its accumulator, is left as it was. -/
theorem auth_after_partial_data_rejected (bld : Build) (f : Block → Block) (ctx0 s : gcm_ctx)
    (N : List Nat) (calls : List Call) (m : Nat) (data : List Nat)
    (harm : gcm_set_iv ctx0 12 N = Except.ok s)
    (hpart : processed_data bld f s calls % 16 ≠ 0) :
    gcm_auth bld (after_calls bld f s calls) m data = Except.error (after_calls bld f s calls) := by
  apply gcm_auth_rejected
  right
  rw [data_size_after_calls]
  have hz : s.data_size = 0 := by
    rw [gcm_set_iv_eq] at harm
    rw [← Except.ok.inj harm]
  rw [hz, Nat.zero_add]
  exact hpart

theorem processed_data_single_encrypt (bld : Build) (f : Block → Block) (ctx : gcm_ctx) (n : Nat)
    (dst : List Nat) (src : Source) (hd : ctx.data_size % 16 = 0) :
    processed_data bld f ctx [Call.encrypt n dst src] = n := by
  simp only [processed_data, Call.run_encrypt_ok bld f ctx n dst src hd, Call.data_length,
    Nat.add_zero]

theorem auth_after_partial_data_rejected_witness :
    gcm_auth Build.le8
        (after_calls Build.le8 (fun b => INC32 b)
          { h := Block.zero
            iv := ((((Block.zero.memcpy (List.replicate 12 0) 12).set 12 0).set 13 0).set 14 0).set
              15 1
            ctr := INC32 (Block.zero.memcpy
              (((((Block.zero.memcpy (List.replicate 12 0) 12).set 12 0).set 13 0).set 14 0).set
                15 1).bytes 16)
            x := Block.zero
            auth_size := 0
            data_size := 0 }
          [Call.encrypt 5 (List.replicate 5 0) Source.same]) 16 (List.replicate 16 1) =
      Except.error
        (after_calls Build.le8 (fun b => INC32 b)
          { h := Block.zero
            iv := ((((Block.zero.memcpy (List.replicate 12 0) 12).set 12 0).set 13 0).set 14 0).set
              15 1
            ctr := INC32 (Block.zero.memcpy
              (((((Block.zero.memcpy (List.replicate 12 0) 12).set 12 0).set 13 0).set 14 0).set
                15 1).bytes 16)
            x := Block.zero
            auth_size := 0
            data_size := 0 }
          [Call.encrypt 5 (List.replicate 5 0) Source.same]) :=
  auth_after_partial_data_rejected Build.le8 (fun b => INC32 b)
    ⟨Block.zero, Block.zero, Block.zero, Block.zero, 7, 9⟩ _ (List.replicate 12 0)
    [Call.encrypt 5 (List.replicate 5 0) Source.same] 16 (List.replicate 16 1)
    (gcm_set_iv_eq ⟨Block.zero, Block.zero, Block.zero, Block.zero, 7, 9⟩ (List.replicate 12 0))
    (by
      rw [processed_data_single_encrypt]
      · decide
      · rfl)

/-! ## Round trip -/

theorem encrypt_message_eq (bld : Build) (f : Block → Block) (ctx : gcm_ctx) (N A : List Nat)
    (n : Nat) (dst : List Nat) (src : Source) (t : Nat) (digest : List Nat) (hN : N.length = 12)
    (ht : t ≤ 16) :
    encrypt_message bld f ctx N A n dst src t digest = Except.ok
      ((xor_keystream f (armed f N).ctr dst (src.read dst) 0 n).take n,
        (memxor3 digest 0
          (gcm_gf_mul bld
            ((ghash bld (f Block.zero) (ghash bld (f Block.zero) Block.zero A.length A) n
              (xor_keystream f (armed f N).ctr dst (src.read dst) 0 n)).xor
              (length_block (A.length % 2 ^ 64) (n % 2 ^ 64))) (f Block.zero)).bytes 0
          (f (armed f N).iv).bytes t).take t) := by
  unfold encrypt_message
  simp only [gcm_set_iv_armed f ctx N hN, bind, Except.bind]
  rw [gcm_auth_eq bld (armed f N) A.length A rfl rfl]
  simp only []
  rw [gcm_encrypt_eq]
  · simp only []
    rw [gcm_digest_eq bld f _ t digest ht]
    simp only [armed, Nat.zero_add, pure, Except.pure]
  · rfl

theorem decrypt_message_eq (bld : Build) (f : Block → Block) (ctx : gcm_ctx) (N A : List Nat)
    (n : Nat) (dst : List Nat) (src : Source) (t : Nat) (digest : List Nat) (hN : N.length = 12)
    (ht : t ≤ 16) :
    decrypt_message bld f ctx N A n dst src t digest = Except.ok
      ((xor_keystream f (armed f N).ctr dst (src.read dst) 0 n).take n,
        (memxor3 digest 0
          (gcm_gf_mul bld
            ((ghash bld (f Block.zero) (ghash bld (f Block.zero) Block.zero A.length A) n
              (src.read dst)).xor
              (length_block (A.length % 2 ^ 64) (n % 2 ^ 64))) (f Block.zero)).bytes 0
          (f (armed f N).iv).bytes t).take t) := by
  unfold decrypt_message
  simp only [gcm_set_iv_armed f ctx N hN, bind, Except.bind]
  rw [gcm_auth_eq bld (armed f N) A.length A rfl rfl]
  simp only []
  rw [gcm_decrypt_eq]
  · simp only []
    rw [gcm_digest_eq bld f _ t digest ht]
    simp only [armed, Nat.zero_add, pure, Except.pure]
  · rfl

theorem getD_take_lt (l : List Nat) (n i : Nat) (h : i < n) : (l.take n).getD i 0 = l.getD i 0 := by
  rw [List.getD_eq_getElem?_getD, List.getD_eq_getElem?_getD, List.getElem?_take_of_lt h]

theorem xor_cancel (a k : Nat) : a ^^^ k ^^^ k = a := by
  rw [Nat.xor_assoc, Nat.xor_self, Nat.xor_zero]

/-- C1. Round trip: a session keyed with `f`, armed with a 12-byte nonce,
fed the associated data `A` with one `gcm_auth` call and `n` bytes of
plaintext with one `gcm_encrypt` call, gives a ciphertext `C` and, for a tag
length `t ≤ 16`, a tag `T`; a second session keyed and armed in the same
way, fed `A` and then `C` with `gcm_decrypt`, gives back the plaintext and
the same tag `T`. -/
theorem round_trip (bld : Build) (f : Block → Block) (ctx1 ctx2 : gcm_ctx) (N A : List Nat)
    (n : Nat) (dst1 : List Nat) (src1 : Source) (dst2 : List Nat) (src2 : Source) (t : Nat)
    (digest1 digest2 : List Nat) (hN : N.length = 12) (ht : t ≤ 16) (hdst1 : n ≤ dst1.length)
    (hdst2 : n ≤ dst2.length) (hsrc1 : n ≤ (src1.read dst1).length)
    (hdigest1 : t ≤ digest1.length) (hdigest2 : t ≤ digest2.length) :
    ∃ C T, encrypt_message bld f ctx1 N A n dst1 src1 t digest1 = Except.ok (C, T) ∧
      C.length = n ∧ T.length = t ∧
      ((src2.read dst2).take n = C →
        decrypt_message bld f ctx2 N A n dst2 src2 t digest2 =
          Except.ok ((src1.read dst1).take n, T)) := by
  refine ⟨_, _, encrypt_message_eq bld f ctx1 N A n dst1 src1 t digest1 hN ht, ?_, ?_, ?_⟩
  · rw [List.length_take, length_xor_keystream]
    omega
  · rw [List.length_take, length_memxor3]
    omega
  · intro hC
    have hbytes : ∀ i, i < n →
        (src2.read dst2).getD i 0 =
          (xor_keystream f (armed f N).ctr dst1 (src1.read dst1) 0 n).getD i 0 := by
      intro i hi
      rw [← getD_take_lt _ n i hi, hC, getD_take_lt _ n i hi]
    have hlen2 : n ≤ (src2.read dst2).length := by
      have := congrArg List.length hC
      rw [List.length_take, List.length_take, length_xor_keystream] at this
      omega
    rw [decrypt_message_eq bld f ctx2 N A n dst2 src2 t digest2 hN ht]
    congr 2
    · apply take_eq_take_of_getD (by rw [length_xor_keystream]; exact hdst2) hsrc1
      intro i hi
      rw [getD_xor_keystream, if_pos ⟨Nat.zero_le _, by omega, by omega⟩, hbytes i hi,
        getD_xor_keystream, if_pos ⟨Nat.zero_le _, by omega, by omega⟩, xor_cancel]
    · rw [take_memxor3 _ _ _ _ ht hdigest2, take_memxor3 _ _ _ _ ht hdigest1,
        ghash_congr bld _ _ n _ _ hbytes]

theorem round_trip_witness :
    ∃ C T, encrypt_message Build.le8 (fun b => INC32 b)
        ⟨Block.zero, Block.zero, Block.zero, Block.zero, 0, 0⟩ (List.replicate 12 7) [1, 2, 3] 5
        [0, 0, 0, 0, 0, 0] (Source.other [10, 20, 30, 40, 50]) 16 (List.replicate 16 0) =
          Except.ok (C, T) ∧
      C.length = 5 ∧ T.length = 16 ∧
      ((Source.same.read [13, 19, 25, 47, 53]).take 5 = C →
        decrypt_message Build.le8 (fun b => INC32 b)
          ⟨Block.zero, Block.zero, Block.zero, Block.zero, 3, 4⟩ (List.replicate 12 7) [1, 2, 3] 5
          [13, 19, 25, 47, 53] Source.same 16 (List.replicate 16 1) =
          Except.ok (((Source.other [10, 20, 30, 40, 50]).read [0, 0, 0, 0, 0, 0]).take 5, T)) :=
  round_trip Build.le8 (fun b => INC32 b) ⟨Block.zero, Block.zero, Block.zero, Block.zero, 0, 0⟩
    ⟨Block.zero, Block.zero, Block.zero, Block.zero, 3, 4⟩ (List.replicate 12 7) [1, 2, 3] 5
    [0, 0, 0, 0, 0, 0] (Source.other [10, 20, 30, 40, 50]) [13, 19, 25, 47, 53] Source.same 16
    (List.replicate 16 0) (List.replicate 16 1) (by decide) (by decide) (by decide) (by decide)
    (by decide) (by decide) (by decide)

/-! ## The NIST test vector -/

theorem gcm_gf_mul_bits_congr (b1 b2 : Build)
    (h : ∀ x, gcm_rightshift b1 x = gcm_rightshift b2 x) (n : Nat) :
    ∀ (b : Nat) (s : Block × Block), gcm_gf_mul_bits b1 n b s = gcm_gf_mul_bits b2 n b s := by
  induction n with
  | zero =>
    intro b s
    rfl
  | succ n ih =>
    intro b s
    obtain ⟨Z, V⟩ := s
    simp only [gcm_gf_mul_bits, h, ih]

theorem gcm_gf_mul_congr (b1 b2 : Build) (h : ∀ x, gcm_rightshift b1 x = gcm_rightshift b2 x)
    (x y : Block) : gcm_gf_mul b1 x y = gcm_gf_mul b2 x y := by
  unfold gcm_gf_mul
  have : (fun s b => gcm_gf_mul_bits b1 8 b s) = fun s b => gcm_gf_mul_bits b2 8 b s := by
    funext s b
    exact gcm_gf_mul_bits_congr b1 b2 h 8 b s
  rw [this]

theorem gcm_gf_mul_be8 (poly : Nat) (h : poly % 2 ^ 64 = GHASH_POLYNOMIAL <<< 56) (x y : Block) :
    gcm_gf_mul (Build.be8 poly) x y = gcm_gf_mul (Build.be8 (GHASH_POLYNOMIAL <<< 56)) x y := by
  apply gcm_gf_mul_congr
  intro x
  have h2 : (GHASH_POLYNOMIAL <<< 56) % 2 ^ 64 = GHASH_POLYNOMIAL <<< 56 := by decide
  simp only [gcm_rightshift, h, h2]

theorem ghash_zero_length (bld : Build) (h x : Block) (data : List Nat) :
    ghash bld h x 0 data = x := by
  unfold ghash gcm_hash
  rw [gcm_hash_blocks_lt _ _ _ _ _ (by decide)]
  rfl

theorem armed_nist_ctr :
    INC32 (((((Block.zero.memcpy (List.replicate 12 0) 12).set 12 0).set 13 0).set 14 0).set 15 1) =
      nist_Y1 := by
  decide

theorem armed_nist_iv :
    ((((Block.zero.memcpy (List.replicate 12 0) 12).set 12 0).set 13 0).set 14 0).set 15 1 =
      nist_Y0 := by
  decide

set_option maxRecDepth 100000 in
theorem nist_tag_be4 :
    ((gcm_gf_mul Build.be4 ((gcm_gf_mul Build.be4 (Block.zero.memxor nist_E1.bytes 0 16)
      nist_H).xor (length_block 0 16)) nist_H).xor nist_E0).bytes =
      [0xab, 0x6e, 0x47, 0xd4, 0x2c, 0xec, 0x13, 0xbd, 0xf5, 0x3a, 0x67, 0xb2, 0x12, 0x57, 0xbd,
        0xdf] := by
  decide

set_option maxRecDepth 100000 in
theorem nist_tag_be8 :
    ((gcm_gf_mul (Build.be8 (GHASH_POLYNOMIAL <<< 56))
      ((gcm_gf_mul (Build.be8 (GHASH_POLYNOMIAL <<< 56)) (Block.zero.memxor nist_E1.bytes 0 16)
      nist_H).xor (length_block 0 16)) nist_H).xor nist_E0).bytes =
      [0xab, 0x6e, 0x47, 0xd4, 0x2c, 0xec, 0x13, 0xbd, 0xf5, 0x3a, 0x67, 0xb2, 0x12, 0x57, 0xbd,
        0xdf] := by
  decide

set_option maxRecDepth 100000 in
theorem nist_tag_le4 :
    ((gcm_gf_mul Build.le4 ((gcm_gf_mul Build.le4 (Block.zero.memxor nist_E1.bytes 0 16)
      nist_H).xor (length_block 0 16)) nist_H).xor nist_E0).bytes =
      [0xab, 0x6e, 0x47, 0xd4, 0x2c, 0xec, 0x13, 0xbd, 0xf5, 0x3a, 0x67, 0xb2, 0x12, 0x57, 0xbd,
        0xdf] := by
  decide

set_option maxRecDepth 100000 in
theorem nist_tag_le8 :
    ((gcm_gf_mul Build.le8 ((gcm_gf_mul Build.le8 (Block.zero.memxor nist_E1.bytes 0 16)
      nist_H).xor (length_block 0 16)) nist_H).xor nist_E0).bytes =
      [0xab, 0x6e, 0x47, 0xd4, 0x2c, 0xec, 0x13, 0xbd, 0xf5, 0x3a, 0x67, 0xb2, 0x12, 0x57, 0xbd,
        0xdf] := by
  decide

theorem nist_tag (bld : Build) (hbld : bld.reduces) :
    ((gcm_gf_mul bld ((gcm_gf_mul bld (Block.zero.memxor nist_E1.bytes 0 16)
      nist_H).xor (length_block 0 16)) nist_H).xor nist_E0).bytes =
      [0xab, 0x6e, 0x47, 0xd4, 0x2c, 0xec, 0x13, 0xbd, 0xf5, 0x3a, 0x67, 0xb2, 0x12, 0x57, 0xbd,
        0xdf] := by
  cases bld with
  | be4 => exact nist_tag_be4
  | be8 poly =>
    rw [gcm_gf_mul_be8 poly hbld, gcm_gf_mul_be8 poly hbld]
    exact nist_tag_be8
  | le4 => exact nist_tag_le4
  | le8 => exact nist_tag_le8

/-- C2. NIST GCM test vector, AES-128 Test Case 2: for every cipher function
`f` with the three outputs of AES-128 under the all-zero key that the test
uses, `gcm_set_key`, `gcm_set_iv` with the 12-byte all-zero nonce, no
associated data, `gcm_encrypt` of 16 zero bytes and `gcm_digest` with length
16 produce the ciphertext 0388dace60b6a392f328c2b971b2fe78 and the tag
ab6e47d42cec13bdf53a67b21257bddf. -/
theorem nist_test_case_2 (bld : Build) (f : Block → Block) (ctx : gcm_ctx) (dst : List Nat)
    (src : Source) (digest : List Nat) (hbld : bld.reduces) (hH : f Block.zero = nist_H)
    (hE0 : f nist_Y0 = nist_E0) (hE1 : f nist_Y1 = nist_E1) (hdst : 16 ≤ dst.length)
    (hsrc : (src.read dst).take 16 = List.replicate 16 0) (hdigest : 16 ≤ digest.length) :
    encrypt_message bld f ctx (List.replicate 12 0) [] 16 dst src 16 digest = Except.ok
      ([0x03, 0x88, 0xda, 0xce, 0x60, 0xb6, 0xa3, 0x92, 0xf3, 0x28, 0xc2, 0xb9, 0x71, 0xb2, 0xfe,
          0x78],
        [0xab, 0x6e, 0x47, 0xd4, 0x2c, 0xec, 0x13, 0xbd, 0xf5, 0x3a, 0x67, 0xb2, 0x12, 0x57, 0xbd,
          0xdf]) := by
  have hctr : (armed f (List.replicate 12 0)).ctr = nist_Y1 := armed_nist_ctr
  have hiv : (armed f (List.replicate 12 0)).iv = nist_Y0 := armed_nist_iv
  have hout : ∀ i, i < 16 →
      (xor_keystream f nist_Y1 dst (src.read dst) 0 16).getD i 0 = nist_E1.bytes.getD i 0 := by
    intro i hi
    have hz : (src.read dst).getD i 0 = 0 := by
      rw [← getD_take_lt _ 16 i hi, hsrc]
      interval_cases i <;> rfl
    rw [getD_xor_keystream, if_pos ⟨Nat.zero_le _, by omega, by omega⟩, hz, Nat.zero_xor,
      Nat.sub_zero, keystream_first f _ _ hi, hE1]
    rfl
  rw [encrypt_message_eq bld f ctx (List.replicate 12 0) [] 16 dst src 16 digest rfl
    (Nat.le_refl _), hctr, hiv, hH, hE0,
    take_memxor3 _ _ _ _ (Nat.le_refl _) hdigest, List.length_nil, ghash_zero_length,
    ghash_one_block, Block.memxor_congr _ _ nist_E1.bytes 0 16 (by
      intro i hi
      rw [Nat.zero_add]
      exact hout i hi)]
  have h1 : (xor_keystream f nist_Y1 dst (src.read dst) 0 16).take 16 = nist_E1.bytes.take 16 :=
    take_eq_take_of_getD (by rw [length_xor_keystream]; exact hdst) (by rw [Block.size_eq]) hout
  rw [h1]
  have h2 := nist_tag bld hbld
  have e0 : 0 % 2 ^ 64 = 0 := rfl
  have e16 : 16 % 2 ^ 64 = 16 := rfl
  rw [e0, e16, h2]
  rfl

theorem nist_test_case_2_witness :
    encrypt_message Build.le8
        (fun b => if b = Block.zero then nist_H else if b = nist_Y0 then nist_E0 else nist_E1)
        ⟨Block.zero, Block.zero, Block.zero, Block.zero, 0, 0⟩ (List.replicate 12 0) [] 16
        (List.replicate 16 0) Source.same 16 (List.replicate 16 0) = Except.ok
      ([0x03, 0x88, 0xda, 0xce, 0x60, 0xb6, 0xa3, 0x92, 0xf3, 0x28, 0xc2, 0xb9, 0x71, 0xb2, 0xfe,
          0x78],
        [0xab, 0x6e, 0x47, 0xd4, 0x2c, 0xec, 0x13, 0xbd, 0xf5, 0x3a, 0x67, 0xb2, 0x12, 0x57, 0xbd,
          0xdf]) :=
  nist_test_case_2 Build.le8
    (fun b => if b = Block.zero then nist_H else if b = nist_Y0 then nist_E0 else nist_E1)
    ⟨Block.zero, Block.zero, Block.zero, Block.zero, 0, 0⟩ (List.replicate 16 0) Source.same
    (List.replicate 16 0) trivial (by decide) (by decide) (by decide) (by decide) (by decide)
    (by decide)

/-! ## In-place equivalence -/

/-- C11. For every counter, cipher function `f`, length `n` and source bytes
`S`, the path of `gcm_crypt` taken when `dst` and `src` are the same buffer
produces the same `n` output bytes and the same final counter (indeed the
same session) as the path taken when `dst` is a separate buffer. -/
theorem inplace_equivalence (f : Block → Block) (ctx : gcm_ctx) (n : Nat) (S dst : List Nat)
    (hS : n ≤ S.length) (hdst : n ≤ dst.length) :
    (gcm_crypt f ctx n S Source.same).2.take n =
        (gcm_crypt f ctx n dst (Source.other S)).2.take n ∧
      (gcm_crypt f ctx n S Source.same).1.ctr = (gcm_crypt f ctx n dst (Source.other S)).1.ctr ∧
      (gcm_crypt f ctx n S Source.same).1 = (gcm_crypt f ctx n dst (Source.other S)).1 := by
  rw [gcm_crypt_eq, gcm_crypt_eq]
  refine ⟨?_, rfl, rfl⟩
  apply take_eq_take_of_getD (by rw [length_xor_keystream]; exact hS)
    (by rw [length_xor_keystream]; exact hdst)
  intro i hi
  simp only [Source.read]
  rw [getD_xor_keystream, getD_xor_keystream, if_pos ⟨Nat.zero_le _, by omega, by omega⟩,
    if_pos ⟨Nat.zero_le _, by omega, by omega⟩]

theorem inplace_equivalence_witness :
    (gcm_crypt (fun b => INC32 b) ⟨Block.zero, Block.zero, Block.zero, Block.zero, 0, 0⟩ 20
        (List.replicate 20 255) Source.same).2.take 20 =
        (gcm_crypt (fun b => INC32 b) ⟨Block.zero, Block.zero, Block.zero, Block.zero, 0, 0⟩ 20
          (List.replicate 24 7) (Source.other (List.replicate 20 255))).2.take 20 ∧
      (gcm_crypt (fun b => INC32 b) ⟨Block.zero, Block.zero, Block.zero, Block.zero, 0, 0⟩ 20
        (List.replicate 20 255) Source.same).1.ctr =
        (gcm_crypt (fun b => INC32 b) ⟨Block.zero, Block.zero, Block.zero, Block.zero, 0, 0⟩ 20
          (List.replicate 24 7) (Source.other (List.replicate 20 255))).1.ctr ∧
      (gcm_crypt (fun b => INC32 b) ⟨Block.zero, Block.zero, Block.zero, Block.zero, 0, 0⟩ 20
        (List.replicate 20 255) Source.same).1 =
        (gcm_crypt (fun b => INC32 b) ⟨Block.zero, Block.zero, Block.zero, Block.zero, 0, 0⟩ 20
          (List.replicate 24 7) (Source.other (List.replicate 20 255))).1 :=
  inplace_equivalence (fun b => INC32 b) ⟨Block.zero, Block.zero, Block.zero, Block.zero, 0, 0⟩ 20
    (List.replicate 20 255) (List.replicate 24 7) (by decide) (by decide)

/-! ## Splitting the hash update -/

/-- The first loop of `gcm_hash` reads the data relative to the position
only. -/
theorem gcm_hash_blocks_shift (bld : Build) (length : Nat) :
    ∀ (c : gcm_ctx) (d1 d2 : List Nat) (p1 p2 : Nat),
      (∀ i, i < 16 * (length / 16) → d1.getD (p1 + i) 0 = d2.getD (p2 + i) 0) →
      (gcm_hash_blocks bld c length d1 p1).1 = (gcm_hash_blocks bld c length d2 p2).1 := by
  induction length using Nat.strong_induction_on with
  | _ n ih =>
    intro c d1 d2 p1 p2 hd
    by_cases h : 16 ≤ n
    · rw [gcm_hash_blocks_ge bld c n d1 p1 h, gcm_hash_blocks_ge bld c n d2 p2 h]
      have hm : c.x.memxor d1 p1 16 = c.x.memxor d2 p2 16 := by
        apply Block.ext_get
        intro i _
        rw [Block.get_memxor, Block.get_memxor]
        split
        · rename_i hi
          rw [hd i (by omega)]
        · rfl
      rw [hm]
      apply ih (n - 16) (by omega)
      intro i hi
      have := hd (16 + i) (by omega)
      rw [Nat.add_assoc, Nat.add_assoc]
      exact this
    · rw [gcm_hash_blocks_lt bld c n d1 p1 (by omega), gcm_hash_blocks_lt bld c n d2 p2 (by omega)]

/-- Hashing `16 * q + m` bytes is hashing `16 * q` bytes and then `m` more. -/
theorem gcm_hash_blocks_add (bld : Build) (m : Nat) (data : List Nat) (q : Nat) :
    ∀ (c : gcm_ctx) (pos : Nat),
      gcm_hash_blocks bld c (16 * q + m) data pos =
        gcm_hash_blocks bld (gcm_hash_blocks bld c (16 * q) data pos).1 m data (pos + 16 * q) := by
  induction q with
  | zero =>
    intro c pos
    rw [Nat.mul_zero, Nat.zero_add, gcm_hash_blocks_lt bld c 0 data pos (by decide), Nat.add_zero]
  | succ q ih =>
    intro c pos
    rw [gcm_hash_blocks_ge bld c (16 * (q + 1) + m) data pos (by omega),
      gcm_hash_blocks_ge bld c (16 * (q + 1)) data pos (by omega)]
    have e1 : 16 * (q + 1) + m - 16 = 16 * q + m := by omega
    have e2 : 16 * (q + 1) - 16 = 16 * q := by omega
    have e3 : pos + 16 * (q + 1) = pos + 16 + 16 * q := by omega
    rw [e1, e2, e3, ih]

theorem gcm_hash_blocks_aligned (bld : Build) (c : gcm_ctx) (q : Nat) (data : List Nat)
    (pos : Nat) :
    gcm_hash_blocks bld c (16 * q) data pos =
      ((gcm_hash_blocks bld c (16 * q) data pos).1, 0, pos + 16 * q) := by
  have h := gcm_hash_blocks_frame bld (16 * q) c data pos
  have e1 : 16 * q % 16 = 0 := by omega
  have e2 : 16 * q / 16 = q := by omega
  rw [e1, e2] at h
  rw [h]

theorem gcm_hash_aligned (bld : Build) (c : gcm_ctx) (q : Nat) (data : List Nat) :
    gcm_hash bld c (16 * q) data = (gcm_hash_blocks bld c (16 * q) data 0).1 := by
  unfold gcm_hash
  rw [gcm_hash_blocks_aligned]
  rfl

/-- Hashing in two calls, the first of whole blocks, is hashing in one. -/
theorem gcm_hash_split (bld : Build) (c : gcm_ctx) (q m : Nat) (data d1 d2 : List Nat)
    (h1 : ∀ i, i < 16 * q → data.getD i 0 = d1.getD i 0)
    (h2 : ∀ i, i < m → data.getD (16 * q + i) 0 = d2.getD i 0) :
    gcm_hash bld c (16 * q + m) data = gcm_hash bld (gcm_hash bld c (16 * q) d1) m d2 := by
  rw [gcm_hash_aligned]
  have hfirst : (gcm_hash_blocks bld c (16 * q) data 0).1 = (gcm_hash_blocks bld c (16 * q) d1 0).1 := by
    apply gcm_hash_blocks_shift
    intro i hi
    rw [Nat.zero_add]
    exact h1 i (by omega)
  have hsecond : ∀ c' : gcm_ctx,
      (gcm_hash_blocks bld c' m data (0 + 16 * q)).1 = (gcm_hash_blocks bld c' m d2 0).1 := by
    intro c'
    apply gcm_hash_blocks_shift
    intro i hi
    rw [Nat.zero_add, Nat.zero_add]
    exact h2 i (by omega)
  unfold gcm_hash
  rw [gcm_hash_blocks_add, gcm_hash_blocks_frame bld m _ data, gcm_hash_blocks_frame bld m _ d2]
  simp only []
  rw [hsecond, hfirst]
  split
  · congr 2
    apply Block.ext_get
    intro i _
    rw [Block.get_memxor, Block.get_memxor]
    split
    · rename_i hi
      have := h2 (16 * (m / 16) + i) (by omega)
      rw [← Nat.add_assoc] at this
      simp only [Nat.zero_add]
      rw [this]
    · rfl
  · rfl

theorem getD_drop_add (l : List Nat) (k i : Nat) : (l.drop k).getD i 0 = l.getD (k + i) 0 := by
  rw [List.getD_eq_getElem?_getD, List.getD_eq_getElem?_getD, List.getElem?_drop]

theorem getD_replicate_zero (k i : Nat) : (List.replicate k 0).getD i 0 = 0 := by
  by_cases h : i < k
  · rw [List.getD_eq_getElem _ _ (by simpa using h)]
    simp
  · rw [List.getD_eq_default _ _ (by simpa using h)]

theorem getD_append_zeros (D : List Nat) (k i : Nat) :
    (D ++ List.replicate k 0).getD i 0 = D.getD i 0 := by
  rw [getD_append_nonce]
  split
  · rfl
  · rename_i h
    rw [getD_replicate_zero, List.getD_eq_default _ _ (by omega)]

theorem gcm_hash_short (bld : Build) (c : gcm_ctx) (r : Nat) (data : List Nat) (h0 : 0 < r)
    (hr : r < 16) :
    gcm_hash bld c r data = { c with x := gcm_gf_mul bld (c.x.memxor data 0 r) c.h } := by
  unfold gcm_hash
  rw [gcm_hash_blocks_lt bld c r data 0 hr]
  simp only [h0, if_true]

theorem gcm_hash_empty (bld : Build) (c : gcm_ctx) (data : List Nat) :
    gcm_hash bld c 0 data = c := by
  unfold gcm_hash
  rw [gcm_hash_blocks_lt bld c 0 data 0 (by decide)]
  rfl

/-- C15. A short final block is hashed as if padded with zeros: for data `D`
whose length `n` is not a multiple of 16, `gcm_hash` on `D` leaves the same
accumulator (the same session) as `gcm_hash` on `D` extended with
`16 - n mod 16` zero bytes; and `gcm_hash` on empty data leaves the session
unchanged. -/
theorem gcm_hash_zero_padding (bld : Build) (ctx : gcm_ctx) (D : List Nat)
    (hD : D.length % 16 ≠ 0) :
    gcm_hash bld ctx D.length D =
        gcm_hash bld ctx (D.length + (16 - D.length % 16))
          (D ++ List.replicate (16 - D.length % 16) 0) ∧
      (gcm_hash bld ctx D.length D).x =
        (gcm_hash bld ctx (D.length + (16 - D.length % 16))
          (D ++ List.replicate (16 - D.length % 16) 0)).x ∧
      ∀ data : List Nat, gcm_hash bld ctx 0 data = ctx := by
  have key : gcm_hash bld ctx D.length D =
      gcm_hash bld ctx (D.length + (16 - D.length % 16))
        (D ++ List.replicate (16 - D.length % 16) 0) := by
    have e1 : D.length = 16 * (D.length / 16) + D.length % 16 := by omega
    have e2 : D.length + (16 - D.length % 16) = 16 * (D.length / 16) + 16 := by omega
    rw [e2]
    conv_lhs => rw [e1]
    rw [gcm_hash_split bld ctx (D.length / 16) (D.length % 16) D D (D.drop (16 * (D.length / 16)))
        (fun _ _ => rfl) (fun i _ => (getD_drop_add D _ i).symm),
      gcm_hash_split bld ctx (D.length / 16) 16 (D ++ List.replicate (16 - D.length % 16) 0) D
        ((D ++ List.replicate (16 - D.length % 16) 0).drop (16 * (D.length / 16)))
        (fun i _ => getD_append_zeros D _ i) (fun i _ => (getD_drop_add _ _ i).symm),
      gcm_hash_short bld _ _ _ (by omega) (by omega), gcm_hash_one_block]
    congr 2
    apply Block.ext_get
    intro i hi
    rw [Block.get_memxor, Block.get_memxor, Nat.zero_add, getD_drop_add, getD_drop_add,
      getD_append_zeros]
    simp only [hi, and_true, and_self, if_true]
    split
    · rfl
    · rename_i h
      rw [List.getD_eq_default D 0 (by omega), Nat.xor_zero]
      exact (Nat.mod_eq_of_lt (Block.get_lt _ i)).symm
  exact ⟨key, congrArg gcm_ctx.x key, gcm_hash_empty bld ctx⟩

theorem gcm_hash_zero_padding_witness :
    gcm_hash Build.le8 ⟨nist_H, Block.zero, Block.zero, nist_E0, 0, 0⟩
        [1, 2, 3, 4, 5, 6, 7, 8, 9, 10, 11, 12, 13, 14, 15, 16, 17, 18, 19].length
        [1, 2, 3, 4, 5, 6, 7, 8, 9, 10, 11, 12, 13, 14, 15, 16, 17, 18, 19] =
        gcm_hash Build.le8 ⟨nist_H, Block.zero, Block.zero, nist_E0, 0, 0⟩
          ([1, 2, 3, 4, 5, 6, 7, 8, 9, 10, 11, 12, 13, 14, 15, 16, 17, 18, 19].length +
            (16 - [1, 2, 3, 4, 5, 6, 7, 8, 9, 10, 11, 12, 13, 14, 15, 16, 17, 18, 19].length % 16))
          ([1, 2, 3, 4, 5, 6, 7, 8, 9, 10, 11, 12, 13, 14, 15, 16, 17, 18, 19] ++
            List.replicate
              (16 - [1, 2, 3, 4, 5, 6, 7, 8, 9, 10, 11, 12, 13, 14, 15, 16, 17, 18, 19].length % 16)
              0) ∧
      (gcm_hash Build.le8 ⟨nist_H, Block.zero, Block.zero, nist_E0, 0, 0⟩
        [1, 2, 3, 4, 5, 6, 7, 8, 9, 10, 11, 12, 13, 14, 15, 16, 17, 18, 19].length
        [1, 2, 3, 4, 5, 6, 7, 8, 9, 10, 11, 12, 13, 14, 15, 16, 17, 18, 19]).x =
        (gcm_hash Build.le8 ⟨nist_H, Block.zero, Block.zero, nist_E0, 0, 0⟩
          ([1, 2, 3, 4, 5, 6, 7, 8, 9, 10, 11, 12, 13, 14, 15, 16, 17, 18, 19].length +
            (16 - [1, 2, 3, 4, 5, 6, 7, 8, 9, 10, 11, 12, 13, 14, 15, 16, 17, 18, 19].length % 16))
          ([1, 2, 3, 4, 5, 6, 7, 8, 9, 10, 11, 12, 13, 14, 15, 16, 17, 18, 19] ++
            List.replicate
              (16 - [1, 2, 3, 4, 5, 6, 7, 8, 9, 10, 11, 12, 13, 14, 15, 16, 17, 18, 19].length % 16)
              0)).x ∧
      ∀ data : List Nat,
        gcm_hash Build.le8 ⟨nist_H, Block.zero, Block.zero, nist_E0, 0, 0⟩ 0 data =
          ⟨nist_H, Block.zero, Block.zero, nist_E0, 0, 0⟩ :=
  gcm_hash_zero_padding Build.le8 ⟨nist_H, Block.zero, Block.zero, nist_E0, 0, 0⟩
    [1, 2, 3, 4, 5, 6, 7, 8, 9, 10, 11, 12, 13, 14, 15, 16, 17, 18, 19] (by decide)

/-! ## Chunking -/

theorem ghash_split (bld : Build) (h x : Block) (q m : Nat) (data d1 d2 : List Nat)
    (h1 : ∀ i, i < 16 * q → data.getD i 0 = d1.getD i 0)
    (h2 : ∀ i, i < m → data.getD (16 * q + i) 0 = d2.getD i 0) :
    ghash bld h x (16 * q + m) data = ghash bld h (ghash bld h x (16 * q) d1) m d2 := by
  unfold ghash
  rw [gcm_hash_split bld _ q m data d1 d2 h1 h2, gcm_hash_eq bld _ (16 * q) d1]

theorem take_add_eq_append {L L1 L2 : List Nat} {n1 n2 : Nat} (hL : n1 + n2 ≤ L.length)
    (hL1 : n1 ≤ L1.length) (hL2 : n2 ≤ L2.length) (h1 : ∀ i, i < n1 → L.getD i 0 = L1.getD i 0)
    (h2 : ∀ i, i < n2 → L.getD (n1 + i) 0 = L2.getD i 0) :
    L.take (n1 + n2) = L1.take n1 ++ L2.take n2 := by
  apply list_ext_getD
  · rw [List.length_append, List.length_take, List.length_take, List.length_take]
    omega
  · intro i hi
    rw [List.length_take] at hi
    rw [getD_take_lt _ _ _ (by omega), getD_append_nonce, List.length_take, Nat.min_eq_left hL1]
    split
    · rename_i h
      rw [getD_take_lt _ _ _ h, h1 i h]
    · rename_i h
      have := h2 (i - n1) (by omega)
      rw [getD_take_lt _ _ _ (by omega), ← this]
      congr 1
      omega

/-- C19. Chunking invariance: on a session that accepts data (`data_size` a
multiple of 16, as after `gcm_set_iv`), for a first chunk of `n1` bytes with
`n1` a multiple of 16 and a second chunk of `n2` bytes, `gcm_encrypt` of the
first followed by `gcm_encrypt` of the second is accepted and yields
ciphertexts whose concatenation is the ciphertext of one `gcm_encrypt` of
the `n1 + n2` bytes, and the two runs end in the same session (same counter,
accumulator and `data_size`). -/
theorem encrypt_chunking (bld : Build) (f : Block → Block) (ctx : gcm_ctx) (n1 n2 : Nat)
    (dst1 : List Nat) (src1 : Source) (dst2 : List Nat) (src2 : Source) (dst : List Nat)
    (src : Source) (hacc : ctx.data_size % 16 = 0) (hn1 : n1 % 16 = 0)
    (hdst1 : n1 ≤ dst1.length) (hdst2 : n2 ≤ dst2.length) (hdst : n1 + n2 ≤ dst.length)
    (hsrc1 : n1 ≤ (src1.read dst1).length)
    (hsrc : (src.read dst).take (n1 + n2) =
      (src1.read dst1).take n1 ++ (src2.read dst2).take n2) :
    ∃ s1 out1 s2 out2 s out,
      gcm_encrypt bld f ctx n1 dst1 src1 = Except.ok (s1, out1) ∧
      gcm_encrypt bld f s1 n2 dst2 src2 = Except.ok (s2, out2) ∧
      gcm_encrypt bld f ctx (n1 + n2) dst src = Except.ok (s, out) ∧
      out.take (n1 + n2) = out1.take n1 ++ out2.take n2 ∧
      s.ctr = s2.ctr ∧ s.x = s2.x ∧ s.data_size = s2.data_size ∧ s = s2 := by
  have hP : ∀ i, i < n1 + n2 → (src.read dst).getD i 0 =
      if i < n1 then (src1.read dst1).getD i 0 else (src2.read dst2).getD (i - n1) 0 := by
    intro i hi
    rw [← getD_take_lt _ (n1 + n2) i hi, hsrc, getD_append_nonce, List.length_take,
      Nat.min_eq_left hsrc1]
    split
    · rename_i h
      rw [getD_take_lt _ _ _ h]
    · rename_i h
      rw [getD_take_lt _ _ _ (by omega)]
  have hctr : ctr_add (ctr_add ctx.ctr ((n1 + 15) / 16)) ((n2 + 15) / 16) =
      ctr_add ctx.ctr ((n1 + n2 + 15) / 16) := by
    rw [ctr_add_add]
    congr 1
    omega
  have hk : (n1 + 15) / 16 = n1 / 16 := by omega
  -- the bytes of the one-call ciphertext
  have hout1 : ∀ i, i < n1 →
      (xor_keystream f ctx.ctr dst (src.read dst) 0 (n1 + n2)).getD i 0 =
        (xor_keystream f ctx.ctr dst1 (src1.read dst1) 0 n1).getD i 0 := by
    intro i hi
    rw [getD_xor_keystream, getD_xor_keystream, if_pos ⟨Nat.zero_le _, by omega, by omega⟩,
      if_pos ⟨Nat.zero_le _, by omega, by omega⟩, hP i (by omega), if_pos hi]
  have hout2 : ∀ i, i < n2 →
      (xor_keystream f ctx.ctr dst (src.read dst) 0 (n1 + n2)).getD (n1 + i) 0 =
        (xor_keystream f (ctr_add ctx.ctr ((n1 + 15) / 16)) dst2 (src2.read dst2) 0 n2).getD i 0 := by
    intro i hi
    rw [getD_xor_keystream, getD_xor_keystream, if_pos ⟨Nat.zero_le _, by omega, by omega⟩,
      if_pos ⟨Nat.zero_le _, by omega, by omega⟩, hP _ (by omega), if_neg (by omega),
      keystream_from, hk]
    have e1 : n1 + i - n1 = i := by omega
    have e2 : 16 * (n1 / 16) + (i - 0) = n1 + i - 0 := by omega
    rw [e1, e2]
  have hd1 : ((ctx.data_size + n1) % 2 ^ 64) % 16 = 0 := by omega
  have hx : ghash bld ctx.h ctx.x (n1 + n2)
        (xor_keystream f ctx.ctr dst (src.read dst) 0 (n1 + n2)) =
      ghash bld ctx.h
        (ghash bld ctx.h ctx.x n1 (xor_keystream f ctx.ctr dst1 (src1.read dst1) 0 n1)) n2
        (xor_keystream f (ctr_add ctx.ctr ((n1 + 15) / 16)) dst2 (src2.read dst2) 0 n2) := by
    have e : n1 = 16 * (n1 / 16) := by omega
    have h := ghash_split bld ctx.h ctx.x (n1 / 16) n2
      (xor_keystream f ctx.ctr dst (src.read dst) 0 (n1 + n2))
      (xor_keystream f ctx.ctr dst1 (src1.read dst1) 0 n1)
      (xor_keystream f (ctr_add ctx.ctr ((n1 + 15) / 16)) dst2 (src2.read dst2) 0 n2)
      (fun i hi => hout1 i (by omega)) (fun i hi => by rw [← e]; exact hout2 i hi)
    rw [← e] at h
    exact h
  have hds : (ctx.data_size + (n1 + n2)) % 2 ^ 64 = ((ctx.data_size + n1) % 2 ^ 64 + n2) % 2 ^ 64 := by
    omega
  refine ⟨_, _, _, _, _, _, gcm_encrypt_eq bld f ctx n1 dst1 src1 hacc,
    gcm_encrypt_eq bld f _ n2 dst2 src2 hd1, gcm_encrypt_eq bld f ctx (n1 + n2) dst src hacc,
    ?_, ?_, ?_, ?_, ?_⟩
  · exact take_add_eq_append (by rw [length_xor_keystream]; exact hdst)
      (by rw [length_xor_keystream]; exact hdst1) (by rw [length_xor_keystream]; exact hdst2)
      hout1 hout2
  · exact hctr.symm
  · exact hx
  · exact hds
  · simp only [hctr, hx, hds]

theorem encrypt_chunking_witness :
    ∃ s1 out1 s2 out2 s out,
      gcm_encrypt Build.le8 (fun b => INC32 b)
        ⟨nist_H, Block.zero, Block.zero, Block.zero, 0, 0⟩ 16 (List.replicate 16 0)
        (Source.other (List.replicate 16 1)) = Except.ok (s1, out1) ∧
      gcm_encrypt Build.le8 (fun b => INC32 b) s1 3 [0, 0, 0] (Source.other [2, 2, 2]) =
        Except.ok (s2, out2) ∧
      gcm_encrypt Build.le8 (fun b => INC32 b)
        ⟨nist_H, Block.zero, Block.zero, Block.zero, 0, 0⟩ (16 + 3) (List.replicate 19 0)
        (Source.other (List.replicate 16 1 ++ [2, 2, 2])) = Except.ok (s, out) ∧
      out.take (16 + 3) = out1.take 16 ++ out2.take 3 ∧
      s.ctr = s2.ctr ∧ s.x = s2.x ∧ s.data_size = s2.data_size ∧ s = s2 :=
  encrypt_chunking Build.le8 (fun b => INC32 b) ⟨nist_H, Block.zero, Block.zero, Block.zero, 0, 0⟩
    16 3 (List.replicate 16 0) (Source.other (List.replicate 16 1)) [0, 0, 0]
    (Source.other [2, 2, 2]) (List.replicate 19 0)
    (Source.other (List.replicate 16 1 ++ [2, 2, 2])) (by decide) (by decide) (by decide)
    (by decide) (by decide) (by decide) (by decide)

/-! ## The byte counts -/

theorem run_accepted_auth (bld : Build) (f : Block → Block) (ctx : gcm_ctx) (n : Nat)
    (data : List Nat) (ops : List Op) (ha : ctx.auth_size % 16 = 0)
    (hd : ctx.data_size % 16 = 0) :
    run_accepted bld f ctx (Op.call (Call.auth n data) :: ops) =
      run_accepted bld f
        { ctx with
          x := ghash bld ctx.h ctx.x n data
          auth_size := (ctx.auth_size + n) % 2 ^ 64 } ops := by
  simp only [run_accepted, Op.run, Call.run, gcm_auth_eq bld ctx n data ha hd]

theorem run_accepted_encrypt (bld : Build) (f : Block → Block) (ctx : gcm_ctx) (n : Nat)
    (dst : List Nat) (src : Source) (ops : List Op) (hd : ctx.data_size % 16 = 0) :
    run_accepted bld f ctx (Op.call (Call.encrypt n dst src) :: ops) =
      run_accepted bld f
        { ctx with
          ctr := ctr_add ctx.ctr ((n + 15) / 16)
          x := ghash bld ctx.h ctx.x n (xor_keystream f ctx.ctr dst (src.read dst) 0 n)
          data_size := (ctx.data_size + n) % 2 ^ 64 } ops := by
  simp only [run_accepted, Op.run, Call.run_encrypt_ok bld f ctx n dst src hd]

theorem run_accepted_decrypt (bld : Build) (f : Block → Block) (ctx : gcm_ctx) (n : Nat)
    (dst : List Nat) (src : Source) (ops : List Op) (hd : ctx.data_size % 16 = 0) :
    run_accepted bld f ctx (Op.call (Call.decrypt n dst src) :: ops) =
      run_accepted bld f
        { ctx with
          ctr := ctr_add ctx.ctr ((n + 15) / 16)
          x := ghash bld ctx.h ctx.x n (src.read dst)
          data_size := (ctx.data_size + n) % 2 ^ 64 } ops := by
  simp only [run_accepted, Op.run, Call.run_decrypt_ok bld f ctx n dst src hd]

theorem run_accepted_digest (bld : Build) (f : Block → Block) (ctx : gcm_ctx) (t : Nat)
    (buf : List Nat) (ops : List Op) (ht : t ≤ 16) :
    run_accepted bld f ctx (Op.digest t buf :: ops) =
      run_accepted bld f
        { ctx with
          x := gcm_gf_mul bld (ctx.x.xor (length_block ctx.auth_size ctx.data_size)) ctx.h
          auth_size := ctx.auth_size * 8 % 2 ^ 64
          data_size := ctx.data_size * 8 % 2 ^ 64 } ops := by
  simp only [run_accepted, Op.run, gcm_digest_eq bld f ctx t buf ht, Except.map]

theorem run_accepted_rejected (bld : Build) (f : Block → Block) (ctx : gcm_ctx) (c : Call)
    (ops : List Op) (h : c.run bld f ctx = Except.error ctx) :
    run_accepted bld f ctx (Op.call c :: ops) = none := by
  simp only [run_accepted, Op.run, h]

/-- C16, counterexample. From `gcm_set_key` and `gcm_set_iv`, an accepted
`gcm_auth` call of 1 byte followed by an accepted `gcm_digest` reaches a
state where `auth_size` is 8, while 1 byte has been passed to `gcm_auth`. -/
theorem digest_rescales_counts :
    ∃ s0 s,
      gcm_set_iv
        (gcm_set_key (fun b => INC32 b) ⟨Block.zero, Block.zero, Block.zero, Block.zero, 0, 0⟩) 12
        (List.replicate 12 0) = Except.ok s0 ∧
      run_accepted Build.le8 (fun b => INC32 b) s0
        [Op.call (Call.auth 1 [5]), Op.digest 16 (List.replicate 16 0)] = some s ∧
      s.auth_size = 8 ∧
      auth_bytes [Op.call (Call.auth 1 [5]), Op.digest 16 (List.replicate 16 0)] % 2 ^ 64 = 1 ∧
      s.auth_size ≠
        auth_bytes [Op.call (Call.auth 1 [5]), Op.digest 16 (List.replicate 16 0)] % 2 ^ 64 := by
  have hrun : ∃ s, run_accepted Build.le8 (fun b => INC32 b)
      (armed (fun b => INC32 b) (List.replicate 12 0))
      [Op.call (Call.auth 1 [5]), Op.digest 16 (List.replicate 16 0)] = some s ∧
      s.auth_size = 8 := by
    rw [run_accepted_auth, run_accepted_digest]
    · exact ⟨_, rfl, rfl⟩
    · decide
    · rfl
    · rfl
  obtain ⟨s, h1, h2⟩ := hrun
  refine ⟨_, s, gcm_set_iv_armed _ _ (List.replicate 12 0) rfl, h1, h2, by decide, ?_⟩
  rw [h2]
  decide

/-- Through accepted `gcm_auth`, `gcm_encrypt` and `gcm_decrypt` calls the
two counts follow the bytes passed. -/
theorem byte_counts_from (bld : Build) (f : Block → Block) (calls : List Call) :
    ∀ (ctx s : gcm_ctx), run_accepted bld f ctx (calls.map Op.call) = some s →
      ctx.auth_size < 2 ^ 64 → ctx.data_size < 2 ^ 64 →
      s.auth_size = (ctx.auth_size + auth_bytes (calls.map Op.call)) % 2 ^ 64 ∧
        s.data_size = (ctx.data_size + data_bytes (calls.map Op.call)) % 2 ^ 64 := by
  induction calls with
  | nil =>
    intro ctx s hrun ha hd
    simp only [List.map_nil, run_accepted, Option.some.injEq] at hrun
    subst hrun
    simp only [auth_bytes, data_bytes, List.map_nil, List.sum_nil, Nat.add_zero]
    exact ⟨(Nat.mod_eq_of_lt ha).symm, (Nat.mod_eq_of_lt hd).symm⟩
  | cons c calls ih =>
    intro ctx s hrun ha hd
    have hsum_a : auth_bytes ((c :: calls).map Op.call) =
        (Op.call c).auth_length + auth_bytes (calls.map Op.call) := by
      simp only [auth_bytes, List.map_cons, List.sum_cons]
    have hsum_d : data_bytes ((c :: calls).map Op.call) =
        (Op.call c).data_length + data_bytes (calls.map Op.call) := by
      simp only [data_bytes, List.map_cons, List.sum_cons]
    rw [hsum_a, hsum_d]
    rw [List.map_cons] at hrun
    cases c with
    | auth n data =>
      by_cases h16 : ctx.auth_size % 16 = 0 ∧ ctx.data_size % 16 = 0
      · rw [run_accepted_auth bld f ctx n data _ h16.1 h16.2] at hrun
        have := ih _ s hrun (Nat.mod_lt _ (Nat.two_pow_pos 64)) hd
        simp only [Op.auth_length, Op.data_length, Call.data_length] at this ⊢
        omega
      · rw [run_accepted_rejected bld f ctx (Call.auth n data) _
          (gcm_auth_rejected bld ctx n data (by omega))] at hrun
        cases hrun
    | encrypt n dst src =>
      by_cases h16 : ctx.data_size % 16 = 0
      · rw [run_accepted_encrypt bld f ctx n dst src _ h16] at hrun
        have := ih _ s hrun ha (Nat.mod_lt _ (Nat.two_pow_pos 64))
        simp only [Op.auth_length, Op.data_length, Call.data_length] at this ⊢
        omega
      · have hrej : (Call.encrypt n dst src).run bld f ctx = Except.error ctx := by
          simp only [Call.run, gcm_encrypt_rejected bld f ctx n dst src h16, Except.map]
        rw [run_accepted_rejected bld f ctx _ _ hrej] at hrun
        cases hrun
    | decrypt n dst src =>
      by_cases h16 : ctx.data_size % 16 = 0
      · rw [run_accepted_decrypt bld f ctx n dst src _ h16] at hrun
        have := ih _ s hrun ha (Nat.mod_lt _ (Nat.two_pow_pos 64))
        simp only [Op.auth_length, Op.data_length, Call.data_length] at this ⊢
        omega
      · have hrej : (Call.decrypt n dst src).run bld f ctx = Except.error ctx := by
          simp only [Call.run, gcm_decrypt_rejected bld f ctx n dst src h16, Except.map]
        rw [run_accepted_rejected bld f ctx _ _ hrej] at hrun
        cases hrun

/-- C16, amended. In every state reached from `gcm_set_iv` by accepted calls
of `gcm_auth`, `gcm_encrypt` and `gcm_decrypt`, `auth_size` is the total
number of bytes passed to `gcm_auth` and `data_size` the total number of
bytes passed to `gcm_encrypt` and `gcm_decrypt` since that `gcm_set_iv`,
modulo `2 ^ 64`; `gcm_digest` then replaces each count by 8 times its value,
modulo `2 ^ 64`. -/
theorem byte_counts (bld : Build) (f : Block → Block) (ctx0 s0 s : gcm_ctx) (N : List Nat)
    (calls : List Call) (harm : gcm_set_iv ctx0 12 N = Except.ok s0)
    (hrun : run_accepted bld f s0 (calls.map Op.call) = some s) :
    s.auth_size = auth_bytes (calls.map Op.call) % 2 ^ 64 ∧
      s.data_size = data_bytes (calls.map Op.call) % 2 ^ 64 ∧
      ∀ (t : Nat) (buf : List Nat), t ≤ 16 →
        ∃ s' tag, gcm_digest bld f s t buf = Except.ok (s', tag) ∧
          s'.auth_size = s.auth_size * 8 % 2 ^ 64 ∧ s'.data_size = s.data_size * 8 % 2 ^ 64 := by
  have hz : s0.auth_size = 0 ∧ s0.data_size = 0 := by
    rw [gcm_set_iv_eq] at harm
    rw [← Except.ok.inj harm]
    exact ⟨rfl, rfl⟩
  have h := byte_counts_from bld f calls s0 s hrun (by rw [hz.1]; decide) (by rw [hz.2]; decide)
  rw [hz.1, hz.2, Nat.zero_add, Nat.zero_add] at h
  refine ⟨h.1, h.2, ?_⟩
  intro t buf ht
  exact ⟨_, _, gcm_digest_eq bld f s t buf ht, rfl, rfl⟩

theorem byte_counts_witness :
    ({ armed (fun b => INC32 b) (List.replicate 12 0) with
        x := ghash Build.le8 (armed (fun b => INC32 b) (List.replicate 12 0)).h
          (armed (fun b => INC32 b) (List.replicate 12 0)).x 5 [1, 2, 3, 4, 5]
        auth_size := 5 } : gcm_ctx).auth_size =
        auth_bytes ([Call.auth 5 [1, 2, 3, 4, 5]].map Op.call) % 2 ^ 64 ∧
      ({ armed (fun b => INC32 b) (List.replicate 12 0) with
        x := ghash Build.le8 (armed (fun b => INC32 b) (List.replicate 12 0)).h
          (armed (fun b => INC32 b) (List.replicate 12 0)).x 5 [1, 2, 3, 4, 5]
        auth_size := 5 } : gcm_ctx).data_size =
        data_bytes ([Call.auth 5 [1, 2, 3, 4, 5]].map Op.call) % 2 ^ 64 ∧
      ∀ (t : Nat) (buf : List Nat), t ≤ 16 →
        ∃ s' tag, gcm_digest Build.le8 (fun b => INC32 b)
            { armed (fun b => INC32 b) (List.replicate 12 0) with
              x := ghash Build.le8 (armed (fun b => INC32 b) (List.replicate 12 0)).h
                (armed (fun b => INC32 b) (List.replicate 12 0)).x 5 [1, 2, 3, 4, 5]
              auth_size := 5 } t buf = Except.ok (s', tag) ∧
          s'.auth_size =
            ({ armed (fun b => INC32 b) (List.replicate 12 0) with
              x := ghash Build.le8 (armed (fun b => INC32 b) (List.replicate 12 0)).h
                (armed (fun b => INC32 b) (List.replicate 12 0)).x 5 [1, 2, 3, 4, 5]
              auth_size := 5 } : gcm_ctx).auth_size * 8 % 2 ^ 64 ∧
          s'.data_size =
            ({ armed (fun b => INC32 b) (List.replicate 12 0) with
              x := ghash Build.le8 (armed (fun b => INC32 b) (List.replicate 12 0)).h
                (armed (fun b => INC32 b) (List.replicate 12 0)).x 5 [1, 2, 3, 4, 5]
              auth_size := 5 } : gcm_ctx).data_size * 8 % 2 ^ 64 :=
  byte_counts Build.le8 (fun b => INC32 b)
    (gcm_set_key (fun b => INC32 b) ⟨Block.zero, Block.zero, Block.zero, Block.zero, 0, 0⟩)
    (armed (fun b => INC32 b) (List.replicate 12 0)) _ (List.replicate 12 0)
    [Call.auth 5 [1, 2, 3, 4, 5]]
    (gcm_set_iv_armed _ _ (List.replicate 12 0) rfl)
    (by
      simp only [List.map]
      rw [run_accepted_auth]
      · rfl
      · rfl
      · rfl)

/-! ## Bits of words and bytes -/

theorem testBit_ge_256 {b i : Nat} (hb : b < 256) (hi : 8 ≤ i) : b.testBit i = false :=
  Nat.testBit_lt_two_pow (Nat.lt_of_lt_of_le hb (Nat.pow_le_pow_right (Nat.succ_pos 1) hi))

theorem Block.testBit_get_ge (x : Block) (i j : Nat) (hj : 8 ≤ j) : (x.get i).testBit j = false :=
  testBit_ge_256 (x.get_lt i) hj

theorem load_le_cons (b : Nat) (bs : List Nat) : load_le (b :: bs) = 2 ^ 8 * load_le bs + b := by
  simp only [load_le, List.foldr]
  omega

theorem load_le_testBit (bs : List Nat) (h : ∀ b ∈ bs, b < 256) (p : Nat) :
    (load_le bs).testBit p = (bs.getD (p / 8) 0).testBit (p % 8) := by
  induction bs generalizing p with
  | nil => simp [load_le]
  | cons b bs ih =>
    have hb : b < 2 ^ 8 := h b (List.mem_cons_self _ _)
    rw [load_le_cons, Nat.testBit_mul_pow_two_add _ hb]
    split
    · rename_i hp
      have e1 : p / 8 = 0 := by omega
      have e2 : p % 8 = p := by omega
      rw [e1, e2]
      rfl
    · rename_i hp
      rw [ih (fun b hb => h b (List.mem_cons_of_mem _ hb))]
      have e1 : p / 8 = (p - 8) / 8 + 1 := by omega
      have e2 : (p - 8) % 8 = p % 8 := by omega
      rw [e1, e2]
      rfl

theorem load_be_eq_load_le_reverse (bs : List Nat) : load_be bs = load_le bs.reverse := by
  unfold load_be load_le
  rw [List.foldr_reverse]
  congr 1
  funext acc b
  omega

theorem getD_reverse (l : List Nat) (q : Nat) (hq : q < l.length) :
    l.reverse.getD q 0 = l.getD (l.length - 1 - q) 0 := by
  rw [List.getD_eq_getElem _ _ (by simpa using hq), List.getD_eq_getElem _ _ (by omega),
    List.getElem_reverse]

theorem load_be_testBit (bs : List Nat) (h : ∀ b ∈ bs, b < 256) (p : Nat) :
    (load_be bs).testBit p =
      (decide (p / 8 < bs.length) && (bs.getD (bs.length - 1 - p / 8) 0).testBit (p % 8)) := by
  rw [load_be_eq_load_le_reverse, load_le_testBit _ (fun b hb => h b (List.mem_reverse.mp hb))]
  by_cases hq : p / 8 < bs.length
  · rw [getD_reverse _ _ hq]
    simp [hq]
  · rw [List.getD_eq_default _ _ (by simpa using hq)]
    simp [hq]

theorem getD_take_drop (l : List Nat) (a s q : Nat) :
    ((l.drop a).take s).getD q 0 = if q < s then l.getD (a + q) 0 else 0 := by
  rw [List.getD_eq_getElem?_getD, List.getElem?_take]
  split
  · rw [List.getElem?_drop, ← List.getD_eq_getElem?_getD]
  · rfl

theorem mem_take_drop_lt (x : Block) (a s : Nat) : ∀ b ∈ (x.bytes.drop a).take s, b < 256 :=
  fun b hb => x.byte_lt b (List.mem_of_mem_drop (List.mem_of_mem_take hb))

theorem length_take_drop (x : Block) (a s : Nat) (h : a + s ≤ 16) :
    ((x.bytes.drop a).take s).length = s := by
  rw [List.length_take, List.length_drop, x.size_eq]
  omega

/-- Bit `p` of the word `w[k]` on a little-endian host. -/
theorem word_le_testBit (s : Nat) (x : Block) (k p : Nat) :
    (word_le s x k).testBit p =
      (decide (p / 8 < s) && (x.get (s * k + p / 8)).testBit (p % 8)) := by
  unfold word_le
  rw [load_le_testBit _ (mem_take_drop_lt x _ _), getD_take_drop]
  by_cases h : p / 8 < s
  · simp [h, Block.get]
  · simp [h]

/-- Bit `p` of the word `w[k]` on a big-endian host. -/
theorem word_be_testBit (s : Nat) (x : Block) (k p : Nat) (hk : s * k + s ≤ 16) :
    (word_be s x k).testBit p =
      (decide (p / 8 < s) && (x.get (s * k + (s - 1 - p / 8))).testBit (p % 8)) := by
  unfold word_be
  rw [load_be_testBit _ (mem_take_drop_lt x _ _), length_take_drop x _ _ hk, getD_take_drop]
  by_cases h : p / 8 < s
  · have h2 : s - 1 - p / 8 < s := by omega
    simp [h, h2, Block.get]
  · simp [h]

theorem byte_le_testBit (w q j : Nat) :
    (byte_le w q).testBit j = (decide (j < 8) && w.testBit (8 * q + j)) := by
  unfold byte_le
  rw [show (256 : Nat) = 2 ^ 8 by rfl, Nat.testBit_mod_two_pow, Nat.testBit_shiftRight]

theorem byte_be_testBit (s w q j : Nat) :
    (byte_be s w q).testBit j = (decide (j < 8) && w.testBit (8 * (s - 1 - q) + j)) := by
  unfold byte_be
  rw [show (256 : Nat) = 2 ^ 8 by rfl, Nat.testBit_mod_two_pow, Nat.testBit_shiftRight]

theorem Block.testBit_get_ofFn (g : Nat → Nat) (i j : Nat) (hi : i < 16) :
    ((Block.ofFn g).get i).testBit j = (decide (j < 8) && (g i).testBit j) := by
  rw [Block.get_ofFn, if_pos hi, show (256 : Nat) = 2 ^ 8 by rfl, Nat.testBit_mod_two_pow]

/-- Two blocks with the same bits are equal. -/
theorem Block.ext_testBit {a b : Block}
    (h : ∀ i j, i < 16 → j < 8 → (a.get i).testBit j = (b.get i).testBit j) : a = b := by
  apply Block.ext_get
  intro i hi
  apply Nat.eq_of_testBit_eq
  intro j
  by_cases hj : j < 8
  · exact h i j hi hj
  · rw [Block.testBit_get_ge _ _ _ (by omega), Block.testBit_get_ge _ _ _ (by omega)]

/-! ## The word-level shift against the byte-level shift -/

theorem testBit_mask_fe8 (q : Nat) :
    (0xfefefefefefefefe : Nat).testBit q = decide (q < 64 ∧ q % 8 ≠ 0) := by
  by_cases h : q < 64
  · interval_cases q <;> rfl
  · rw [Nat.testBit_lt_two_pow (Nat.lt_of_lt_of_le (by decide : (0xfefefefefefefefe : Nat) < 2 ^ 64)
      (Nat.pow_le_pow_right (Nat.succ_pos 1) (Nat.le_of_not_lt h)))]
    simp [h]

theorem testBit_mask_018 (q : Nat) :
    (0x0101010101010101 : Nat).testBit q = decide (q < 64 ∧ q % 8 = 0) := by
  by_cases h : q < 64
  · interval_cases q <;> rfl
  · rw [Nat.testBit_lt_two_pow (Nat.lt_of_lt_of_le (by decide : (0x0101010101010101 : Nat) < 2 ^ 64)
      (Nat.pow_le_pow_right (Nat.succ_pos 1) (Nat.le_of_not_lt h)))]
    simp [h]

theorem testBit_mask_fe4 (q : Nat) :
    (0xfefefefe : Nat).testBit q = decide (q < 32 ∧ q % 8 ≠ 0) := by
  by_cases h : q < 32
  · interval_cases q <;> rfl
  · rw [Nat.testBit_lt_two_pow (Nat.lt_of_lt_of_le (by decide : (0xfefefefe : Nat) < 2 ^ 32)
      (Nat.pow_le_pow_right (Nat.succ_pos 1) (Nat.le_of_not_lt h)))]
    simp [h]

theorem testBit_mask_014 (q : Nat) :
    (0x01010101 : Nat).testBit q = decide (q < 32 ∧ q % 8 = 0) := by
  by_cases h : q < 32
  · interval_cases q <;> rfl
  · rw [Nat.testBit_lt_two_pow (Nat.lt_of_lt_of_le (by decide : (0x01010101 : Nat) < 2 ^ 32)
      (Nat.pow_le_pow_right (Nat.succ_pos 1) (Nat.le_of_not_lt h)))]
    simp [h]

theorem testBit_0x80 (q : Nat) : (0x80 : Nat).testBit q = decide (q = 7) := by
  rw [show (0x80 : Nat) = 2 ^ 7 by rfl, Nat.testBit_two_pow]
  by_cases h : q = 7
  · simp [h]
  · simp [h, Ne.symm h]

theorem testBit_0xE1 (q : Nat) :
    (0xE1 : Nat).testBit q = decide (q = 0 ∨ q = 5 ∨ q = 6 ∨ q = 7) := by
  by_cases h : q < 8
  · interval_cases q <;> rfl
  · rw [testBit_ge_256 (by decide) (by omega)]
    simp
    omega

/-- The bits of `RSHIFT_WORD` for 8-byte words: every byte of the word is
shifted right by one, and takes as its top bit the low bit of the byte
before it in memory. -/
theorem RSHIFT_WORD_8_testBit (w p : Nat) :
    (RSHIFT_WORD_8 w).testBit p =
      ((decide (p % 8 ≠ 7 ∧ p < 64) && w.testBit (p + 1)) ||
        (decide (p % 8 = 7 ∧ 15 ≤ p ∧ p < 64) && w.testBit (p - 15))) := by
  unfold RSHIFT_WORD_8
  rw [Nat.testBit_or, Nat.testBit_shiftRight, Nat.testBit_and, Nat.testBit_mod_two_pow,
    Nat.testBit_shiftLeft, Nat.testBit_and, testBit_mask_fe8, testBit_mask_018, Nat.add_comm 1 p]
  by_cases h1 : p % 8 = 7
  · by_cases h2 : 15 ≤ p
    · by_cases h3 : p < 64
      · have e1 : (p + 1) % 8 = 0 := by omega
        have e2 : (p - 15) % 8 = 0 := by omega
        have e3 : p - 15 < 64 := by omega
        simp [*]
      · simp [*]
        intros
        omega
    · have e1 : (p + 1) % 8 = 0 := by omega
      simp [*]
  · by_cases h3 : p < 64
    · have e1 : (p + 1) % 8 ≠ 0 := by omega
      have e2 : p + 1 < 64 := by omega
      by_cases h2 : 15 ≤ p
      · have e3 : (p - 15) % 8 ≠ 0 := by omega
        simp [*]
      · simp [*]
    · have e2 : ¬ p + 1 < 64 := by omega
      simp [*]

theorem rightshift_bytes_testBit (x : Block) (i j : Nat) (hi : i < 16) (hj : j < 8) :
    ((rightshift_bytes x).get i).testBit j = shift_bit x i j := by
  unfold rightshift_bytes shift_bit
  rw [Block.testBit_get_ofFn _ _ _ hi]
  by_cases h0 : i = 0
  · subst h0
    simp only [if_true, hj, decide_True, Bool.true_and, Nat.testBit_xor, Nat.testBit_shiftRight,
      Nat.add_comm 1 j, Nat.testBit_zero]
    by_cases hodd : x.get 15 % 2 = 1
    · simp [hodd]
    · simp [hodd]
  · simp only [h0, if_false, hj, decide_True, Bool.true_and, Nat.testBit_or,
      Nat.testBit_shiftRight, Nat.add_comm 1 j, Nat.testBit_shiftLeft, Nat.testBit_and]
    by_cases h7 : j = 7
    · subst h7
      simp [Block.testBit_get_ge]
    · have e : ¬ j ≥ 7 := by omega
      simp [h7, e]

theorem neg_mask_and_testBit (s v c q : Nat) (hv : v ≤ 1) (hc : c < 2 ^ (8 * s)) :
    (neg_mask s v &&& c).testBit q = (decide (v = 1) && c.testBit q) := by
  have hv2 : v = 0 ∨ v = 1 := by omega
  rcases hv2 with rfl | rfl
  · simp [neg_mask]
  · unfold neg_mask
    rw [Nat.mod_eq_of_lt (Nat.sub_lt (Nat.two_pow_pos _) (by decide)), Nat.testBit_and,
      Nat.testBit_two_pow_sub_one]
    by_cases hq : q < 8 * s
    · simp [hq]
    · rw [Nat.testBit_lt_two_pow (Nat.lt_of_lt_of_le hc
        (Nat.pow_le_pow_right (Nat.succ_pos 1) (Nat.le_of_not_lt hq)))]
      simp

theorem neg_mask_low_testBit (s w c q : Nat) (hc : c < 2 ^ (8 * s)) :
    (neg_mask s (w &&& 1) &&& c).testBit q = (w.testBit 0 && c.testBit q) := by
  have h1 : w &&& 1 ≤ 1 := by
    rw [Nat.and_one_is_mod]
    omega
  rw [neg_mask_and_testBit s _ c q h1 hc, Nat.and_one_is_mod, Nat.testBit_zero]

/-- The body of `gcm_rightshift` for a little-endian host with 8-byte words
is the byte-level shift. -/
theorem gcm_rightshift_le8_testBit (x : Block) (i j : Nat) (hi : i < 16) (hj : j < 8) :
    ((gcm_rightshift Build.le8 x).get i).testBit j = shift_bit x i j := by
  have hE1 : GHASH_POLYNOMIAL < 2 ^ (8 * 8) := by decide
  unfold gcm_rightshift shift_bit
  simp only []
  rw [Block.testBit_get_ofFn _ _ _ hi]
  simp only [hj, decide_True, Bool.true_and]
  by_cases h8 : i < 8
  · rw [if_pos h8, byte_le_testBit, Nat.testBit_xor, RSHIFT_WORD_8_testBit,
      neg_mask_low_testBit 8 _ _ _ hE1,
      Nat.testBit_shiftRight, Nat.add_zero, word_le_testBit, word_le_testBit, word_le_testBit]
    simp only [hj, decide_True, Bool.true_and, GHASH_POLYNOMIAL, testBit_0xE1]
    clear hE1 hi
    interval_cases i <;> interval_cases j <;> simp [Block.testBit_get_ge]
  · rw [if_neg h8, byte_le_testBit, Nat.testBit_or, RSHIFT_WORD_8_testBit, Nat.testBit_and,
      Nat.testBit_shiftRight, testBit_0x80, word_le_testBit, word_le_testBit, word_le_testBit]
    simp only [hj, decide_True, Bool.true_and]
    have h8b : 8 ≤ i := Nat.le_of_not_lt h8
    clear hE1 h8
    interval_cases i <;> interval_cases j <;> simp [Block.testBit_get_ge]

theorem RSHIFT_WORD_4_testBit (w p : Nat) :
    (RSHIFT_WORD_4 w).testBit p =
      ((decide (p % 8 ≠ 7 ∧ p < 32) && w.testBit (p + 1)) ||
        (decide (p % 8 = 7 ∧ 15 ≤ p ∧ p < 32) && w.testBit (p - 15))) := by
  unfold RSHIFT_WORD_4
  rw [Nat.testBit_or, Nat.testBit_shiftRight, Nat.testBit_and, Nat.testBit_mod_two_pow,
    Nat.testBit_shiftLeft, Nat.testBit_and, testBit_mask_fe4, testBit_mask_014, Nat.add_comm 1 p]
  by_cases h1 : p % 8 = 7
  · by_cases h2 : 15 ≤ p
    · by_cases h3 : p < 32
      · have e1 : (p + 1) % 8 = 0 := by omega
        have e2 : (p - 15) % 8 = 0 := by omega
        have e3 : p - 15 < 32 := by omega
        simp [*]
      · simp [*]
        intros
        omega
    · have e1 : (p + 1) % 8 = 0 := by omega
      simp [*]
  · by_cases h3 : p < 32
    · have e1 : (p + 1) % 8 ≠ 0 := by omega
      have e2 : p + 1 < 32 := by omega
      by_cases h2 : 15 ≤ p
      · have e3 : (p - 15) % 8 ≠ 0 := by omega
        simp [*]
      · simp [*]
    · have e2 : ¬ p + 1 < 32 := by omega
      simp [*]

/-- The body of `gcm_rightshift` for a little-endian host with 4-byte words
is the byte-level shift. -/
theorem gcm_rightshift_le4_testBit (x : Block) (i j : Nat) (hi : i < 16) (hj : j < 8) :
    ((gcm_rightshift Build.le4 x).get i).testBit j = shift_bit x i j := by
  have hE1 : GHASH_POLYNOMIAL < 2 ^ (8 * 4) := by decide
  unfold gcm_rightshift shift_bit
  simp only []
  rw [Block.testBit_get_ofFn _ _ _ hi]
  simp only [hj, decide_True, Bool.true_and]
  by_cases h4 : i < 4
  · rw [if_pos h4, byte_le_testBit, Nat.testBit_xor, RSHIFT_WORD_4_testBit,
      neg_mask_low_testBit 4 _ _ _ hE1,
      Nat.testBit_shiftRight, Nat.add_zero, word_le_testBit, word_le_testBit, word_le_testBit]
    simp only [hj, decide_True, Bool.true_and, GHASH_POLYNOMIAL, testBit_0xE1]
    clear hE1 hi
    interval_cases i <;> interval_cases j <;> simp [Block.testBit_get_ge]
  · rw [if_neg h4]
    have h4b : 4 ≤ i := Nat.le_of_not_lt h4
    by_cases h8 : i < 8
    · rw [if_pos h8, byte_le_testBit, Nat.testBit_or, RSHIFT_WORD_4_testBit, Nat.testBit_and,
        Nat.testBit_shiftRight, testBit_0x80, word_le_testBit, word_le_testBit, word_le_testBit]
      simp only [hj, decide_True, Bool.true_and]
      clear hE1 hi h4
      interval_cases i <;> interval_cases j <;> simp [Block.testBit_get_ge]
    · rw [if_neg h8]
      have h8b : 8 ≤ i := Nat.le_of_not_lt h8
      by_cases h12 : i < 12
      · rw [if_pos h12, byte_le_testBit, Nat.testBit_or, RSHIFT_WORD_4_testBit, Nat.testBit_and,
          Nat.testBit_shiftRight, testBit_0x80, word_le_testBit, word_le_testBit, word_le_testBit]
        simp only [hj, decide_True, Bool.true_and]
        clear hE1 hi h4 h8 h4b
        interval_cases i <;> interval_cases j <;> simp [Block.testBit_get_ge]
      · rw [if_neg h12, byte_le_testBit, Nat.testBit_or, RSHIFT_WORD_4_testBit, Nat.testBit_and,
          Nat.testBit_shiftRight, testBit_0x80, word_le_testBit, word_le_testBit, word_le_testBit]
        simp only [hj, decide_True, Bool.true_and]
        have h12b : 12 ≤ i := Nat.le_of_not_lt h12
        clear hE1 h4 h8 h4b h8b h12
        interval_cases i <;> interval_cases j <;> simp [Block.testBit_get_ge]

theorem carry_testBit (w n p : Nat) :
    (((w &&& 1) <<< n) % 2 ^ (n + 1)).testBit p = (decide (p = n) && w.testBit 0) := by
  rw [Nat.testBit_mod_two_pow, Nat.testBit_shiftLeft, Nat.testBit_and]
  by_cases h : p = n
  · subst h
    simp
  · by_cases h2 : p ≥ n
    · have h3 : p - n ≠ 0 := by omega
      have h4 : (1 : Nat).testBit (p - n) = false := by
        rw [← Bool.not_eq_true, Nat.testBit_one_eq_true_iff_self_eq_zero]
        exact h3
      simp [h, h4]
    · simp [h, h2]

theorem testBit_poly_be4 (q : Nat) :
    ((GHASH_POLYNOMIAL <<< 24) % 2 ^ 32).testBit q =
      decide (q = 24 ∨ q = 29 ∨ q = 30 ∨ q = 31) := by
  by_cases h : q < 32
  · interval_cases q <;> rfl
  · rw [Nat.testBit_lt_two_pow (Nat.lt_of_lt_of_le (Nat.mod_lt _ (Nat.two_pow_pos 32))
      (Nat.pow_le_pow_right (Nat.succ_pos 1) (Nat.le_of_not_lt h)))]
    symm
    rw [decide_eq_false_iff_not]
    omega

theorem testBit_poly_be8 (q : Nat) :
    (GHASH_POLYNOMIAL <<< 56).testBit q = decide (q = 56 ∨ q = 61 ∨ q = 62 ∨ q = 63) := by
  by_cases h : q < 64
  · interval_cases q <;> rfl
  · rw [Nat.testBit_lt_two_pow (Nat.lt_of_lt_of_le (show GHASH_POLYNOMIAL <<< 56 < 2 ^ 64 by decide)
      (Nat.pow_le_pow_right (Nat.succ_pos 1) (Nat.le_of_not_lt h)))]
    symm
    rw [decide_eq_false_iff_not]
    omega

/-- The body of `gcm_rightshift` for a big-endian host with 4-byte words is
the byte-level shift. -/
theorem gcm_rightshift_be4_testBit (x : Block) (i j : Nat) (hi : i < 16) (hj : j < 8) :
    ((gcm_rightshift Build.be4 x).get i).testBit j = shift_bit x i j := by
  have hP : (GHASH_POLYNOMIAL <<< 24) % 2 ^ 32 < 2 ^ (8 * 4) := Nat.mod_lt _ (Nat.two_pow_pos 32)
  have k0 : 4 * 0 + 4 ≤ 16 := by decide
  have k1 : 4 * 1 + 4 ≤ 16 := by decide
  have k2 : 4 * 2 + 4 ≤ 16 := by decide
  have k3 : 4 * 3 + 4 ≤ 16 := by decide
  unfold gcm_rightshift shift_bit
  simp only []
  rw [Block.testBit_get_ofFn _ _ _ hi]
  simp only [hj, decide_True, Bool.true_and]
  by_cases h4 : i < 4
  · rw [if_pos h4, byte_be_testBit, Nat.testBit_xor, Nat.testBit_shiftRight,
      neg_mask_low_testBit 4 _ _ _ hP, testBit_poly_be4,
      word_be_testBit 4 x 0 _ k0, word_be_testBit 4 x 3 _ k3]
    simp only [hj, decide_True, Bool.true_and, testBit_0xE1]
    clear hP hi
    interval_cases i <;> interval_cases j <;> simp [Block.testBit_get_ge]
  · rw [if_neg h4]
    have h4b : 4 ≤ i := Nat.le_of_not_lt h4
    by_cases h8 : i < 8
    · rw [if_pos h8, byte_be_testBit, Nat.testBit_or, Nat.testBit_shiftRight,
        carry_testBit _ 31, word_be_testBit 4 x 1 _ k1, word_be_testBit 4 x 0 _ k0]
      simp only [hj, decide_True, Bool.true_and]
      clear hP hi h4
      interval_cases i <;> interval_cases j <;> simp [Block.testBit_get_ge]
    · rw [if_neg h8]
      have h8b : 8 ≤ i := Nat.le_of_not_lt h8
      by_cases h12 : i < 12
      · rw [if_pos h12, byte_be_testBit, Nat.testBit_or, Nat.testBit_shiftRight,
          carry_testBit _ 31, word_be_testBit 4 x 2 _ k2, word_be_testBit 4 x 1 _ k1]
        simp only [hj, decide_True, Bool.true_and]
        clear hP hi h4 h8 h4b
        interval_cases i <;> interval_cases j <;> simp [Block.testBit_get_ge]
      · rw [if_neg h12, byte_be_testBit, Nat.testBit_or, Nat.testBit_shiftRight,
          carry_testBit _ 31, word_be_testBit 4 x 3 _ k3, word_be_testBit 4 x 2 _ k2]
        simp only [hj, decide_True, Bool.true_and]
        have h12b : 12 ≤ i := Nat.le_of_not_lt h12
        clear hP h4 h8 h4b h8b h12
        interval_cases i <;> interval_cases j <;> simp [Block.testBit_get_ge]

/-- Bit `j` of byte `i` of the result of the body of `gcm_rightshift` for a
big-endian host with 8-byte words, for any value `poly` of its constant:
byte 0 gets the top byte of `poly`, bytes 1 to 7 its other bytes. -/
theorem gcm_rightshift_be8_testBit (poly : Nat) (x : Block) (i j : Nat) (hi : i < 16)
    (hj : j < 8) :
    ((gcm_rightshift (Build.be8 poly) x).get i).testBit j =
      if i = 0 then xor ((x.get 0).testBit (j + 1)) ((x.get 15).testBit 0 && poly.testBit (56 + j))
      else if i < 8 then
        xor (if j = 7 then (x.get (i - 1)).testBit 0 else (x.get i).testBit (j + 1))
          ((x.get 15).testBit 0 && poly.testBit (8 * (7 - i) + j))
      else if j = 7 then (x.get (i - 1)).testBit 0
      else (x.get i).testBit (j + 1) := by
  have hP : poly % 2 ^ 64 < 2 ^ (8 * 8) := Nat.mod_lt _ (Nat.two_pow_pos 64)
  have k0 : 8 * 0 + 8 ≤ 16 := by decide
  have k1 : 8 * 1 + 8 ≤ 16 := by decide
  unfold gcm_rightshift
  simp only []
  rw [Block.testBit_get_ofFn _ _ _ hi]
  simp only [hj, decide_True, Bool.true_and]
  by_cases h8 : i < 8
  · rw [if_pos h8, byte_be_testBit, Nat.testBit_xor, Nat.testBit_shiftRight,
      neg_mask_low_testBit 8 _ _ _ hP, Nat.testBit_mod_two_pow,
      word_be_testBit 8 x 0 _ k0, word_be_testBit 8 x 1 _ k1]
    simp only [hj, decide_True, Bool.true_and]
    clear hP hi
    interval_cases i <;> interval_cases j <;> simp [Block.testBit_get_ge]
  · rw [if_neg h8, byte_be_testBit, Nat.testBit_or, Nat.testBit_shiftRight,
      carry_testBit _ 63, word_be_testBit 8 x 1 _ k1, word_be_testBit 8 x 0 _ k0]
    simp only [hj, decide_True, Bool.true_and]
    have h8b : 8 ≤ i := Nat.le_of_not_lt h8
    clear hP h8
    interval_cases i <;> interval_cases j <;> simp [Block.testBit_get_ge]

theorem testBit_0xE1_top (q : Nat) :
    ((0xE1 : Nat) <<< 120).testBit q = decide (q = 120 ∨ q = 125 ∨ q = 126 ∨ q = 127) := by
  rw [Nat.testBit_shiftLeft, testBit_0xE1]
  by_cases h : q ≥ 120
  · simp only [h, decide_True, Bool.true_and]
    congr 1
    apply propext
    omega
  · simp only [h, decide_False, Bool.false_and]
    symm
    rw [decide_eq_false_iff_not]
    omega

theorem load_be_block_testBit (x : Block) (p : Nat) :
    (load_be x.bytes).testBit p = (decide (p / 8 < 16) && (x.get (15 - p / 8)).testBit (p % 8)) := by
  rw [load_be_testBit _ x.byte_lt, x.size_eq]
  rfl

theorem rightshift_be128_testBit (x : Block) (i j : Nat) (hi : i < 16) (hj : j < 8) :
    ((rightshift_be128 x).get i).testBit j = shift_bit x i j := by
  have h0 : (load_be x.bytes).testBit 0 = (x.get 15).testBit 0 := by
    rw [load_be_block_testBit]
    rfl
  have hodd : load_be x.bytes % 2 = 1 ↔ (x.get 15).testBit 0 = true := by
    rw [← h0, Nat.testBit_zero, decide_eq_true_iff]
  unfold rightshift_be128 shift_bit
  simp only []
  rw [Block.testBit_get_ofFn _ _ _ hi, byte_be_testBit, Nat.testBit_xor, Nat.testBit_shiftRight,
    load_be_block_testBit]
  simp only [hj, decide_True, Bool.true_and, hodd, testBit_0xE1]
  by_cases hb : (x.get 15).testBit 0 = true
  · simp only [hb, if_true, testBit_0xE1_top]
    clear hodd hb h0
    interval_cases i <;> interval_cases j <;> simp [Block.testBit_get_ge]
  · simp only [hb, if_false, Nat.zero_testBit, Bool.xor_false]
    rw [Bool.not_eq_true] at hb
    simp only [hb, Bool.false_and, Bool.xor_false]
    clear hodd hb h0
    interval_cases i <;> interval_cases j <;> simp [Block.testBit_get_ge]

/-- The little-endian body for 8-byte words computes the byte-level shift. -/
theorem gcm_rightshift_le8 (x : Block) : gcm_rightshift Build.le8 x = rightshift_bytes x :=
  Block.ext_testBit fun i j hi hj => by
    rw [gcm_rightshift_le8_testBit x i j hi hj, rightshift_bytes_testBit x i j hi hj]

/-- The little-endian body for 4-byte words computes the byte-level shift. -/
theorem gcm_rightshift_le4 (x : Block) : gcm_rightshift Build.le4 x = rightshift_bytes x :=
  Block.ext_testBit fun i j hi hj => by
    rw [gcm_rightshift_le4_testBit x i j hi hj, rightshift_bytes_testBit x i j hi hj]

/-- The big-endian body for 4-byte words computes the byte-level shift. -/
theorem gcm_rightshift_be4 (x : Block) : gcm_rightshift Build.be4 x = rightshift_bytes x :=
  Block.ext_testBit fun i j hi hj => by
    rw [gcm_rightshift_be4_testBit x i j hi hj, rightshift_bytes_testBit x i j hi hj]

/-- The byte-level shift is the shift of the big-endian 128-bit number. -/
theorem rightshift_bytes_eq_be128 (x : Block) : rightshift_bytes x = rightshift_be128 x :=
  Block.ext_testBit fun i j hi hj => by
    rw [rightshift_be128_testBit x i j hi hj, rightshift_bytes_testBit x i j hi hj]

theorem rightshift_bytes_get (x : Block) (i : Nat) (hi : i < 16) :
    (rightshift_bytes x).get i =
      if i = 0 then (x.get 0 >>> 1) ^^^ (if x.get 15 % 2 = 1 then 0xE1 else 0)
      else (x.get i >>> 1) ||| ((x.get (i - 1) &&& 1) <<< 7) := by
  have hs : ∀ k, x.get k >>> 1 < 2 ^ 8 := fun k => by
    have h := x.get_lt k
    rw [Nat.shiftRight_eq_div_pow]
    omega
  unfold rightshift_bytes
  rw [Block.get_ofFn, if_pos hi]
  apply Nat.mod_eq_of_lt
  by_cases h0 : i = 0
  · rw [if_pos h0]
    apply Nat.xor_lt_two_pow (hs 0)
    by_cases hodd : x.get 15 % 2 = 1
    · rw [if_pos hodd]
      decide
    · rw [if_neg hodd]
      decide
  · rw [if_neg h0]
    apply Nat.or_lt_two_pow (hs i)
    rw [Nat.and_one_is_mod, Nat.shiftLeft_eq]
    have h2 : x.get (i - 1) % 2 < 2 := Nat.mod_lt _ (Nat.succ_pos 1)
    omega

/-- C17: for every 16-byte block `x`, both little-endian bodies of
`gcm_rightshift` (8-byte and 4-byte `long`) produce the block `y` with
`y[0] = (x[0] >> 1) XOR (0xE1 if x[15] is odd, else 0)` and
`y[i] = (x[i] >> 1) OR ((x[i-1] AND 1) << 7)` for `i = 1..15`, and that block
is the one-bit right shift of `x` read as a big-endian 128-bit number with
`0xE1` XORed into byte 0 exactly when the bit shifted out is 1. -/
theorem rightshift_little_endian (x : Block) :
    gcm_rightshift Build.le8 x = rightshift_bytes x ∧
      gcm_rightshift Build.le4 x = rightshift_bytes x ∧
      (rightshift_bytes x).get 0 = (x.get 0 >>> 1) ^^^ (if x.get 15 % 2 = 1 then 0xE1 else 0) ∧
      (∀ i, 1 ≤ i → i < 16 →
        (rightshift_bytes x).get i = (x.get i >>> 1) ||| ((x.get (i - 1) &&& 1) <<< 7)) ∧
      rightshift_bytes x = rightshift_be128 x := by
  refine ⟨gcm_rightshift_le8 x, gcm_rightshift_le4 x, ?_, ?_, rightshift_bytes_eq_be128 x⟩
  · rw [rightshift_bytes_get x 0 (by decide), if_pos rfl]
  · intro i h1 h16
    rw [rightshift_bytes_get x i h16, if_neg (by omega)]

/-- The big-endian body for 8-byte words computes the byte-level shift when
its constant is `0xE1` in the top byte of the word. -/
theorem gcm_rightshift_be8 (poly : Nat) (h : poly % 2 ^ 64 = GHASH_POLYNOMIAL <<< 56)
    (x : Block) : gcm_rightshift (Build.be8 poly) x = rightshift_bytes x := by
  have hp : ∀ q, q < 64 → poly.testBit q = decide (q = 56 ∨ q = 61 ∨ q = 62 ∨ q = 63) := by
    intro q hq
    rw [← testBit_poly_be8, ← h, Nat.testBit_mod_two_pow]
    simp [hq]
  apply Block.ext_testBit
  intro i j hi hj
  rw [gcm_rightshift_be8_testBit poly x i j hi hj, rightshift_bytes_testBit x i j hi hj]
  unfold shift_bit
  rw [hp (56 + j) (by omega), testBit_0xE1]
  by_cases h0 : i = 0
  · have e : decide (56 + j = 56 ∨ 56 + j = 61 ∨ 56 + j = 62 ∨ 56 + j = 63) =
        decide (j = 0 ∨ j = 5 ∨ j = 6 ∨ j = 7) := by
      apply decide_eq_decide.mpr
      omega
    rw [if_pos h0, if_pos h0, e]
  · rw [if_neg h0, if_neg h0]
    by_cases h8 : i < 8
    · rw [if_pos h8, hp _ (by omega)]
      have e : ¬ (8 * (7 - i) + j = 56 ∨ 8 * (7 - i) + j = 61 ∨ 8 * (7 - i) + j = 62 ∨
          8 * (7 - i) + j = 63) := by omega
      simp [e]
    · rw [if_neg h8]

/-- Every build whose constant is right computes the byte-level shift. -/
theorem gcm_rightshift_reduces (bld : Build) (h : bld.reduces) (x : Block) :
    gcm_rightshift bld x = rightshift_bytes x := by
  cases bld with
  | be4 => exact gcm_rightshift_be4 x
  | be8 poly => exact gcm_rightshift_be8 poly h x
  | le4 => exact gcm_rightshift_le4 x
  | le8 => exact gcm_rightshift_le8 x

theorem rightshift_bytes_last_one :
    rightshift_bytes block_last_one = Block.ofFn fun i => if i = 0 then 0xE1 else 0 := by
  decide

/-- C18: evaluation of the big-endian body for 8-byte words at the block
`00 ... 00 01`. The constant `GHASH_POLYNOMIAL << 56` is an `int` expression:
whatever `int` value it has, converted to `long` its 64-bit pattern `poly` is
below `2^31` or at least `2^64 - 2^31`. For every such pattern the body does
not give the byte-level shift `E1 00 ... 00`: byte 0 of its result is not
`0xE1`. The big-endian body for 4-byte words gives the byte-level shift for
every block. -/
theorem rightshift_be8_int_constant (poly : Nat)
    (h : poly % 2 ^ 64 < 2 ^ 31 ∨ 2 ^ 64 - 2 ^ 31 ≤ poly % 2 ^ 64) :
    (∀ x, gcm_rightshift Build.be4 x = rightshift_bytes x) ∧
      (rightshift_bytes block_last_one).get 0 = 0xE1 ∧
      (gcm_rightshift (Build.be8 poly) block_last_one).get 0 ≠ 0xE1 := by
  refine ⟨gcm_rightshift_be4, ?_, ?_⟩
  · rw [rightshift_bytes_last_one]
    rfl
  · intro heq
    have hb : ∀ j, j < 8 →
        ((gcm_rightshift (Build.be8 poly) block_last_one).get 0).testBit j =
          (poly % 2 ^ 64).testBit (56 + j) := by
      intro j hj
      rw [gcm_rightshift_be8_testBit poly _ 0 j (by decide) hj, if_pos rfl,
        Nat.testBit_mod_two_pow]
      have e0 : block_last_one.get 0 = 0 := by decide
      have e15 : block_last_one.get 15 = 1 := by decide
      have e64 : 56 + j < 64 := by omega
      simp [e0, e15, e64]
    have h56 := hb 0 (by decide)
    have h57 := hb 1 (by decide)
    rw [heq] at h56 h57
    have t0 : (0xE1 : Nat).testBit 0 = true := by decide
    have t1 : (0xE1 : Nat).testBit 1 = false := by decide
    rw [t0] at h56
    rw [t1] at h57
    rw [Nat.testBit_to_div_mod] at h56 h57
    simp only [Nat.add_zero, decide_eq_true_eq] at h56
    have h57b : ¬ (poly % 2 ^ 64 / 2 ^ (56 + 1) % 2 = 1) := by
      intro hc
      rw [hc] at h57
      exact absurd h57 (by decide)
    have hlt : poly % 2 ^ 64 < 2 ^ 64 := Nat.mod_lt _ (Nat.two_pow_pos 64)
    norm_num at h h56 h57b hlt
    omega

theorem rightshift_be8_int_constant_witness :
    ((0 : Nat) % 2 ^ 64 < 2 ^ 31 ∨ 2 ^ 64 - 2 ^ 31 ≤ (0 : Nat) % 2 ^ 64) ∧
      (gcm_rightshift (Build.be8 0) block_last_one).get 0 ≠ 0xE1 :=
  ⟨Or.inl (by decide), (rightshift_be8_int_constant 0 (Or.inl (by decide))).2.2⟩

/-! ## Blocks as polynomials over GF(2) -/

theorem coeff_bits_poly (f : Nat → Bool) (m : Nat) :
    (bits_poly f).coeff m = if m < 128 ∧ f m = true then 1 else 0 := by
  unfold bits_poly
  rw [Polynomial.finset_sum_coeff]
  have h : ∀ k, (if f k = true then (Polynomial.X : Polynomial (ZMod 2)) ^ k else 0).coeff m =
      if m = k then (if f k = true then 1 else 0) else 0 := by
    intro k
    by_cases hf : f k = true
    · simp [hf, Polynomial.coeff_X_pow]
    · simp [hf]
  simp only [h]
  rw [Finset.sum_ite_eq]
  by_cases hm : m < 128
  · simp [hm]
  · simp [hm]

theorem degree_bits_poly (f : Nat → Bool) : (bits_poly f).degree < 128 := by
  have h := (Polynomial.degree_lt_iff_coeff_zero (bits_poly f) 128).mpr
  apply h
  intro m hm
  rw [coeff_bits_poly, if_neg]
  intro hc
  omega

theorem bits_poly_xor (f g : Nat → Bool) :
    bits_poly (fun k => xor (f k) (g k)) = bits_poly f + bits_poly g := by
  apply Polynomial.ext
  intro m
  rw [Polynomial.coeff_add, coeff_bits_poly, coeff_bits_poly, coeff_bits_poly]
  by_cases hm : m < 128
  · cases f m <;> cases g m <;> simp [hm]
    decide
  · simp [hm]

theorem bits_poly_false : bits_poly (fun _ => false) = 0 := by
  apply Polynomial.ext
  intro m
  rw [coeff_bits_poly]
  simp

theorem bits_poly_congr (f g : Nat → Bool) (h : ∀ k, k < 128 → f k = g k) :
    bits_poly f = bits_poly g := by
  apply Polynomial.ext
  intro m
  rw [coeff_bits_poly, coeff_bits_poly]
  by_cases hm : m < 128
  · rw [h m hm]
  · simp [hm]

theorem bits_poly_injective (f g : Nat → Bool) (h : bits_poly f = bits_poly g) (k : Nat)
    (hk : k < 128) : f k = g k := by
  have hc : (bits_poly f).coeff k = (bits_poly g).coeff k := by rw [h]
  rw [coeff_bits_poly, coeff_bits_poly] at hc
  cases hf : f k <;> cases hg : g k <;> simp [hf, hg, hk] at hc <;> rfl

theorem Build.monic_modulus (bld : Build) : bld.modulus.Monic :=
  Polynomial.monic_X_pow_add (degree_bits_poly _)

theorem Build.degree_modulus (bld : Build) : bld.modulus.degree = 128 := by
  unfold Build.modulus
  rw [Polynomial.degree_add_eq_left_of_degree_lt]
  · exact Polynomial.degree_X_pow 128
  · rw [Polynomial.degree_X_pow]
    exact degree_bits_poly _

theorem coeff_shift_bit (x : Block) (k : Nat) (hk : k < 128) :
    shift_bit x (k / 8) (7 - k % 8) =
      xor (decide (0 < k) && x.coeff (k - 1))
        (x.coeff 127 && decide (k = 0 ∨ k = 1 ∨ k = 2 ∨ k = 7)) := by
  unfold shift_bit Block.coeff
  rw [testBit_0xE1]
  interval_cases k <;> simp [Block.testBit_get_ge]

theorem coeff_be8_bit (poly : Nat) (x : Block) (k : Nat) (hk : k < 128) :
    ((gcm_rightshift (Build.be8 poly) x).get (k / 8)).testBit (7 - k % 8) =
      xor (decide (0 < k) && x.coeff (k - 1))
        (x.coeff 127 && (decide (k < 64) && poly.testBit (63 - k))) := by
  rw [gcm_rightshift_be8_testBit poly x _ _ (by omega) (by omega)]
  unfold Block.coeff
  interval_cases k <;> simp [Block.testBit_get_ge]

/-- The coefficients of the block `gcm_rightshift` leaves: those of the
argument moved up by one degree, with the coefficients of the reduction
polynomial of the build added when the coefficient of `X^127` was one. -/
theorem coeff_gcm_rightshift (bld : Build) (x : Block) (k : Nat) (hk : k < 128) :
    (gcm_rightshift bld x).coeff k =
      xor (decide (0 < k) && x.coeff (k - 1)) (x.coeff 127 && bld.red k) := by
  have hi : k / 8 < 16 := by omega
  have hj : 7 - k % 8 < 8 := by omega
  cases bld with
  | be4 =>
    rw [Block.coeff, gcm_rightshift_be4_testBit x _ _ hi hj, coeff_shift_bit x k hk]
    rfl
  | be8 poly =>
    rw [Block.coeff, coeff_be8_bit poly x k hk]
    rfl
  | le4 =>
    rw [Block.coeff, gcm_rightshift_le4_testBit x _ _ hi hj, coeff_shift_bit x k hk]
    rfl
  | le8 =>
    rw [Block.coeff, gcm_rightshift_le8_testBit x _ _ hi hj, coeff_shift_bit x k hk]
    rfl

theorem coeff_modulus (bld : Build) (m : Nat) :
    bld.modulus.coeff m =
      (if m = 128 then 1 else 0) + (if m < 128 ∧ bld.red m = true then 1 else 0) := by
  unfold Build.modulus
  rw [Polynomial.coeff_add, Polynomial.coeff_X_pow, coeff_bits_poly]

/-- The block `gcm_rightshift` leaves stands for `X` times the polynomial of
the argument, with the polynomial of the build added when the product has
degree 128. -/
theorem poly_gcm_rightshift (bld : Build) (x : Block) :
    (gcm_rightshift bld x).poly =
      Polynomial.X * x.poly + (if x.coeff 127 = true then bld.modulus else 0) := by
  apply Polynomial.ext
  intro m
  have h2 : (1 : ZMod 2) + 1 = 0 := by decide
  rw [Polynomial.coeff_add, Block.poly, coeff_bits_poly]
  have hx : (if x.coeff 127 = true then bld.modulus else 0).coeff m =
      if x.coeff 127 = true then bld.modulus.coeff m else 0 := by
    by_cases h : x.coeff 127 = true
    · simp [h]
    · simp [h]
  rw [hx, coeff_modulus]
  cases m with
  | zero =>
    rw [Polynomial.coeff_X_mul_zero, coeff_gcm_rightshift bld x 0 (by decide)]
    cases x.coeff 127 <;> cases bld.red 0 <;> simp
  | succ n =>
    rw [Polynomial.coeff_X_mul, Block.poly, coeff_bits_poly]
    by_cases hn : n + 1 < 128
    · rw [coeff_gcm_rightshift bld x (n + 1) hn]
      have hn2 : n < 128 := by omega
      have hn3 : ¬ n + 1 = 128 := by omega
      simp only [Nat.add_sub_cancel, hn, hn2, hn3, true_and, if_false, Nat.succ_pos,
        decide_True, Bool.true_and, zero_add]
      cases x.coeff n <;> cases x.coeff 127 <;> cases bld.red (n + 1) <;> simp [h2]
    · by_cases h128 : n = 127
      · subst h128
        cases x.coeff 127 <;> simp [h2]
      · have hn2 : ¬ n < 128 := by omega
        have hn3 : ¬ n + 1 = 128 := by omega
        simp [hn, hn2, hn3]

/-! ## The multiplication loop -/

theorem and_0x80_ne_zero (b : Nat) : (b &&& 0x80 ≠ 0) ↔ b.testBit 7 = true := by
  constructor
  · intro h
    by_contra hb
    apply h
    apply Nat.eq_of_testBit_eq
    intro q
    rw [Nat.testBit_and, testBit_0x80, Nat.zero_testBit]
    by_cases hq : q = 7
    · subst hq
      simp [hb]
    · simp [hq]
  · intro hb h
    have h7 : (b &&& 0x80).testBit 7 = true := by
      rw [Nat.testBit_and, hb]
      rfl
    rw [h, Nat.zero_testBit] at h7
    exact absurd h7 (by decide)

theorem gcm_gf_mul_bits_eq (bld : Build) (n : Nat) :
    ∀ (b : Nat) (s : Block × Block), gcm_gf_mul_bits bld n b s = mul_steps bld (byte_bits n b) s := by
  induction n with
  | zero =>
    intro b s
    rfl
  | succ n ih =>
    intro b s
    obtain ⟨Z, V⟩ := s
    rw [gcm_gf_mul_bits, byte_bits, mul_steps, ih]
    congr 2
    by_cases hb : b.testBit 7 = true
    · rw [if_pos ((and_0x80_ne_zero b).mpr hb), if_pos hb]
      exact Block.memxor_block Z V
    · rw [if_neg (fun h => hb ((and_0x80_ne_zero b).mp h)), if_neg hb]

theorem mul_steps_append (bld : Build) (l1 l2 : List Bool) :
    ∀ s, mul_steps bld (l1 ++ l2) s = mul_steps bld l2 (mul_steps bld l1 s) := by
  induction l1 with
  | nil =>
    intro s
    rfl
  | cons bit bs ih =>
    intro s
    obtain ⟨Z, V⟩ := s
    rw [List.cons_append, mul_steps, mul_steps, ih]

theorem foldl_gcm_gf_mul_bits (bld : Build) (l : List Nat) :
    ∀ s, l.foldl (fun s b => gcm_gf_mul_bits bld 8 b s) s = mul_steps bld (bits_of_bytes l) s := by
  induction l with
  | nil =>
    intro s
    rfl
  | cons b bs ih =>
    intro s
    rw [List.foldl_cons, ih, bits_of_bytes, mul_steps_append, gcm_gf_mul_bits_eq]

/-- The function `gcm_gf_mul` as one pass over the 128 bits of `y`. -/
theorem gcm_gf_mul_eq_steps (bld : Build) (x y : Block) :
    gcm_gf_mul bld x y = (mul_steps bld (bits_of_bytes y.bytes) (Block.zero, x)).1 := by
  unfold gcm_gf_mul
  rw [foldl_gcm_gf_mul_bits]

theorem testBit_shl1 (b q : Nat) :
    ((b <<< 1) % 256).testBit q = (decide (q < 8) && (decide (1 ≤ q) && b.testBit (q - 1))) := by
  rw [show (256 : Nat) = 2 ^ 8 by rfl, Nat.testBit_mod_two_pow, Nat.testBit_shiftLeft]

theorem byte_bits_getD (n : Nat) :
    ∀ (b j : Nat), j < n → j ≤ 7 → (byte_bits n b).getD j false = b.testBit (7 - j) := by
  induction n with
  | zero =>
    intro b j hj
    omega
  | succ n ih =>
    intro b j hj h7
    cases j with
    | zero => rfl
    | succ j =>
      rw [byte_bits, List.getD_cons_succ, ih _ j (by omega) (by omega), testBit_shl1]
      have e1 : 7 - j < 8 := by omega
      have e2 : 1 ≤ 7 - j := by omega
      have e3 : 7 - j - 1 = 7 - (j + 1) := by omega
      simp [e1, e2, e3]

theorem length_byte_bits (n : Nat) : ∀ b, (byte_bits n b).length = n := by
  induction n with
  | zero =>
    intro b
    rfl
  | succ n ih =>
    intro b
    rw [byte_bits, List.length_cons, ih]

theorem length_bits_of_bytes (l : List Nat) : (bits_of_bytes l).length = 8 * l.length := by
  induction l with
  | nil => rfl
  | cons b bs ih =>
    rw [bits_of_bytes, List.length_append, length_byte_bits, ih, List.length_cons]
    omega

theorem bits_of_bytes_getD (l : List Nat) :
    ∀ (i j : Nat), i < l.length → j < 8 →
      (bits_of_bytes l).getD (8 * i + j) false = (l.getD i 0).testBit (7 - j) := by
  induction l with
  | nil =>
    intro i j hi
    simp at hi
  | cons b bs ih =>
    intro i j hi hj
    rw [bits_of_bytes]
    cases i with
    | zero =>
      rw [Nat.mul_zero, Nat.zero_add,
        List.getD_append _ _ _ _ (by rw [length_byte_bits]; omega)]
      exact byte_bits_getD 8 b j hj (by omega)
    | succ i =>
      rw [List.getD_append_right _ _ _ _ (by rw [length_byte_bits]; omega), length_byte_bits,
        show 8 * (i + 1) + j - 8 = 8 * i + j by omega, ih i j (by simpa using hi) hj]
      rfl

theorem Block.coeff_xor (a b : Block) (k : Nat) :
    (a.xor b).coeff k = Bool.xor (a.coeff k) (b.coeff k) := by
  unfold Block.coeff
  rw [Block.get_xor, Nat.testBit_xor]

theorem Block.poly_xor (a b : Block) : (a.xor b).poly = a.poly + b.poly := by
  unfold Block.poly
  rw [← bits_poly_xor]
  exact bits_poly_congr _ _ fun k _ => Block.coeff_xor a b k

theorem Block.coeff_zero (k : Nat) : Block.zero.coeff k = false := by
  unfold Block.coeff
  have h : Block.zero.get (k / 8) = 0 := by
    unfold Block.zero
    rw [Block.get_ofFn]
    simp
  rw [h, Nat.zero_testBit]

theorem Block.poly_zero : Block.zero.poly = 0 := by
  unfold Block.poly
  rw [← bits_poly_false]
  exact bits_poly_congr _ _ fun k _ => Block.coeff_zero k

/-- Two blocks that stand for the same polynomial are equal. -/
theorem Block.poly_injective (a b : Block) (h : a.poly = b.poly) : a = b := by
  apply Block.ext_testBit
  intro i j hi hj
  have hk := bits_poly_injective _ _ h (8 * i + (7 - j)) (by omega)
  unfold Block.coeff at hk
  rw [show (8 * i + (7 - j)) / 8 = i by omega, show 7 - (8 * i + (7 - j)) % 8 = j by omega] at hk
  exact hk

/-- The loop of `gcm_gf_mul` adds to `Z` the product of `V` and the
polynomial of the bits, up to a multiple of the polynomial of the build. -/
theorem mul_steps_poly (bld : Build) (l : List Bool) :
    ∀ Z V, bld.modulus ∣ (mul_steps bld l (Z, V)).1.poly - (Z.poly + list_poly l * V.poly) := by
  induction l with
  | nil =>
    intro Z V
    simp [mul_steps, list_poly]
  | cons bit bs ih =>
    intro Z V
    rw [mul_steps]
    have h := ih (if bit = true then Z.xor V else Z) (gcm_rightshift bld V)
    rw [poly_gcm_rightshift] at h
    have e : (mul_steps bld bs (if bit = true then Z.xor V else Z, gcm_rightshift bld V)).1.poly -
        (Z.poly + list_poly (bit :: bs) * V.poly) =
        ((mul_steps bld bs (if bit = true then Z.xor V else Z, gcm_rightshift bld V)).1.poly -
          ((if bit = true then Z.xor V else Z).poly + list_poly bs *
            (Polynomial.X * V.poly + (if V.coeff 127 = true then bld.modulus else 0)))) +
          bld.modulus * (if V.coeff 127 = true then list_poly bs else 0) := by
      cases bit <;> cases V.coeff 127 <;> simp [list_poly, Block.poly_xor] <;> ring
    rw [e]
    exact dvd_add h (dvd_mul_right _ _)

theorem coeff_list_poly (l : List Bool) :
    ∀ m, (list_poly l).coeff m = if l.getD m false = true then 1 else 0 := by
  induction l with
  | nil =>
    intro m
    simp [list_poly]
  | cons bit bs ih =>
    intro m
    rw [list_poly, Polynomial.coeff_add]
    cases m with
    | zero =>
      rw [Polynomial.coeff_X_mul_zero]
      cases bit <;> simp
    | succ n =>
      rw [Polynomial.coeff_X_mul, ih, List.getD_cons_succ]
      cases bit <;> simp [Polynomial.coeff_one]

/-- The bits `gcm_gf_mul` tests on `y`, in its order, are the coefficients
of `y` from `X^0` to `X^127`. -/
theorem list_poly_bits_of_bytes (y : Block) : list_poly (bits_of_bytes y.bytes) = y.poly := by
  apply Polynomial.ext
  intro m
  rw [coeff_list_poly, Block.poly, coeff_bits_poly]
  by_cases hm : m < 128
  · have h := bits_of_bytes_getD y.bytes (m / 8) (m % 8) (by rw [y.size_eq]; omega)
      (Nat.mod_lt _ (by decide))
    rw [Nat.div_add_mod] at h
    rw [h]
    simp [hm, Block.coeff, Block.get]
  · rw [List.getD_eq_default _ _ (by rw [length_bits_of_bytes, y.size_eq]; omega)]
    simp [hm]

theorem Block.degree_poly (bld : Build) (x : Block) : x.poly.degree < bld.modulus.degree := by
  rw [Build.degree_modulus]
  exact degree_bits_poly _

/-- The block `gcm_gf_mul` leaves stands for the product of the polynomials
of its arguments modulo the polynomial of the build. -/
theorem poly_gcm_gf_mul (bld : Build) (x y : Block) :
    (gcm_gf_mul bld x y).poly = Polynomial.modByMonic (x.poly * y.poly) bld.modulus := by
  have h := mul_steps_poly bld (bits_of_bytes y.bytes) Block.zero x
  rw [← gcm_gf_mul_eq_steps, list_poly_bits_of_bytes, Block.poly_zero, zero_add,
    mul_comm y.poly x.poly] at h
  have h2 := Polynomial.modByMonic_eq_of_dvd_sub bld.monic_modulus h
  rw [← h2]
  symm
  exact (Polynomial.modByMonic_eq_self_iff bld.monic_modulus).mpr (Block.degree_poly bld _)

theorem Build.red_reduces (bld : Build) (h : bld.reduces) (k : Nat) :
    bld.red k = decide (k = 0 ∨ k = 1 ∨ k = 2 ∨ k = 7) := by
  cases bld with
  | be4 => rfl
  | be8 poly =>
    have hp : ∀ q, q < 64 → poly.testBit q = decide (q = 56 ∨ q = 61 ∨ q = 62 ∨ q = 63) := by
      intro q hq
      rw [← testBit_poly_be8, ← h, Nat.testBit_mod_two_pow]
      simp [hq]
    show (decide (k < 64) && poly.testBit (63 - k)) = _
    by_cases hk : k < 64
    · rw [hp _ (by omega)]
      simp only [hk, decide_True, Bool.true_and]
      apply decide_eq_decide.mpr
      omega
    · simp only [hk, decide_False, Bool.false_and]
      symm
      rw [decide_eq_false_iff_not]
      omega
  | le4 => rfl
  | le8 => rfl

/-- The builds whose constant is right reduce by the GCM field polynomial. -/
theorem Build.modulus_reduces (bld : Build) (h : bld.reduces) :
    bld.modulus = field_polynomial := by
  unfold Build.modulus field_polynomial
  rw [add_assoc, add_assoc, add_assoc]
  congr 1
  apply Polynomial.ext
  intro m
  rw [coeff_bits_poly, Build.red_reduces bld h]
  simp only [Polynomial.coeff_add, Polynomial.coeff_X_pow, Polynomial.coeff_X,
    Polynomial.coeff_one]
  by_cases h0 : m = 0
  · subst h0
    simp
  · by_cases h1 : m = 1
    · subst h1
      simp
    · by_cases h2 : m = 2
      · subst h2
        simp
      · by_cases h7 : m = 7
        · subst h7
          simp
        · have h1b : ¬ 1 = m := fun e => h1 e.symm
          simp [h0, h1, h2, h7, h1b]

theorem poly_block_X : block_X.poly = Polynomial.X := by
  apply Polynomial.ext
  intro m
  rw [Block.poly, coeff_bits_poly, Polynomial.coeff_X]
  by_cases h1 : m = 1
  · subst h1
    have e : block_X.coeff 1 = true := by decide
    simp [e]
  · have h1b : ¬ 1 = m := fun e => h1 e.symm
    rw [if_neg h1b, if_neg]
    intro hc
    obtain ⟨hm, hb⟩ := hc
    unfold Block.coeff block_X at hb
    rw [Block.get_ofFn] at hb
    by_cases h8 : m / 8 = 0
    · have hm8 : m < 8 := by omega
      interval_cases m <;> first | exact absurd rfl h1 | exact absurd hb (by decide)
    · simp [h8] at hb

/-- C12: in the bit order of the GCM specification (bit 7 of byte 0 is the
coefficient of `X^0`, bit 0 of byte 15 that of `X^127`, the block `010...0`
is `X`), for all blocks `a` and `b` the block `gcm_gf_mul (a, b)` leaves in
`a` stands for the product of `a` and `b` in
`GF(2)[X] / (X^128 + X^7 + X^2 + X + 1)`: its polynomial is the remainder of
the product, and its class in the quotient ring is the product of the
classes. This holds in every build of `gcm_rightshift` whose reduction
constant is `0xE1` in the top byte of the first word. -/
theorem gcm_gf_mul_field_product (bld : Build) (h : bld.reduces) (a b : Block) :
    (gcm_gf_mul bld a b).poly = Polynomial.modByMonic (a.poly * b.poly) field_polynomial ∧
      AdjoinRoot.mk field_polynomial (gcm_gf_mul bld a b).poly =
        AdjoinRoot.mk field_polynomial a.poly * AdjoinRoot.mk field_polynomial b.poly ∧
      (∀ (x : Block) (k : Nat), x.poly.coeff k =
        if k < 128 ∧ (x.get (k / 8)).testBit (7 - k % 8) = true then 1 else 0) ∧
      block_X.poly = Polynomial.X := by
  have hm := Build.modulus_reduces bld h
  have hp := poly_gcm_gf_mul bld a b
  rw [hm] at hp
  refine ⟨hp, ?_, fun x k => coeff_bits_poly _ k, poly_block_X⟩
  rw [← map_mul, AdjoinRoot.mk_eq_mk, hp]
  have hmonic : field_polynomial.Monic := hm ▸ bld.monic_modulus
  have hd := Polynomial.modByMonic_add_div (a.poly * b.poly) hmonic
  refine ⟨- (Polynomial.divByMonic (a.poly * b.poly) field_polynomial), ?_⟩
  linear_combination hd

theorem gcm_gf_mul_field_product_witness :
    Build.le8.reduces ∧
      (gcm_gf_mul Build.le8 block_X block_last_one).poly =
        Polynomial.modByMonic (block_X.poly * block_last_one.poly) field_polynomial :=
  ⟨trivial, (gcm_gf_mul_field_product Build.le8 trivial block_X block_last_one).1⟩

/-- C14: for all 16-byte blocks `a`, `b`, `c`, in every build,
`gcm_gf_mul (a, b XOR c) = gcm_gf_mul (a, b) XOR gcm_gf_mul (a, c)`, and
multiplying by the all-zero block yields the all-zero block. -/
theorem gcm_gf_mul_left_distrib (bld : Build) (a b c : Block) :
    gcm_gf_mul bld a (b.xor c) = (gcm_gf_mul bld a b).xor (gcm_gf_mul bld a c) ∧
      gcm_gf_mul bld a Block.zero = Block.zero := by
  constructor
  · apply Block.poly_injective
    rw [Block.poly_xor, poly_gcm_gf_mul, poly_gcm_gf_mul, poly_gcm_gf_mul, Block.poly_xor,
      mul_add, Polynomial.add_modByMonic]
  · apply Block.poly_injective
    rw [poly_gcm_gf_mul, Block.poly_zero, mul_zero, Polynomial.zero_modByMonic]

/-- C20: for all 16-byte blocks `a` and `b`, in every build,
`gcm_gf_mul (a, b) = gcm_gf_mul (b, a)`. -/
theorem gcm_gf_mul_comm (bld : Build) (a b : Block) :
    gcm_gf_mul bld a b = gcm_gf_mul bld b a := by
  apply Block.poly_injective
  rw [poly_gcm_gf_mul, poly_gcm_gf_mul, mul_comm]

/-! ## The reading with the most significant bit of byte 0 as `X^127` -/

/-- The reading of the data model is the mirror image of the reading of the
GCM specification: the coefficient of `X^k` is exchanged with that of
`X^(127-k)`. -/
theorem Block.poly_be_eq_reflect (x : Block) : x.poly_be = Polynomial.reflect 127 x.poly := by
  apply Polynomial.ext
  intro m
  rw [Polynomial.coeff_reflect, Block.poly_be, Block.poly, coeff_bits_poly, coeff_bits_poly]
  by_cases hm : m < 128
  · rw [Polynomial.revAt_le (by omega)]
    have e : 127 - m < 128 := by omega
    simp [hm, e]
  · rw [Polynomial.revAt_eq_self_of_lt (by omega)]
    simp [hm]

theorem Block.reflect_poly_be (x : Block) : Polynomial.reflect 127 x.poly_be = x.poly := by
  rw [Block.poly_be_eq_reflect]
  apply Polynomial.ext
  intro m
  rw [Polynomial.coeff_reflect, Polynomial.coeff_reflect, Polynomial.revAt_invol]

theorem coeff_block_last_one (j : Nat) (hj : j < 128) :
    block_last_one.coeff j = decide (j = 127) := by
  interval_cases j <;> rfl

theorem poly_be_block_last_one : block_last_one.poly_be = 1 := by
  apply Polynomial.ext
  intro m
  rw [Block.poly_be, coeff_bits_poly, Polynomial.coeff_one]
  by_cases hm : m < 128
  · rw [coeff_block_last_one _ (by omega)]
    by_cases h0 : m = 0
    · simp [h0]
    · have e : ¬ 127 - m = 127 := by omega
      simp [hm, h0, e]
  · have h0 : ¬ m = 0 := by omega
    simp [hm, h0]

set_option maxRecDepth 100000 in
theorem square_block_last_one_top :
    (gcm_gf_mul Build.le8 block_last_one block_last_one).coeff 0 = true := by
  decide

theorem field_polynomial_monic : field_polynomial.Monic :=
  Build.modulus_reduces Build.le8 trivial ▸ Build.le8.monic_modulus

theorem field_polynomial_degree : field_polynomial.degree = 128 :=
  Build.modulus_reduces Build.le8 trivial ▸ Build.le8.degree_modulus

/-- C13, as stated, fails: with the most significant bit of byte 0 read as
the coefficient of `X^127` and the least significant bit of byte 15 as the
constant coefficient, the block `00 ... 00 01` is the polynomial `1`, and
`gcm_gf_mul` of it with itself is `E6 08 00 ... 00 03`, not the block of
`1 * 1`. -/
theorem be_reading_not_product :
    (gcm_gf_mul Build.le8 block_last_one block_last_one).poly_be ≠
      Polynomial.modByMonic (block_last_one.poly_be * block_last_one.poly_be) field_polynomial := by
  intro h
  have h1 : Polynomial.modByMonic (1 : Polynomial (ZMod 2)) field_polynomial = 1 := by
    apply (Polynomial.modByMonic_eq_self_iff field_polynomial_monic).mpr
    rw [field_polynomial_degree, Polynomial.degree_one]
    decide
  rw [poly_be_block_last_one, mul_one, h1] at h
  have hc : (gcm_gf_mul Build.le8 block_last_one block_last_one).poly_be.coeff 127 =
      (1 : Polynomial (ZMod 2)).coeff 127 := by rw [h]
  rw [Block.poly_be, coeff_bits_poly, Polynomial.coeff_one] at hc
  simp only [Nat.sub_self, square_block_last_one_top] at hc
  revert hc
  decide

/-- C13, amended: with the most significant bit of byte 0 read as the
coefficient of `X^127` and the least significant bit of byte 15 as the
constant coefficient, `gcm_gf_mul (a, b)` is the mirror image (the
coefficient of `X^k` exchanged with that of `X^(127-k)`) of the product
modulo `X^128 + X^7 + X^2 + X + 1` of the mirror images of `a` and `b`: the
product is taken with the most significant bit of byte 0 as the constant
coefficient. This holds in every build of `gcm_rightshift` whose reduction
constant is `0xE1` in the top byte of the first word. -/
theorem gcm_gf_mul_mirrored (bld : Build) (h : bld.reduces) (a b : Block) :
    (gcm_gf_mul bld a b).poly_be =
      Polynomial.reflect 127 (Polynomial.modByMonic
        (Polynomial.reflect 127 a.poly_be * Polynomial.reflect 127 b.poly_be)
        field_polynomial) := by
  rw [Block.reflect_poly_be, Block.reflect_poly_be, Block.poly_be_eq_reflect, poly_gcm_gf_mul,
    Build.modulus_reduces bld h]

theorem gcm_gf_mul_mirrored_witness :
    Build.le8.reduces ∧
      (gcm_gf_mul Build.le8 block_last_one block_last_one).poly_be =
        Polynomial.reflect 127 (Polynomial.modByMonic
          (Polynomial.reflect 127 block_last_one.poly_be *
            Polynomial.reflect 127 block_last_one.poly_be) field_polynomial) :=
  ⟨trivial, gcm_gf_mul_mirrored Build.le8 trivial block_last_one block_last_one⟩

end Gcm
